import Mathlib

/-!
The ACA decompressor of the Jam STAPL byte-code player (`jbicomp.c`)

A shallow embedding of `jbi_bits_required`, `jbi_read_packed` and
`jbi_uncompress`, followed by theorems about them.

Conventions of the embedding.

* `unsigned int` is 32 bits wide: its arithmetic is written on `Nat` with an
  explicit reduction modulo `2 ^ 32` (`u32`, `usub32`).
* `unsigned long` is `W` bytes wide, `W = sizeof (unsigned long)`; `W` is a
  parameter of `jbi_uncompress` because it comes from the platform, not from
  the source file.
* A buffer is the list of the bytes of the array object a pointer refers to.
  An access outside the object is undefined behaviour in C; the embedding
  reports it as a `Fault`.
* A `while` loop without a syntactic bound is unrolled along a fuel argument;
  running out of fuel is the fault `no_return`.  For each loop the fuel that
  the enclosing function supplies is shown to be enough, or the loop is shown
  not to terminate.
* The ghost field `accesses` of `State` logs every buffer access in order.
-/

namespace JBI

/-! ## Constants of `jbicomp.c` -/

def SHORT_BITS : Nat := 16
def CHAR_BITS : Nat := 8
def DATA_BLOB_LENGTH : Nat := 3
def MATCH_DATA_LENGTH : Nat := 8192

/-- Width in bits of `unsigned int`. -/
def UINT_BITS : Nat := 32

/-- Reduction of a value to `unsigned int`. -/
def u32 (x : Nat) : Nat := x % 2 ^ UINT_BITS

/-- Subtraction `a - b` of `unsigned int` values, wrapping around. -/
def usub32 (a b : Nat) : Nat := (a % 2 ^ UINT_BITS + 2 ^ UINT_BITS - b % 2 ^ UINT_BITS) % 2 ^ UINT_BITS

/-- Subtraction `a - b` of `unsigned long` values (`W` bytes), wrapping around. -/
def usubl (W a b : Nat) : Nat :=
  (a % 2 ^ (8 * W) + 2 ^ (8 * W) - b % 2 ^ (8 * W)) % 2 ^ (8 * W)

/-- Conversion of an integer value to `short` (16 bits, two's complement). -/
def to_short (x : Nat) : Int :=
  if x % 2 ^ 16 < 2 ^ 15 then ((x % 2 ^ 16 : Nat) : Int) else ((x % 2 ^ 16 : Nat) : Int) - 2 ^ 16

/-- Conversion of a `short` to `unsigned int`. -/
def short_to_uint (x : Int) : Nat := (x % 2 ^ 32).toNat

/-! ## Faults, accesses, state -/

/-- The ways in which an execution can fail to return a value. -/
inductive Fault where
  /-- a read of the input buffer outside the array object -/
  | in_overrun
  /-- an access of the output buffer outside the array object -/
  | out_range
  /-- a loop that does not terminate -/
  | no_return
  deriving DecidableEq, Repr

deriving instance DecidableEq for Except

/-- One access of a buffer, for the ghost log. -/
inductive Access where
  /-- `buffer[idx]` read in `jbi_read_packed` -/
  | rd_in (idx : Nat)
  /-- `out[idx]` read in `jbi_uncompress` -/
  | rd_out (idx : Nat)
  /-- `out[idx] = val` in `jbi_uncompress` -/
  | wr_out (idx val : Nat)
  deriving DecidableEq, Repr

/-- The global variables of `jbicomp.c`, and the ghost log of buffer accesses. -/
structure State where
  jbi_in_length : Nat
  jbi_in_index : Nat
  jbi_bits_avail : Nat
  accesses : List Access
  deriving DecidableEq, Repr

/-! ## `jbi_bits_required` -/

/-- The `while` loop of `jbi_bits_required`; the first argument is the fuel. -/
def bits_required_loop : Nat → Nat → Nat → Except Fault Nat
  | 0, _, _ => .error .no_return
  | fuel + 1, n, result =>
    if n &&& (1 <<< (SHORT_BITS - 1)) = 0 then
      bits_required_loop fuel (u32 (n <<< 1)) (usub32 result 1)
    else
      .ok result

/-- The function `unsigned int jbi_bits_required(unsigned int n)`.  After `UINT_BITS` shifts
`n` is zero for good, so `UINT_BITS` is all the fuel the loop can use. -/
def jbi_bits_required (n : Nat) : Except Fault Nat :=
  if n = 0 then .ok 1 else bits_required_loop UINT_BITS n SHORT_BITS

/-! ## `jbi_read_packed` -/

/-- The `while (bits > 0)` loop of `jbi_read_packed`; the first argument is the
fuel, then come the locals `bits`, `result`, `shift` and the globals. -/
def read_packed_loop (buffer : List Nat) : Nat → Nat → Nat → Nat → State → Except Fault (Nat × State)
  | 0, _, _, _, _ => .error .no_return
  | fuel + 1, bits, result, shift, g =>
    if bits > 0 then
      match buffer[g.jbi_in_index]? with
      | none => .error .in_overrun
      | some b =>
        let databyte := b % 256
        let g := { g with accesses := g.accesses ++ [Access.rd_in g.jbi_in_index] }
        let result := result ||| u32 (((databyte >>> usub32 CHAR_BITS g.jbi_bits_avail)
          &&& (0xFF >>> usub32 CHAR_BITS g.jbi_bits_avail)) <<< shift)
        if bits ≤ g.jbi_bits_avail then
          let result := result &&& (0xFFFF >>> usub32 SHORT_BITS (u32 (bits + shift)))
          read_packed_loop buffer fuel 0 result shift
            { g with jbi_bits_avail := usub32 g.jbi_bits_avail bits }
        else
          read_packed_loop buffer fuel (usub32 bits g.jbi_bits_avail) result
            (u32 (shift + g.jbi_bits_avail))
            { g with jbi_in_index := g.jbi_in_index + 1, jbi_bits_avail := CHAR_BITS }
    else
      .ok (result, g)

/-- The function
`unsigned int jbi_read_packed(unsigned char *buffer, unsigned int bits)`.
With `jbi_bits_avail ≤ 8` and `bits ≤ 16`, as in every call made by
`jbi_uncompress`, no shift count reaches the width of `unsigned int`; a shift
by more, which C leaves undefined, shifts everything out here.
The loop tests its condition at most `bits + 2` times. -/
def jbi_read_packed (buffer : List Nat) (bits : Nat) (g : State) : Except Fault (Nat × State) :=
  read_packed_loop buffer (bits + 2) bits 0 0 g

/-! ## `jbi_uncompress` -/

/-- The locals `i` and `*out` of `jbi_uncompress`, with the globals. -/
structure Dec where
  i : Nat
  out : List Nat
  g : State
  deriving DecidableEq, Repr

/-- The loop `for (i = 0; i < out_length; ++i) out[i] = 0;` with the number of
iterations still to run as first argument. -/
def zero_loop : Nat → Nat → List Nat → Except Fault (List Nat)
  | 0, _, out => .ok out
  | k + 1, i, out =>
    if i < out.length then zero_loop k (i + 1) (out.set i 0) else .error .out_range

/-- The loop `for (i = 0; i < sizeof (in_length); ++i) data_length = data_length |
((unsigned long) jbi_read_packed(in, CHAR_BITS) << (i * CHAR_BITS));` with the
number of iterations still to run as first loop argument. -/
def header_loop (W : Nat) (inb : List Nat) : Nat → Nat → Nat → State → Except Fault (Nat × State)
  | 0, _, data_length, g => .ok (data_length, g)
  | k + 1, i, data_length, g =>
    match jbi_read_packed inb CHAR_BITS g with
    | .error e => .error e
    | .ok (v, g) =>
      header_loop W inb k (i + 1)
        (data_length ||| ((v <<< (i * CHAR_BITS)) % 2 ^ (8 * W))) g

/-- The loop `for (j = 0; j < DATA_BLOB_LENGTH; ++j) if (i < data_length) { out[i] =
(unsigned char) jbi_read_packed(in, CHAR_BITS); i++; }` with the number of
iterations still to run as first loop argument. -/
def literal_loop (inb : List Nat) (data_length : Nat) : Nat → Dec → Except Fault Dec
  | 0, d => .ok d
  | k + 1, d =>
    if d.i < data_length then
      match jbi_read_packed inb CHAR_BITS d.g with
      | .error e => .error e
      | .ok (v, g) =>
        if d.i < d.out.length then
          literal_loop inb data_length k
            { i := d.i + 1,
              out := d.out.set d.i (v % 256),
              g := { g with accesses := g.accesses ++ [Access.wr_out d.i (v % 256)] } }
        else .error .out_range
    else literal_loop inb data_length k d

/-- The loop `for (j = 0; j < length; ++j) if (i < data_length) { out[i] =
out[i - offset]; i++; }` with the number of iterations still to run as first
loop argument. -/
def copy_loop (W offset data_length : Nat) : Nat → Dec → Except Fault Dec
  | 0, d => .ok d
  | k + 1, d =>
    if d.i < data_length then
      match d.out[usubl W d.i offset]? with
      | none => .error .out_range
      | some b =>
        if d.i < d.out.length then
          copy_loop W offset data_length k
            { i := d.i + 1,
              out := d.out.set d.i (b % 256),
              g := { d.g with accesses := d.g.accesses ++
                [Access.rd_out (usubl W d.i offset), Access.wr_out d.i (b % 256)] } }
        else .error .out_range
    else copy_loop W offset data_length k d

/-- The argument of `jbi_bits_required` at the call in `jbi_uncompress`:
`(short) (i > match_data_length ? match_data_length : i)`, converted to the
parameter type `unsigned int`. -/
def offset_cap (match_data_length i : Nat) : Nat :=
  short_to_uint (to_short (if i > match_data_length then match_data_length else i))

/-- The body of the `while (i < data_length)` loop of `jbi_uncompress`: one token. -/
def token_step (W : Nat) (inb : List Nat) (data_length match_data_length : Nat) (d : Dec) :
    Except Fault Dec :=
  match jbi_read_packed inb 1 d.g with
  | .error e => .error e
  | .ok (flag, g) =>
    if flag = 0 then
      literal_loop inb data_length DATA_BLOB_LENGTH { d with g := g }
    else
      match jbi_bits_required (offset_cap match_data_length d.i) with
      | .error e => .error e
      | .ok width =>
        match jbi_read_packed inb width g with
        | .error e => .error e
        | .ok (offset, g) =>
          match jbi_read_packed inb CHAR_BITS g with
          | .error e => .error e
          | .ok (length, g) =>
            copy_loop W offset data_length length { d with g := g }

/-- The `while (i < data_length)` loop of `jbi_uncompress`; the first loop
argument is the fuel. -/
def token_loop (W : Nat) (inb : List Nat) (data_length match_data_length : Nat) :
    Nat → Dec → Except Fault Dec
  | 0, d => if d.i < data_length then .error .no_return else .ok d
  | fuel + 1, d =>
    if d.i < data_length then
      match token_step W inb data_length match_data_length d with
      | .error e => .error e
      | .ok d => token_loop W inb data_length match_data_length fuel d
    else .ok d

/-- The local `match_data_length` after `if (version > 0) --match_data_length;`. -/
def match_window (version : Int) : Nat :=
  if version > 0 then usub32 MATCH_DATA_LENGTH 1 else MATCH_DATA_LENGTH

/-- The assignments `jbi_in_length = in_length; jbi_bits_avail = CHAR_BITS; jbi_in_index = 0L;` -/
def reset_cursor (in_length : Nat) (g : State) : State :=
  { g with jbi_in_length := in_length, jbi_bits_avail := CHAR_BITS, jbi_in_index := 0 }

/-- What a call of `jbi_uncompress` leaves behind: the returned value, the
final value of the local `i`, the output buffer and the globals. -/
structure Result where
  ret : Nat
  i : Nat
  out : List Nat
  g : State
  deriving DecidableEq, Repr

/-- The function `unsigned long jbi_uncompress(unsigned char *in, unsigned long in_length,
unsigned char *out, unsigned long out_length, int version)`, run from the
globals `g`; `W` is `sizeof (unsigned long)`.  Every token takes more than
eight bits of input, so the token loop runs fewer than `inb.length` times
before it stops or reads outside `inb`: that is its fuel. -/
def jbi_uncompress (W : Nat) (inb : List Nat) (in_length : Nat) (out : List Nat)
    (out_length : Nat) (version : Int) (g : State) : Except Fault Result :=
  let match_data_length := match_window version
  let g := reset_cursor in_length g
  match zero_loop out_length 0 out with
  | .error e => .error e
  | .ok out =>
    match header_loop W inb W 0 0 g with
    | .error e => .error e
    | .ok (data_length, g) =>
      if data_length > out_length then
        .ok { ret := 0, i := W, out := out, g := g }
      else
        match token_loop W inb data_length match_data_length inb.length { i := 0, out := out, g := g } with
        | .error e => .error e
        | .ok d => .ok { ret := data_length, i := d.i, out := d.out, g := d.g }

/-! ## Definitions used to state the properties -/

/-- Number of zero bits of `n` met when scanning down from bit `k - 1` until
the first set bit. -/
def lz_from : Nat → Nat → Nat
  | 0, _ => 0
  | k + 1, n => if n.testBit k then 0 else 1 + lz_from k n

/-- Number of leading zero bits of `n` viewed as a 16-bit value. -/
def leadingZeroBits16 (n : Nat) : Nat := lz_from 16 n

/-- Absolute bit position of the cursor: bits of the stream consumed so far. -/
def bit_pos (g : State) : Nat := 8 * g.jbi_in_index + (8 - g.jbi_bits_avail)

/-- Bit `q` of the stream held in `buffer`, bytes taken LSB first. -/
def stream_bit (buffer : List Nat) (q : Nat) : Nat := (buffer.getD (q / 8) 0 >>> (q % 8)) &&& 1

/-- The value of the `n` bits of the stream from bit `p` on, first bit lowest. -/
def bits_val (buffer : List Nat) : Nat → Nat → Nat
  | _, 0 => 0
  | p, n + 1 => stream_bit buffer p + 2 * bits_val buffer (p + 1) n

/-- The globals after a read of `n ≥ 1` bits that stays inside the buffer. -/
def cursor_after (g : State) (n : Nat) : State :=
  { jbi_in_length := g.jbi_in_length,
    jbi_in_index := (bit_pos g + n - 1) / 8,
    jbi_bits_avail := 8 * ((bit_pos g + n - 1) / 8 + 1) - (bit_pos g + n),
    accesses := g.accesses ++
      (List.range' g.jbi_in_index ((bit_pos g + n - 1) / 8 + 1 - g.jbi_in_index)).map Access.rd_in }

/-- Little-endian value of a list of bytes. -/
def le_value : List Nat → Nat
  | [] => 0
  | b :: bs => b % 256 + 256 * le_value bs

/-- The length that the header of `inb` declares: its first `W` bytes, little-endian. -/
def declared_length (W : Nat) (inb : List Nat) : Nat := le_value (inb.take W)

/-- The globals after `k` reads of eight bits each. -/
def after_bytes (g : State) : Nat → State
  | 0 => g
  | k + 1 => after_bytes (cursor_after g 8) k

/-! ### The wire format, as the specification words it -/

/-- A token of the compressed body. -/
inductive Token where
  /-- flag bit 0, then the bytes, eight bits each -/
  | literal (bytes : List Nat)
  /-- flag bit 1, then the offset field and the eight-bit length field -/
  | matching (offset length : Nat)
  deriving DecidableEq, Repr

/-- The bytes that a match token appends to the payload `acc` when `L` bytes
are declared: `min length (L - pos)` bytes, the `k`-th one being the byte at
index `pos - offset + k mod offset` of `acc`, where `pos = acc.length`. -/
def match_bytes (L : Nat) (acc : List Nat) (offset length : Nat) : List Nat :=
  (List.range (min length (L - acc.length))).map
    fun k => acc.getD (acc.length - offset + k % offset) 0

/-- The payload after one more token. -/
def token_expand (L : Nat) (acc : List Nat) : Token → List Nat
  | .literal bytes => acc ++ bytes
  | .matching offset length => acc ++ match_bytes L acc offset length

/-- The payload that a token list expands to, from the payload `acc` so far. -/
def expand (L : Nat) : List Token → List Nat → List Nat
  | [], acc => acc
  | t :: ts, acc => expand L ts (token_expand L acc t)

/-- Width of the offset field of a match token at output position `pos`:
`jbi_bits_required (min pos matchWindowSize)`. -/
def field_width (mws pos : Nat) : Nat :=
  match jbi_bits_required (min pos mws) with
  | .ok w => w
  | .error _ => 0

/-- The bit fields `(width, value)` of a token at output position `pos`, in
stream order. -/
def token_fields (mws pos : Nat) : Token → List (Nat × Nat)
  | .literal bytes => (1, 0) :: bytes.map fun b => (8, b)
  | .matching offset length => [(1, 1), (field_width mws pos, offset), (8, length)]

/-- The bit fields of a token list, from the payload `acc` so far. -/
def fields (mws L : Nat) : List Token → List Nat → List (Nat × Nat)
  | [], _ => []
  | t :: ts, acc => token_fields mws acc.length t ++ fields mws L ts (token_expand L acc t)

/-- A well-formed token at the payload `acc`: a literal token carries exactly
`min 3 (L - pos)` bytes; a match token has `1 ≤ offset ≤ pos`, an offset that
fits its field and a length of at most 255. -/
def token_ok (mws L : Nat) (acc : List Nat) : Token → Prop
  | .literal bytes => bytes.length = min 3 (L - acc.length) ∧ ∀ b ∈ bytes, b < 256
  | .matching offset length =>
    1 ≤ offset ∧ offset ≤ acc.length ∧ offset < 2 ^ field_width mws acc.length ∧ length ≤ 255

instance token_ok_decidable (mws L : Nat) (acc : List Nat) :
    (t : Token) → Decidable (token_ok mws L acc t)
  | .literal bytes =>
    inferInstanceAs (Decidable (bytes.length = min 3 (L - acc.length) ∧ ∀ b ∈ bytes, b < 256))
  | .matching offset length =>
    inferInstanceAs (Decidable (1 ≤ offset ∧ offset ≤ acc.length ∧
      offset < 2 ^ field_width mws acc.length ∧ length ≤ 255))

/-- A well-formed token list, from the payload `acc` so far. -/
def well_formed (mws L : Nat) : List Token → List Nat → Prop
  | [], _ => True
  | t :: ts, acc => token_ok mws L acc t ∧ well_formed mws L ts (token_expand L acc t)

instance well_formed_decidable (mws L : Nat) :
    (ts : List Token) → (acc : List Nat) → Decidable (well_formed mws L ts acc)
  | [], _ => isTrue trivial
  | t :: ts, acc =>
    have : Decidable (well_formed mws L ts (token_expand L acc t)) :=
      well_formed_decidable mws L ts (token_expand L acc t)
    inferInstanceAs (Decidable (token_ok mws L acc t ∧ well_formed mws L ts (token_expand L acc t)))

/-- The number that a list of bit fields spells, first field in the lowest bits. -/
def field_value : List (Nat × Nat) → Nat
  | [] => 0
  | (w, v) :: fs => v % 2 ^ w + 2 ^ w * field_value fs

/-- The number of bits of a list of bit fields. -/
def field_bits : List (Nat × Nat) → Nat
  | [] => 0
  | (w, _) :: fs => w + field_bits fs

/-- The first `m` bytes of the bit string of the number `N`, LSB first: bit
`k` of byte `j` is bit `8 * j + k` of `N`. -/
def bytes_of (N m : Nat) : List Nat := (List.range m).map fun j => N / 256 ^ j % 256

/-- The bit fields packed LSB first into bytes, the last byte padded with zero bits. -/
def pack_fields (fs : List (Nat × Nat)) : List Nat :=
  bytes_of (field_value fs) ((field_bits fs + 7) / 8)

/-- The compressed stream of a token list: the `W`-byte little-endian header
`L`, then the packed tokens. -/
def serialise (W mws L : Nat) (tokens : List Token) : List Nat :=
  bytes_of L W ++ pack_fields (fields mws L tokens [])

/-- The stream `inb` spells the number `N` in the `t` bits from bit `p` on. -/
def Holds (inb : List Nat) (p N t : Nat) : Prop :=
  p + t ≤ 8 * inb.length ∧ ∀ a n, a + n ≤ t → bits_val inb (p + a) n = N / 2 ^ a % 2 ^ n

/-- The literal-only token list of a payload: literal tokens of three bytes,
the last one with what remains. -/
def literal_tokens : List Nat → List Token
  | [] => []
  | [a] => [.literal [a]]
  | [a, b] => [.literal [a, b]]
  | a :: b :: c :: rest => .literal [a, b, c] :: literal_tokens rest

/-- What every stretch of the token loop of `jbi_uncompress` keeps, from the
state `d` to the state `d'`, when `L` bytes are declared: the position does
not go back and does not pass `L`, the output keeps its size, it changes only
between the two positions, the cursor stays well-formed and does not go
back, `jbi_in_length` is not touched, and the accesses added to the log
store bytes only below `L`. -/
def Step_inv (L : Nat) (d d' : Dec) : Prop :=
  d.i ≤ d'.i ∧ (d.i ≤ L → d'.i ≤ L) ∧ d'.out.length = d.out.length ∧
  (∀ x, x < d.i ∨ d'.i ≤ x → d'.out[x]? = d.out[x]?) ∧
  d'.g.jbi_bits_avail ≤ 8 ∧ bit_pos d.g ≤ bit_pos d'.g ∧
  d'.g.jbi_in_length = d.g.jbi_in_length ∧
  ∃ l, d'.g.accesses = d.g.accesses ++ l ∧ ∀ idx val, Access.wr_out idx val ∈ l → idx < L

/-- The result of a call that returns (and an empty result for one that does not). -/
def ok_or (x : Except Fault Result) : Result :=
  match x with
  | .ok r => r
  | .error _ => ⟨0, 0, [], ⟨0, 0, 0, []⟩⟩

/-- The state after a token that is read in full (and an empty state otherwise). -/
def ok_step (x : Except Fault Dec) : Dec :=
  match x with
  | .ok d => d
  | .error _ => ⟨0, [], ⟨0, 0, 0, []⟩⟩

/-- A sequence of reads, one `jbi_read_packed` call per width, from the
globals `g`: the globals after the last read. -/
def read_seq (buffer : List Nat) : List Nat → State → Except Fault State
  | [], g => .ok g
  | n :: ns, g =>
    match jbi_read_packed buffer n g with
    | .error e => .error e
    | .ok (_, g) => read_seq buffer ns g

/-! ### Two runs side by side -/

/-- Two values of the globals with the same cursor, whatever `jbi_in_length`
is, and with the same log from entry `k1` of the one and entry `k2` of the
other on. -/
def Same_cursor (k1 k2 : Nat) (g1 g2 : State) : Prop :=
  g1.jbi_in_index = g2.jbi_in_index ∧ g1.jbi_bits_avail = g2.jbi_bits_avail ∧
  k1 ≤ g1.accesses.length ∧ k2 ≤ g2.accesses.length ∧
  g1.accesses.drop k1 = g2.accesses.drop k2

/-- Two output buffers that hold the same at every index below `n` and at
every index from `lo` on. -/
def Same_out (n lo : Nat) (o1 o2 : List Nat) : Prop :=
  ∀ x, x < n ∨ lo ≤ x → o1[x]? = o2[x]?

/-- Two states of the token loop with the same position, the same output
where `Same_out` looks, and the same cursor. -/
def Same_dec (n lo k1 k2 : Nat) (d1 d2 : Dec) : Prop :=
  d1.i = d2.i ∧ Same_out n lo d1.out d2.out ∧ Same_cursor k1 k2 d1.g d2.g

/-- Two outcomes that are the same fault, or two results that `R` relates. -/
def Same_outcome {α : Type} (R : α → α → Prop) : Except Fault α → Except Fault α → Prop
  | .ok a, .ok b => R a b
  | .error e, .error f => e = f
  | _, _ => False

/-! ### Counting iterations -/

/-- The loop of `jbi_bits_required`, entered with `n`, ends after exactly
`k` iterations and leaves the result `r`: it returns `r` when it may test its
condition `k + 1` times and does not return when it may test it `k` times. -/
def loop_ends_after (n k r : Nat) : Prop :=
  bits_required_loop (k + 1) n SHORT_BITS = .ok r ∧
  bits_required_loop k n SHORT_BITS = .error .no_return

instance loop_ends_after_decidable (n k r : Nat) : Decidable (loop_ends_after n k r) :=
  inferInstanceAs (Decidable (_ ∧ _))

/-- The state after `n` full iterations of the `while (i < data_length)` loop
of `jbi_uncompress` from the state `d`, if the loop makes that many: each of
them finds `i < data_length` and reads its token in full. -/
def token_iterations (W : Nat) (inb : List Nat) (data_length match_data_length : Nat) :
    Nat → Dec → Option Dec
  | 0, d => some d
  | n + 1, d =>
    if d.i < data_length then
      match token_step W inb data_length match_data_length d with
      | .error _ => none
      | .ok d => token_iterations W inb data_length match_data_length n d
    else none

/-! ### The argument `in_length` -/

/-- The globals with `x` in `jbi_in_length` and everything else as in `g`. -/
def set_in_length (x : Nat) (g : State) : State :=
  ⟨x, g.jbi_in_index, g.jbi_bits_avail, g.accesses⟩

/-! ### A stream that reaches beyond the window -/

/-- The head of `far_tokens`: three literal bytes and 33 match tokens of
offset 1 and length 255, which bring the position to 8418. -/
def far_head : List Token :=
  .literal [0x41, 0x41, 0x41] :: List.replicate 33 (.matching 1 255)

/-- A token list for 8419 bytes whose last token, at position 8418, is a
match token of offset 8193 and length 1. -/
def far_tokens : List Token := far_head ++ [.matching 8193 1]

/-- The compressed stream of `far_tokens` for version 0, with a header of
four bytes. -/
def far_stream : List Nat := serialise 4 8192 8419 far_tokens

/-- The position after a token read at position `pos` when `L` bytes are declared. -/
def token_end (L pos : Nat) : Token → Nat
  | .literal bytes => pos + bytes.length
  | .matching _ length => pos + min length (L - pos)

/-- The bit fields of a token list read from position `pos` on. -/
def fields_at (mws L : Nat) : List Token → Nat → List (Nat × Nat)
  | [], _ => []
  | t :: ts, pos => token_fields mws pos t ++ fields_at mws L ts (token_end L pos t)

/-! ## Lemmas on `jbi_bits_required` -/

theorem testBit_top {n j : Nat} (h1 : 2 ^ j ≤ n) (h2 : n < 2 ^ (j + 1)) : n.testBit j = true := by
  obtain ⟨x, rfl⟩ : ∃ x, n = 2 ^ j + x := ⟨n - 2 ^ j, by omega⟩
  rw [Nat.testBit_two_pow_add_eq, Nat.testBit_lt_two_pow (by rw [Nat.pow_succ] at h2; omega)]
  rfl

theorem and_bit15 (n : Nat) : (n &&& (1 <<< (SHORT_BITS - 1)) = 0) ↔ n.testBit 15 = false := by
  have e : (1 <<< (SHORT_BITS - 1)) = 2 ^ 15 := by decide
  rw [e]
  constructor
  · intro h
    have h15 : (n &&& 2 ^ 15).testBit 15 = (0 : Nat).testBit 15 := by rw [h]
    rw [Nat.testBit_and, Nat.testBit_two_pow_self, Bool.and_true, Nat.zero_testBit] at h15
    exact h15
  · intro h
    apply Nat.eq_of_testBit_eq
    intro i
    rw [Nat.testBit_and, Nat.testBit_two_pow, Nat.zero_testBit]
    by_cases hi : 15 = i
    · subst hi; simp [h]
    · simp [hi]

theorem usub32_of_le {a b : Nat} (h : b ≤ a) (ha : a < 2 ^ 32) : usub32 a b = a - b := by
  unfold usub32 UINT_BITS
  omega

theorem bits_required_loop_ok : ∀ (k n r fuel : Nat), k ≤ 15 → 2 ^ (15 - k) ≤ n → n < 2 ^ (16 - k) →
    k < fuel → k ≤ r → r < 2 ^ 32 → bits_required_loop fuel n r = .ok (r - k) := by
  intro k
  induction k with
  | zero =>
    intro n r fuel _ h1 h2 hf _ _
    obtain ⟨f, rfl⟩ : ∃ f, fuel = f + 1 := ⟨fuel - 1, by omega⟩
    have ht : n.testBit 15 = true := testBit_top h1 h2
    have : ¬ (n &&& (1 <<< (SHORT_BITS - 1)) = 0) := by rw [and_bit15, ht]; simp
    simp [bits_required_loop, this]
  | succ k ih =>
    intro n r fuel hk h1 h2 hf hr hr2
    obtain ⟨f, rfl⟩ : ∃ f, fuel = f + 1 := ⟨fuel - 1, by omega⟩
    have e1 : 2 ^ (15 - k) = 2 ^ (15 - (k + 1)) * 2 := by
      rw [← Nat.pow_succ]; congr 1; omega
    have e2 : 2 ^ (16 - k) = 2 ^ (16 - (k + 1)) * 2 := by
      rw [← Nat.pow_succ]; congr 1; omega
    have hle : 2 ^ (16 - (k + 1)) ≤ 2 ^ 15 := Nat.pow_le_pow_right (by decide) (by omega)
    have ht : n.testBit 15 = false := Nat.testBit_lt_two_pow (by omega)
    have hc : n &&& (1 <<< (SHORT_BITS - 1)) = 0 := (and_bit15 n).2 ht
    have hn : u32 (n <<< 1) = n * 2 := by
      unfold u32 UINT_BITS
      rw [Nat.shiftLeft_eq, Nat.pow_one, Nat.mod_eq_of_lt (by omega)]
    rw [bits_required_loop, if_pos hc, hn, usub32_of_le (by omega) hr2,
      ih (n * 2) (r - 1) f (by omega) (by omega) (by omega) (by omega) (by omega) (by omega)]
    congr 1
    omega

theorem lz_from_eq : ∀ (k n j : Nat), 2 ^ j ≤ n → n < 2 ^ (j + 1) → j < k → lz_from k n = k - 1 - j := by
  intro k
  induction k with
  | zero => intro n j _ _ h; omega
  | succ k ih =>
    intro n j h1 h2 hj
    rw [lz_from]
    by_cases hk : j = k
    · subst hk; rw [testBit_top h1 h2]; simp
    · have hle : 2 ^ (j + 1) ≤ 2 ^ k := Nat.pow_le_pow_right (by decide) (by omega)
      rw [Nat.testBit_lt_two_pow (by omega), ih n j h1 h2 (by omega)]
      simp; omega

/-- On the 16-bit range the loop of `jbi_bits_required` ends, at the position
of the highest set bit plus one. -/
theorem bits_required_eq (n : Nat) (h1 : 1 ≤ n) (h2 : n ≤ 65535) :
    jbi_bits_required n = .ok (n.log2 + 1) := by
  have hn0 : n ≠ 0 := by omega
  have hlo : 2 ^ n.log2 ≤ n := Nat.log2_self_le hn0
  have hhi : n < 2 ^ (n.log2 + 1) := Nat.lt_log2_self
  have hj : n.log2 < 16 := (Nat.log2_lt hn0).2 (by omega)
  unfold jbi_bits_required
  rw [if_neg hn0, bits_required_loop_ok (15 - n.log2) n SHORT_BITS UINT_BITS (by omega)
    (by rw [show 15 - (15 - n.log2) = n.log2 by omega]; exact hlo)
    (by rw [show 16 - (15 - n.log2) = n.log2 + 1 by omega]; exact hhi)
    (by unfold UINT_BITS; omega) (by unfold SHORT_BITS; omega) (by decide)]
  unfold SHORT_BITS
  congr 1
  omega

/-- The value of `Nat.log2` between two consecutive powers of two. -/
theorem log2_eq_of_bounds {n j : Nat} (h1 : 2 ^ j ≤ n) (h2 : n < 2 ^ (j + 1)) : n.log2 = j := by
  have hn0 : n ≠ 0 := by
    have := Nat.pos_pow_of_pos j (show 0 < 2 by decide)
    omega
  have a1 : j ≤ n.log2 := (Nat.le_log2 hn0).2 h1
  have a2 : n.log2 < j + 1 := (Nat.log2_lt hn0).2 h2
  omega

/-! ### The fuel of `jbi_bits_required` -/

/-- The loop of `jbi_bits_required` looks at the low sixteen bits of `n` only. -/
theorem bits_required_loop_low : ∀ (fuel n m r : Nat), n % 65536 = m % 65536 →
    bits_required_loop fuel n r = bits_required_loop fuel m r := by
  intro fuel
  induction fuel with
  | zero => intro n m r _; rfl
  | succ fuel ih =>
    intro n m r h
    have hbit : n.testBit 15 = m.testBit 15 := by
      have e1 := Nat.testBit_mod_two_pow n 16 15
      have e2 := Nat.testBit_mod_two_pow m 16 15
      simp only [show (15 : Nat) < 16 by decide, decide_True, Bool.true_and] at e1 e2
      rw [← e1, ← e2, show (2 : Nat) ^ 16 = 65536 by decide, h]
    have hnext : u32 (n <<< 1) % 65536 = u32 (m <<< 1) % 65536 := by
      unfold u32 UINT_BITS
      rw [Nat.shiftLeft_eq, Nat.shiftLeft_eq]
      omega
    rw [bits_required_loop, bits_required_loop]
    by_cases hc : n.testBit 15 = false
    · rw [if_pos ((and_bit15 n).2 hc), if_pos ((and_bit15 m).2 (by rw [← hbit]; exact hc))]
      exact ih _ _ _ hnext
    · rw [if_neg (fun h0 => hc ((and_bit15 n).1 h0)),
        if_neg (fun h0 => hc (by rw [hbit]; exact (and_bit15 m).1 h0))]

/-- With the low sixteen bits of `n` all zero the loop of `jbi_bits_required`
never ends: no amount of fuel makes it return. -/
theorem bits_required_loop_diverges : ∀ (fuel n r : Nat), n % 65536 = 0 →
    bits_required_loop fuel n r = .error .no_return := by
  intro fuel
  induction fuel with
  | zero => intro n r _; rfl
  | succ fuel ih =>
    intro n r h
    rw [bits_required_loop_low (fuel + 1) n 0 r (by rw [h]), bits_required_loop,
      if_pos (by decide)]
    exact ih _ _ (by decide)

/-- With a bit set among the low sixteen bits of `n` the loop of
`jbi_bits_required` ends within sixteen tests, whatever fuel it has beyond. -/
theorem bits_required_loop_ends (fuel n r : Nat) (h : n % 65536 ≠ 0) (hf : 16 ≤ fuel)
    (hr : 15 ≤ r) (hr2 : r < 2 ^ 32) :
    bits_required_loop fuel n r = .ok (r - (15 - (n % 65536).log2)) := by
  have hm : n % 65536 < 65536 := Nat.mod_lt _ (by decide)
  have hj : (n % 65536).log2 < 16 := (Nat.log2_lt h).2 (by omega)
  rw [bits_required_loop_low fuel n (n % 65536) r (by rw [Nat.mod_mod]),
    bits_required_loop_ok (15 - (n % 65536).log2) (n % 65536) r fuel (by omega)
      (by rw [show 15 - (15 - (n % 65536).log2) = (n % 65536).log2 by omega]
          exact Nat.log2_self_le h)
      (by rw [show 16 - (15 - (n % 65536).log2) = (n % 65536).log2 + 1 by omega]
          exact Nat.lt_log2_self)
      (by omega) (by omega) hr2]

/-! ## Lemmas on the bit stream -/

theorem stream_bit_le_one (buffer : List Nat) (q : Nat) : stream_bit buffer q ≤ 1 := by
  unfold stream_bit
  rw [Nat.and_one_is_mod]
  omega

theorem bits_val_lt (buffer : List Nat) : ∀ (n p : Nat), bits_val buffer p n < 2 ^ n := by
  intro n
  induction n with
  | zero => intro p; simp [bits_val]
  | succ n ih =>
    intro p
    have h1 := stream_bit_le_one buffer p
    have h2 := ih (p + 1)
    rw [bits_val, Nat.pow_succ]
    omega

theorem bits_val_add (buffer : List Nat) : ∀ (a b p : Nat),
    bits_val buffer p (a + b) = bits_val buffer p a + 2 ^ a * bits_val buffer (p + a) b := by
  intro a
  induction a with
  | zero => intro b p; simp [bits_val]
  | succ a ih =>
    intro b p
    rw [show a + 1 + b = (a + b) + 1 by omega, bits_val, bits_val, ih b (p + 1), Nat.pow_succ,
      show p + 1 + a = p + (a + 1) by omega]
    ring

theorem bits_val_eq_sum (buffer : List Nat) : ∀ (n p : Nat),
    bits_val buffer p n = ∑ k in Finset.range n, stream_bit buffer (p + k) * 2 ^ k := by
  intro n
  induction n with
  | zero => intro p; simp [bits_val]
  | succ n ih =>
    intro p
    rw [bits_val, ih (p + 1), Finset.sum_range_succ', Finset.mul_sum]
    simp only [Nat.add_zero, Nat.pow_zero, Nat.mul_one]
    rw [Nat.add_comm]
    congr 1
    apply Finset.sum_congr rfl
    intro k _
    rw [show p + 1 + k = p + (k + 1) by omega, Nat.pow_succ]
    ring

/-- The bits of one byte: `m` bits from bit `k` of byte `idx`. -/
theorem bits_val_in_byte (buffer : List Nat) (idx : Nat) : ∀ (m k : Nat), k + m ≤ 8 →
    bits_val buffer (8 * idx + k) m = (buffer.getD idx 0 / 2 ^ k) % 2 ^ m := by
  intro m
  induction m with
  | zero => intro k _; simp [bits_val, Nat.mod_one]
  | succ m ih =>
    intro k hk
    rw [bits_val, show 8 * idx + k + 1 = 8 * idx + (k + 1) by omega, ih (k + 1) (by omega)]
    unfold stream_bit
    rw [show (8 * idx + k) / 8 = idx by omega, show (8 * idx + k) % 8 = k by omega,
      Nat.and_one_is_mod, Nat.shiftRight_eq_div_pow, Nat.pow_succ 2 m, Nat.mul_comm (2 ^ m) 2,
      Nat.mod_mul, Nat.pow_succ, Nat.div_div_eq_div_mul]

theorem or_shift_eq_add {r s : Nat} (c : Nat) (h : r < 2 ^ s) : r ||| (c <<< s) = r + 2 ^ s * c := by
  rw [Nat.or_comm, Nat.shiftLeft_eq, Nat.mul_comm c, ← Nat.mul_add_lt_is_or h c, Nat.add_comm]

theorem mask_ff {a : Nat} (h : a ≤ 8) : (0xFF >>> usub32 CHAR_BITS a) = 2 ^ a - 1 := by
  interval_cases a <;> rfl

theorem mask_ffff {m : Nat} (h : m ≤ 16) : (0xFFFF >>> usub32 SHORT_BITS (u32 m)) = 2 ^ m - 1 := by
  interval_cases m <;> rfl

theorem usub32_char {a : Nat} (h : a ≤ 8) : usub32 CHAR_BITS a = 8 - a := by
  interval_cases a <;> rfl

theorem u32_of_lt {x : Nat} (h : x < 2 ^ 32) : u32 x = x := Nat.mod_eq_of_lt h

/-- The bits that `jbi_read_packed` takes from the current byte. -/
theorem chunk_eq (buffer : List Nat) (g : State) (b : Nat) (ha : g.jbi_bits_avail ≤ 8)
    (hb : buffer[g.jbi_in_index]? = some b) :
    ((b % 256) >>> usub32 CHAR_BITS g.jbi_bits_avail) &&& (0xFF >>> usub32 CHAR_BITS g.jbi_bits_avail)
      = bits_val buffer (bit_pos g) g.jbi_bits_avail := by
  have hd : buffer.getD g.jbi_in_index 0 = b := by
    rw [List.getD_eq_getElem?_getD, hb]; rfl
  rw [mask_ff ha, Nat.and_pow_two_sub_one_eq_mod, usub32_char ha, Nat.shiftRight_eq_div_pow]
  unfold bit_pos
  rw [bits_val_in_byte buffer g.jbi_in_index g.jbi_bits_avail (8 - g.jbi_bits_avail) (by omega), hd]
  have h256 : (256 : Nat) = 2 ^ (8 - g.jbi_bits_avail) * 2 ^ g.jbi_bits_avail := by
    rw [← Nat.pow_add, show 8 - g.jbi_bits_avail + g.jbi_bits_avail = 8 by omega]
  rw [h256, Nat.mod_mul_right_div_self, Nat.mod_mod]


/-! ## Lemmas on `jbi_read_packed` -/

theorem cursor_after_last (g : State) (bits : Nat) (h0 : 0 < bits) (h : bits ≤ g.jbi_bits_avail)
    (ha : g.jbi_bits_avail ≤ 8) :
    ({ g with accesses := g.accesses ++ [Access.rd_in g.jbi_in_index], jbi_bits_avail := usub32 g.jbi_bits_avail bits } : State) = cursor_after g bits := by
  have e1 : (bit_pos g + bits - 1) / 8 = g.jbi_in_index := by unfold bit_pos; omega
  have e2 : usub32 g.jbi_bits_avail bits = g.jbi_bits_avail - bits := usub32_of_le h (by omega)
  unfold cursor_after
  rw [e1, e2, show g.jbi_in_index + 1 - g.jbi_in_index = 1 by omega]
  simp only [List.range', List.map]
  congr 1
  unfold bit_pos; omega

theorem cursor_after_next (g : State) (bits : Nat) (h : g.jbi_bits_avail < bits)
    (ha : g.jbi_bits_avail ≤ 8) :
    cursor_after ({ g with accesses := g.accesses ++ [Access.rd_in g.jbi_in_index], jbi_in_index := g.jbi_in_index + 1, jbi_bits_avail := CHAR_BITS } : State)
      (bits - g.jbi_bits_avail) = cursor_after g bits := by
  have e0 : bit_pos ({ g with accesses := g.accesses ++ [Access.rd_in g.jbi_in_index], jbi_in_index := g.jbi_in_index + 1, jbi_bits_avail := CHAR_BITS } : State)
      + (bits - g.jbi_bits_avail) = bit_pos g + bits := by
    unfold bit_pos CHAR_BITS; simp only; omega
  unfold cursor_after
  rw [e0]
  have e1 : (bit_pos g + bits - 1) / 8 + 1 - g.jbi_in_index
      = ((bit_pos g + bits - 1) / 8 + 1 - (g.jbi_in_index + 1)) + 1 := by
    unfold bit_pos; omega
  simp only
  rw [e1, List.range'_succ]
  simp

theorem read_packed_loop_ok (buffer : List Nat) : ∀ (fuel bits result shift : Nat) (g : State),
    0 < bits → g.jbi_bits_avail ≤ 8 → bits + shift ≤ 16 → result < 2 ^ shift →
    bits + 1 + (if g.jbi_bits_avail = 0 then 1 else 0) ≤ fuel →
    bit_pos g + bits ≤ 8 * buffer.length →
    read_packed_loop buffer fuel bits result shift g =
      .ok (result + 2 ^ shift * bits_val buffer (bit_pos g) bits, cursor_after g bits) := by
  intro fuel
  induction fuel with
  | zero => intro bits result shift g _ _ _ _ hf _; omega
  | succ fuel ih =>
    intro bits result shift g h0 ha hbs hr hf hin
    have hidx : g.jbi_in_index < buffer.length := by unfold bit_pos at hin; omega
    have hb : buffer[g.jbi_in_index]? = some buffer[g.jbi_in_index] := List.getElem?_eq_getElem hidx
    have hchunk := chunk_eq buffer g _ ha hb
    have hclt := bits_val_lt buffer g.jbi_bits_avail (bit_pos g)
    have hpow : (2:Nat) ^ g.jbi_bits_avail ≤ 2 ^ 8 := Nat.pow_le_pow_right (by decide) ha
    have hpows : (2:Nat) ^ shift ≤ 2 ^ 15 := Nat.pow_le_pow_right (by decide) (by omega)
    rw [read_packed_loop, if_pos h0]
    simp only [hb, hchunk]
    have hsh : u32 (bits_val buffer (bit_pos g) g.jbi_bits_avail <<< shift)
        = bits_val buffer (bit_pos g) g.jbi_bits_avail <<< shift := by
      apply u32_of_lt
      rw [Nat.shiftLeft_eq]
      calc bits_val buffer (bit_pos g) g.jbi_bits_avail * 2 ^ shift
          < 2 ^ 8 * 2 ^ 16 := Nat.mul_lt_mul_of_lt_of_lt (by omega) (by omega)
        _ < 2 ^ 32 := by decide
    rw [hsh, or_shift_eq_add _ hr]
    by_cases hle : bits ≤ g.jbi_bits_avail
    · rw [if_pos hle, mask_ffff hbs, Nat.and_pow_two_sub_one_eq_mod]
      obtain ⟨f, rfl⟩ : ∃ f, fuel = f + 1 := ⟨fuel - 1, by omega⟩
      rw [read_packed_loop, if_neg (by omega), cursor_after_last g bits h0 hle ha]
      congr 2
      obtain ⟨r, hr'⟩ : ∃ r, g.jbi_bits_avail = bits + r := ⟨g.jbi_bits_avail - bits, by omega⟩
      rw [hr', bits_val_add, Nat.mul_add, ← Nat.mul_assoc, ← Nat.pow_add, ← Nat.add_assoc,
        Nat.add_comm shift bits, Nat.add_mul_mod_self_left]
      apply Nat.mod_eq_of_lt
      have := bits_val_lt buffer bits (bit_pos g)
      rw [Nat.pow_add, Nat.mul_comm (2 ^ bits)]
      calc result + 2 ^ shift * bits_val buffer (bit_pos g) bits
          < 2 ^ shift + 2 ^ shift * bits_val buffer (bit_pos g) bits := by omega
        _ = 2 ^ shift * (bits_val buffer (bit_pos g) bits + 1) := by ring
        _ ≤ 2 ^ shift * 2 ^ bits := Nat.mul_le_mul_left _ (by omega)
    · rw [if_neg hle]
      have hlt : g.jbi_bits_avail < bits := by omega
      have e1 : usub32 bits g.jbi_bits_avail = bits - g.jbi_bits_avail := usub32_of_le (by omega) (by omega)
      have e2 : u32 (shift + g.jbi_bits_avail) = shift + g.jbi_bits_avail := u32_of_lt (by omega)
      rw [e1, e2, ih (bits - g.jbi_bits_avail) _ (shift + g.jbi_bits_avail) _ (by omega)
        (by simp [CHAR_BITS]) (by omega) ?_ ?_ ?_, cursor_after_next g bits hlt ha]
      · congr 2
        have e3 : bit_pos ({ g with accesses := g.accesses ++ [Access.rd_in g.jbi_in_index], jbi_in_index := g.jbi_in_index + 1, jbi_bits_avail := CHAR_BITS } : State)
            = bit_pos g + g.jbi_bits_avail := by
          unfold bit_pos CHAR_BITS; simp only; omega
        rw [e3]
        conv_rhs => rw [show bits = g.jbi_bits_avail + (bits - g.jbi_bits_avail) by omega, bits_val_add]
        rw [Nat.pow_add]
        ring
      · rw [Nat.pow_add]
        calc result + 2 ^ shift * bits_val buffer (bit_pos g) g.jbi_bits_avail
            < 2 ^ shift + 2 ^ shift * bits_val buffer (bit_pos g) g.jbi_bits_avail := by omega
          _ = 2 ^ shift * (bits_val buffer (bit_pos g) g.jbi_bits_avail + 1) := by ring
          _ ≤ 2 ^ shift * 2 ^ g.jbi_bits_avail := Nat.mul_le_mul_left _ (by omega)
      · simp only [CHAR_BITS]
        split at hf <;> simp <;> omega
      · unfold bit_pos CHAR_BITS at *; simp only; omega

theorem read_packed_loop_overrun (buffer : List Nat) : ∀ (fuel bits result shift : Nat) (g : State),
    0 < bits → bits ≤ 16 → g.jbi_bits_avail ≤ 8 →
    bits + 1 + (if g.jbi_bits_avail = 0 then 1 else 0) ≤ fuel →
    8 * buffer.length < bit_pos g + bits →
    read_packed_loop buffer fuel bits result shift g = .error .in_overrun := by
  intro fuel
  induction fuel with
  | zero => intro bits result shift g _ _ _ hf _; omega
  | succ fuel ih =>
    intro bits result shift g h0 h16 ha hf hout
    rw [read_packed_loop, if_pos h0]
    by_cases hidx : g.jbi_in_index < buffer.length
    · have hb : buffer[g.jbi_in_index]? = some buffer[g.jbi_in_index] := List.getElem?_eq_getElem hidx
      have hlt : ¬ bits ≤ g.jbi_bits_avail := by unfold bit_pos at hout; omega
      simp only [hb, if_neg hlt]
      have e1 : usub32 bits g.jbi_bits_avail = bits - g.jbi_bits_avail := usub32_of_le (by omega) (by omega)
      rw [e1]
      apply ih
      · omega
      · omega
      · simp [CHAR_BITS]
      · simp only [CHAR_BITS]
        split at hf <;> simp <;> omega
      · unfold bit_pos CHAR_BITS at *; simp only; omega
    · have hb : buffer[g.jbi_in_index]? = none := List.getElem?_eq_none (by omega)
      simp only [hb]

theorem read_packed_ok (buffer : List Nat) (n : Nat) (g : State) (ha : g.jbi_bits_avail ≤ 8)
    (h1 : 1 ≤ n) (h2 : n ≤ 16) (hin : bit_pos g + n ≤ 8 * buffer.length) :
    jbi_read_packed buffer n g = .ok (bits_val buffer (bit_pos g) n, cursor_after g n) := by
  unfold jbi_read_packed
  rw [read_packed_loop_ok buffer (n + 2) n 0 0 g (by omega) ha (by omega) (by simp)
    (by split <;> omega) hin]
  simp

theorem read_packed_overrun (buffer : List Nat) (n : Nat) (g : State) (ha : g.jbi_bits_avail ≤ 8)
    (h1 : 1 ≤ n) (h2 : n ≤ 16) (hout : 8 * buffer.length < bit_pos g + n) :
    jbi_read_packed buffer n g = .error .in_overrun := by
  unfold jbi_read_packed
  exact read_packed_loop_overrun buffer (n + 2) n 0 0 g (by omega) h2 ha (by split <;> omega) hout

theorem bit_pos_cursor_after (g : State) (n : Nat) (h1 : 1 ≤ n) :
    bit_pos (cursor_after g n) = bit_pos g + n := by
  unfold cursor_after
  generalize bit_pos g = p
  unfold bit_pos
  simp only
  omega

theorem avail_cursor_after (g : State) (n : Nat) : (cursor_after g n).jbi_bits_avail ≤ 8 := by
  unfold cursor_after
  simp only
  omega

/-- What a successful read tells: it stayed inside the buffer, and its result. -/
theorem read_packed_inv (buffer : List Nat) (n : Nat) (g g' : State) (v : Nat)
    (ha : g.jbi_bits_avail ≤ 8) (h1 : 1 ≤ n) (h2 : n ≤ 16)
    (h : jbi_read_packed buffer n g = .ok (v, g')) :
    bit_pos g + n ≤ 8 * buffer.length ∧ v = bits_val buffer (bit_pos g) n ∧ g' = cursor_after g n := by
  by_cases hin : bit_pos g + n ≤ 8 * buffer.length
  · rw [read_packed_ok buffer n g ha h1 h2 hin] at h
    injection h with h
    injection h with hv hg
    exact ⟨hin, hv.symm, hg.symm⟩
  · rw [read_packed_overrun buffer n g ha h1 h2 (by omega)] at h
    cases h

/-! ### The fuel of `jbi_read_packed` -/

/-- The loop of `jbi_read_packed` ends, or reads outside the buffer, within
the fuel that `jbi_read_packed` gives it, from any values of the globals. -/
theorem read_packed_loop_returns (buffer : List Nat) : ∀ (fuel bits result shift : Nat)
    (g : State) (e : Fault), bits < 2 ^ 32 → g.jbi_bits_avail < 2 ^ 32 →
    bits + 1 + (if g.jbi_bits_avail = 0 then 1 else 0) ≤ fuel →
    read_packed_loop buffer fuel bits result shift g = .error e → e = .in_overrun := by
  intro fuel
  induction fuel with
  | zero => intro bits result shift g e _ _ hf _; omega
  | succ fuel ih =>
    intro bits result shift g e hb ha hf h
    rw [read_packed_loop] at h
    by_cases h0 : bits > 0
    · rw [if_pos h0] at h
      cases hget : buffer[g.jbi_in_index]? with
      | none =>
        rw [hget] at h
        injection h with h
        exact h.symm
      | some b =>
        rw [hget] at h
        simp only at h
        by_cases hle : bits ≤ g.jbi_bits_avail
        · rw [if_pos hle] at h
          obtain ⟨f, rfl⟩ : ∃ f, fuel = f + 1 := ⟨fuel - 1, by omega⟩
          rw [read_packed_loop, if_neg (by omega)] at h
          cases h
        · rw [if_neg hle] at h
          have e1 : usub32 bits g.jbi_bits_avail = bits - g.jbi_bits_avail :=
            usub32_of_le (by omega) hb
          rw [e1] at h
          refine ih _ _ _ _ e (by omega) (by simp [CHAR_BITS]) ?_ h
          simp only [CHAR_BITS]
          split at hf <;> simp <;> omega
    · rw [if_neg h0] at h; cases h

/-! ## Lemmas on the header -/

theorem le_value_lt : ∀ (bs : List Nat), le_value bs < 256 ^ bs.length := by
  intro bs
  induction bs with
  | nil => simp [le_value]
  | cons b bs ih =>
    rw [le_value, List.length_cons, Nat.pow_succ]
    have := Nat.mod_lt b (show 256 > 0 by decide)
    omega

theorem le_value_eq_sum : ∀ (bs : List Nat),
    le_value bs = ∑ i in Finset.range bs.length, (bs.getD i 0 % 256) * 256 ^ i := by
  intro bs
  induction bs with
  | nil => simp [le_value]
  | cons b bs ih =>
    rw [le_value, ih, List.length_cons, Finset.sum_range_succ', Finset.mul_sum]
    simp only [List.getD_cons_zero, List.getD_cons_succ, Nat.pow_zero, Nat.mul_one]
    rw [Nat.add_comm]
    congr 1
    apply Finset.sum_congr rfl
    intro k _
    rw [Nat.pow_succ]
    ring

/-- A whole byte read at a byte boundary is that byte. -/
theorem bits_val_byte (buffer : List Nat) (i : Nat) :
    bits_val buffer (8 * i) 8 = buffer.getD i 0 % 256 := by
  have := bits_val_in_byte buffer i 8 0 (by omega)
  simpa using this

theorem bit_pos_after_bytes : ∀ (k : Nat) (g : State),
    bit_pos (after_bytes g k) = bit_pos g + 8 * k := by
  intro k
  induction k with
  | zero => intro g; rfl
  | succ k ih =>
    intro g
    rw [after_bytes, ih, bit_pos_cursor_after g 8 (by omega)]
    omega

theorem avail_after_bytes : ∀ (k : Nat) (g : State), g.jbi_bits_avail ≤ 8 →
    (after_bytes g k).jbi_bits_avail ≤ 8 := by
  intro k
  induction k with
  | zero => intro g h; exact h
  | succ k ih =>
    intro g _
    rw [after_bytes]
    exact ih _ (avail_cursor_after g 8)

theorem header_loop_ok (W : Nat) (inb : List Nat) : ∀ (k i dl : Nat) (g : State),
    g.jbi_bits_avail ≤ 8 → bit_pos g = 8 * i → i + k ≤ W → i + k ≤ inb.length → dl < 256 ^ i →
    header_loop W inb k i dl g =
      .ok (dl + 256 ^ i * le_value ((inb.drop i).take k), after_bytes g k) := by
  intro k
  induction k with
  | zero => intro i dl g _ _ _ _ _; simp [header_loop, le_value, after_bytes]
  | succ k ih =>
    intro i dl g ha hp hW hlen hdl
    have hi : i < inb.length := by omega
    rw [header_loop, read_packed_ok inb CHAR_BITS g ha (by decide) (by decide)
      (by unfold CHAR_BITS; omega)]
    simp only
    have hv : bits_val inb (bit_pos g) CHAR_BITS = inb[i] % 256 := by
      rw [hp]; unfold CHAR_BITS; rw [bits_val_byte, List.getD_eq_getElem _ _ hi]
    have h256 : ∀ j, (256 : Nat) ^ j = 2 ^ (j * CHAR_BITS) := by
      intro j; unfold CHAR_BITS; rw [Nat.mul_comm, Nat.pow_mul]
    have hb : inb[i] % 256 < 256 := Nat.mod_lt _ (by decide)
    have hsh : ((inb[i] % 256) <<< (i * CHAR_BITS)) % 2 ^ (8 * W)
        = (inb[i] % 256) <<< (i * CHAR_BITS) := by
      apply Nat.mod_eq_of_lt
      rw [Nat.shiftLeft_eq, ← h256]
      calc inb[i] % 256 * 256 ^ i < 256 * 256 ^ i := Nat.mul_lt_mul_of_pos_right hb (by positivity)
        _ = 256 ^ (i + 1) := by rw [Nat.pow_succ, Nat.mul_comm]
        _ ≤ 256 ^ W := Nat.pow_le_pow_right (by decide) (by omega)
        _ = 2 ^ (8 * W) := by rw [Nat.pow_mul]
    rw [hv, hsh, or_shift_eq_add _ (by rw [← h256]; exact hdl), ← h256,
      ih (i + 1) _ (cursor_after g CHAR_BITS) (avail_cursor_after g _)
        (by rw [bit_pos_cursor_after g _ (by decide), hp]; unfold CHAR_BITS; omega)
        (by omega) (by omega)
        (by
          have hm := Nat.mul_le_mul_left (256 ^ i) (show inb[i] % 256 ≤ 255 by omega)
          rw [Nat.pow_succ]; omega)]
    congr 2
    rw [List.drop_eq_getElem_cons hi, List.take_succ_cons, le_value, Nat.pow_succ]
    ring

/-! ## Lemmas on the window and the offset width -/

theorem match_window_eq (version : Int) :
    match_window version = if version > 0 then 8191 else 8192 := by
  unfold match_window
  split <;> rfl

theorem match_window_le (version : Int) : match_window version ≤ 8192 := by
  rw [match_window_eq]; split <;> omega

/-- The `(short)` cast leaves the capped position unchanged. -/
theorem offset_cap_eq (mdl i : Nat) (h : mdl ≤ 8192) : offset_cap mdl i = min i mdl := by
  have hm : (if i > mdl then mdl else i) = min i mdl := by
    split <;> omega
  have hle : min i mdl ≤ 8192 := by omega
  unfold offset_cap
  rw [hm]
  generalize min i mdl = x at hle
  unfold to_short short_to_uint
  have e1 : x % 2 ^ 16 = x := Nat.mod_eq_of_lt (by omega)
  rw [e1, if_pos (by omega)]
  omega

/-! ## Lemmas on the packed stream -/

theorem bit_of_byte (x r : Nat) (hr : r < 8) : (x % 256 / 2 ^ r) % 2 = (x / 2 ^ r) % 2 := by
  have h := Nat.testBit_mod_two_pow x 8 r
  rw [Nat.testBit_to_div_mod, Nat.testBit_to_div_mod] at h
  simp only [hr, decide_True, Bool.true_and, decide_eq_decide] at h
  have h1 := Nat.mod_two_eq_zero_or_one (x % 2 ^ 8 / 2 ^ r)
  have h2 := Nat.mod_two_eq_zero_or_one (x / 2 ^ r)
  have e : (256 : Nat) = 2 ^ 8 := by decide
  rw [e]
  omega

theorem stream_bit_bytes_of (pre : List Nat) (N m a : Nat) (ha : a < 8 * m) :
    stream_bit (pre ++ bytes_of N m) (8 * pre.length + a) = N / 2 ^ a % 2 := by
  unfold stream_bit
  have e1 : (8 * pre.length + a) / 8 = pre.length + a / 8 := by omega
  have e2 : (8 * pre.length + a) % 8 = a % 8 := by omega
  have ha8 : a / 8 < m := by omega
  rw [e1, e2, List.getD_eq_getElem?_getD, List.getElem?_append_right (by omega),
    show pre.length + a / 8 - pre.length = a / 8 by omega]
  unfold bytes_of
  rw [List.getElem?_map, List.getElem?_range ha8]
  simp only [Option.map_some', Option.getD_some]
  rw [Nat.and_one_is_mod, Nat.shiftRight_eq_div_pow, bit_of_byte _ _ (Nat.mod_lt _ (by decide)),
    Nat.div_div_eq_div_mul, show (256 : Nat) = 2 ^ 8 by decide, ← Nat.pow_mul, ← Nat.pow_add,
    show 8 * (a / 8) + a % 8 = a by omega]

theorem bits_val_bytes_of (pre : List Nat) (N m : Nat) : ∀ (n a : Nat), a + n ≤ 8 * m →
    bits_val (pre ++ bytes_of N m) (8 * pre.length + a) n = N / 2 ^ a % 2 ^ n := by
  intro n
  induction n with
  | zero => intro a _; simp [bits_val, Nat.mod_one]
  | succ n ih =>
    intro a ha
    rw [bits_val, stream_bit_bytes_of pre N m a (by omega),
      show 8 * pre.length + a + 1 = 8 * pre.length + (a + 1) by omega, ih (a + 1) (by omega),
      Nat.pow_succ 2 n, Nat.mul_comm (2 ^ n) 2, Nat.mod_mul, Nat.pow_succ, Nat.div_div_eq_div_mul]

theorem length_bytes_of (N m : Nat) : (bytes_of N m).length = m := by
  simp [bytes_of]

theorem holds_bytes_of (pre : List Nat) (N m t : Nat) (ht : t ≤ 8 * m) :
    Holds (pre ++ bytes_of N m) (8 * pre.length) N t := by
  constructor
  · rw [List.length_append, length_bytes_of]; omega
  · intro a n han
    exact bits_val_bytes_of pre N m n a (by omega)

theorem le_value_bytes_of (L : Nat) : ∀ (W s : Nat),
    le_value ((List.range' s W).map fun j => L / 256 ^ j % 256) = L / 256 ^ s % 256 ^ W := by
  intro W
  induction W with
  | zero => intro s; simp [le_value, Nat.mod_one]
  | succ W ih =>
    intro s
    rw [List.range'_succ, List.map_cons, le_value, ih (s + 1), Nat.mod_mod, Nat.pow_succ 256 W,
      Nat.mul_comm (256 ^ W) 256, Nat.mod_mul, Nat.pow_succ, Nat.div_div_eq_div_mul]

theorem le_value_header (L W : Nat) (h : L < 256 ^ W) : le_value (bytes_of L W) = L := by
  unfold bytes_of
  rw [List.range_eq_range', le_value_bytes_of L W 0]
  simp [Nat.mod_eq_of_lt h]

/-- Reading the first field of a stream that spells a list of fields. -/
theorem holds_read (inb : List Nat) (g : State) (w v : Nat) (fs : List (Nat × Nat))
    (h : Holds inb (bit_pos g) (field_value ((w, v) :: fs)) (field_bits ((w, v) :: fs)))
    (ha : g.jbi_bits_avail ≤ 8) (h1 : 1 ≤ w) (h2 : w ≤ 16) :
    jbi_read_packed inb w g = .ok (v % 2 ^ w, cursor_after g w) ∧
    Holds inb (bit_pos (cursor_after g w)) (field_value fs) (field_bits fs) := by
  obtain ⟨hb, hv⟩ := h
  rw [field_bits] at hb hv
  constructor
  · rw [read_packed_ok inb w g ha h1 h2 (by omega)]
    congr 2
    have := hv 0 w (by omega)
    rw [Nat.add_zero, Nat.pow_zero, Nat.div_one, field_value, Nat.add_mul_mod_self_left,
      Nat.mod_mod] at this
    exact this
  · rw [bit_pos_cursor_after g w h1]
    constructor
    · omega
    · intro a n han
      have := hv (w + a) n (by omega)
      rw [← Nat.add_assoc] at this
      rw [this, field_value, Nat.pow_add, ← Nat.div_div_eq_div_mul,
        Nat.add_mul_div_left _ _ (by positivity), Nat.div_eq_of_lt (Nat.mod_lt _ (by positivity)),
        Nat.zero_add]

/-! ## The literal and copy loops on a well-formed stream -/

theorem take_set_succ {α : Type} : ∀ (l : List α) (i : Nat) (b : α), i < l.length →
    (l.set i b).take (i + 1) = l.take i ++ [b] := by
  intro l
  induction l with
  | nil => intro i b h; simp at h
  | cons a l ih =>
    intro i b h
    cases i with
    | zero => simp
    | succ i =>
      rw [List.set_cons_succ, List.take_succ_cons, List.take_succ_cons, List.cons_append]
      rw [ih i b (by simpa using h)]

theorem usubl_of_le (W : Nat) {a b : Nat} (h : b ≤ a) (ha : a < 2 ^ (8 * W)) :
    usubl W a b = a - b := by
  unfold usubl
  generalize 2 ^ (8 * W) = M at ha
  rw [Nat.mod_eq_of_lt ha, Nat.mod_eq_of_lt (show b < M by omega),
    show a + M - b = (a - b) + M by omega, Nat.add_mod_right, Nat.mod_eq_of_lt (by omega)]

theorem bit_pos_log (g : State) (l : List Access) :
    bit_pos { g with accesses := l } = bit_pos g := rfl

theorem literal_loop_spec (inb : List Nat) (L : Nat) : ∀ (k : Nat) (d : Dec) (bs : List Nat)
    (fs : List (Nat × Nat)),
    bs.length = min k (L - d.i) → (∀ b ∈ bs, b < 256) → L ≤ d.out.length →
    d.g.jbi_bits_avail ≤ 8 →
    Holds inb (bit_pos d.g) (field_value (bs.map (fun b => (8, b)) ++ fs))
      (field_bits (bs.map (fun b => (8, b)) ++ fs)) →
    ∃ d', literal_loop inb L k d = .ok d' ∧ d'.i = d.i + bs.length ∧
      d'.out.take d'.i = d.out.take d.i ++ bs ∧ d'.out.length = d.out.length ∧
      d'.g.jbi_bits_avail ≤ 8 ∧ Holds inb (bit_pos d'.g) (field_value fs) (field_bits fs) := by
  intro k
  induction k with
  | zero =>
    intro d bs fs hlen _ _ ha hh
    have : bs = [] := List.length_eq_zero.1 (by omega)
    subst this
    exact ⟨d, rfl, by simp, by simp, rfl, ha, by simpa using hh⟩
  | succ k ih =>
    intro d bs fs hlen hb hL ha hh
    rw [literal_loop]
    by_cases hi : d.i < L
    · rw [if_pos hi]
      cases bs with
      | nil => simp at hlen; omega
      | cons b bs =>
        rw [List.map_cons, List.cons_append] at hh
        obtain ⟨hr, hh'⟩ := holds_read inb d.g 8 b _ hh ha (by omega) (by omega)
        have hb256 : b % 2 ^ 8 = b := Nat.mod_eq_of_lt (hb b (by simp))
        rw [show CHAR_BITS = 8 from rfl, hr, hb256]
        simp only
        rw [if_pos (by omega), Nat.mod_eq_of_lt (hb b (by simp))]
        obtain ⟨d', h1, h2, h3, h4, h5, h6⟩ := ih
          { i := d.i + 1, out := d.out.set d.i b,
            g := { cursor_after d.g 8 with accesses := (cursor_after d.g 8).accesses ++ [Access.wr_out d.i b] } }
          bs fs (by simp at hlen ⊢; omega) (fun x hx => hb x (by simp [hx]))
          (by simpa using hL) (avail_cursor_after d.g 8) hh'
        refine ⟨d', h1, ?_, ?_, ?_, h5, h6⟩
        · rw [h2]; simp; omega
        · rw [h3]
          simp only
          rw [take_set_succ d.out d.i b (by omega)]
          simp
        · rw [h4]; simp
    · rw [if_neg hi]
      have : bs = [] := List.length_eq_zero.1 (by omega)
      subst this
      exact ih d [] fs (by simp; omega) hb hL ha hh

/-- The bytes that the copy loop has appended after `m` steps. -/
theorem copy_loop_spec (W L off : Nat) (acc0 : List Nat) (hoff1 : 1 ≤ off)
    (hoff2 : off ≤ acc0.length) (hLW : L < 2 ^ (8 * W)) (hb : ∀ b ∈ acc0, b < 256) :
    ∀ (len : Nat) (d : Dec) (j : Nat), d.i = acc0.length + j →
    d.out.take d.i = acc0 ++ (List.range j).map (fun k => acc0.getD (acc0.length - off + k % off) 0) →
    L ≤ d.out.length →
    ∃ d', copy_loop W off L len d = .ok d' ∧ d'.i = d.i + min len (L - d.i) ∧
      d'.out.take d'.i = acc0 ++ (List.range (j + min len (L - d.i))).map
        (fun k => acc0.getD (acc0.length - off + k % off) 0) ∧
      d'.out.length = d.out.length ∧ bit_pos d'.g = bit_pos d.g ∧
      d'.g.jbi_bits_avail = d.g.jbi_bits_avail := by
  intro len
  induction len with
  | zero =>
    intro d j _ ht _
    exact ⟨d, rfl, by simp, by simpa using ht, rfl, rfl, rfl⟩
  | succ len ih =>
    intro d j hi ht hL
    rw [copy_loop]
    by_cases hlt : d.i < L
    · rw [if_pos hlt]
      have hsrc : usubl W d.i off = d.i - off := usubl_of_le W (by omega) (by omega)
      have hmod : 0 < off := hoff1
      have hidx : acc0.length - off + j % off < acc0.length := by
        have := Nat.mod_lt j hmod
        omega
      have hget : d.out[usubl W d.i off]? = some (acc0.getD (acc0.length - off + j % off) 0) := by
        rw [hsrc, ← List.getElem?_take_of_lt (show d.i - off < d.i by omega), ht]
        by_cases hj : j < off
        · rw [List.getElem?_append_left (by omega), Nat.mod_eq_of_lt hj,
            List.getD_eq_getElem?_getD, show d.i - off = acc0.length - off + j by omega]
          rw [List.getElem?_eq_getElem (by omega)]
          rfl
        · rw [List.getElem?_append_right (by omega), List.getElem?_map,
            List.getElem?_range (by omega)]
          simp only [Option.map_some']
          rw [show d.i - off - acc0.length = j - off by omega,
            ← Nat.mod_eq_sub_mod (by omega)]
      have hlt256 : acc0.getD (acc0.length - off + j % off) 0 < 256 := by
        rw [List.getD_eq_getElem _ _ hidx]
        exact hb _ (List.getElem_mem _)
      simp only [hget]
      rw [if_pos (by omega), Nat.mod_eq_of_lt hlt256]
      obtain ⟨d', h1, h2, h3, h4, h5, h6⟩ := ih
        { i := d.i + 1, out := d.out.set d.i (acc0.getD (acc0.length - off + j % off) 0),
          g := { d.g with accesses := d.g.accesses ++
            [Access.rd_out (usubl W d.i off),
             Access.wr_out d.i (acc0.getD (acc0.length - off + j % off) 0)] } }
        (j + 1) (by simp only; omega)
        (by
          simp only
          rw [take_set_succ d.out d.i _ (by omega), ht, List.range_succ, List.map_append,
            List.append_assoc]
          rfl)
        (by simpa using hL)
      refine ⟨d', h1, ?_, ?_, ?_, ?_, ?_⟩
      · rw [h2]; simp only; omega
      · rw [h3]; simp only
        congr 3
        omega
      · rw [h4]; simp
      · rw [h5]; rfl
      · rw [h6]
    · rw [if_neg hlt]
      obtain ⟨d', h1, h2, h3, h4, h5, h6⟩ := ih d j hi ht hL
      refine ⟨d', h1, ?_, ?_, h4, h5, h6⟩
      · rw [h2]; omega
      · rw [h3]; congr 3; omega

/-! ## The token loop on a well-formed stream -/

theorem field_width_spec (mws pos : Nat) (h : mws ≤ 8192) :
    jbi_bits_required (min pos mws) = .ok (field_width mws pos) ∧
    1 ≤ field_width mws pos ∧ field_width mws pos ≤ 16 := by
  unfold field_width
  by_cases h0 : min pos mws = 0
  · rw [h0]; exact ⟨rfl, by decide, by decide⟩
  · have hn0 : min pos mws ≠ 0 := h0
    have hj : (min pos mws).log2 < 16 := (Nat.log2_lt hn0).2 (by omega)
    rw [bits_required_eq _ (by omega) (by omega)]
    simp only
    exact ⟨trivial, by omega, by omega⟩

theorem expand_extends (L : Nat) : ∀ (ts : List Token) (acc : List Nat), acc <+: expand L ts acc := by
  intro ts
  induction ts with
  | nil => intro acc; exact List.prefix_refl acc
  | cons t ts ih =>
    intro acc
    rw [expand]
    refine List.IsPrefix.trans ?_ (ih _)
    cases t <;> exact List.prefix_append _ _

theorem token_expand_bytes (mws L : Nat) (acc : List Nat) (t : Token)
    (hacc : ∀ b ∈ acc, b < 256) (ht : token_ok mws L acc t) :
    ∀ b ∈ token_expand L acc t, b < 256 := by
  intro b hb
  cases t with
  | literal bytes =>
    rw [token_expand, List.mem_append] at hb
    rcases hb with hb | hb
    · exact hacc b hb
    · exact ht.2 b hb
  | matching offset length =>
    rw [token_expand, List.mem_append] at hb
    rcases hb with hb | hb
    · exact hacc b hb
    · obtain ⟨h1, h2, _, _⟩ := ht
      unfold match_bytes at hb
      rw [List.mem_map] at hb
      obtain ⟨k, _, rfl⟩ := hb
      have hidx : acc.length - offset + k % offset < acc.length := by
        have := Nat.mod_lt k (show 0 < offset by omega)
        omega
      rw [List.getD_eq_getElem _ _ hidx]
      exact hacc _ (List.getElem_mem _)

theorem token_loop_spec (W mws L : Nat) (inb : List Nat) (hmws : mws ≤ 8192)
    (hLW : L < 2 ^ (8 * W)) :
    ∀ (ts : List Token) (fuel : Nat) (d : Dec) (acc : List Nat),
    d.out.take d.i = acc → acc.length = d.i → (∀ b ∈ acc, b < 256) →
    well_formed mws L ts acc → (expand L ts acc).length = L → L ≤ d.out.length →
    d.g.jbi_bits_avail ≤ 8 →
    Holds inb (bit_pos d.g) (field_value (fields mws L ts acc)) (field_bits (fields mws L ts acc)) →
    field_bits (fields mws L ts acc) ≤ 8 * fuel →
    ∃ d', token_loop W inb L mws fuel d = .ok d' ∧ d'.i = L ∧
      d'.out.take L = expand L ts acc ∧ d'.out.length = d.out.length := by
  intro ts
  induction ts with
  | nil =>
    intro fuel d acc htk hlen _ _ hex _ _ _ _
    rw [expand] at hex
    have hi : ¬ d.i < L := by omega
    refine ⟨d, ?_, by omega, ?_, rfl⟩
    · cases fuel <;> simp [token_loop, hi]
    · have hiL : d.i = L := by omega
      have htL : d.out.take L = acc := by rw [← hiL]; exact htk
      rw [expand, htL]
  | cons t ts ih =>
    intro fuel d acc htk hlen hb hwf hex hL ha hh hfuel
    have hpre := expand_extends L (t :: ts) acc
    by_cases hi : d.i < L
    · obtain ⟨hok, hwf'⟩ := hwf
      rw [expand] at hex
      rw [fields] at hh hfuel
      have hb' := token_expand_bytes mws L acc t hb hok
      cases t with
      | literal bytes =>
        rw [token_fields, List.cons_append] at hh hfuel
        obtain ⟨hr, hh1⟩ := holds_read inb d.g 1 0 _ hh ha (by omega) (by omega)
        have hr : jbi_read_packed inb 1 d.g = .ok (0, cursor_after d.g 1) := hr
        have hbits : 1 ≤ bytes.length := by rw [hok.1]; omega
        obtain ⟨f, rfl⟩ : ∃ f, fuel = f + 1 := ⟨fuel - 1, by rw [field_bits] at hfuel; omega⟩
        rw [token_loop, if_pos hi, token_step, hr]
        simp only [if_true]
        obtain ⟨d1, e1, e2, e3, e4, e5, e6⟩ := literal_loop_spec inb L DATA_BLOB_LENGTH
          { d with g := cursor_after d.g 1 } bytes _
          (by rw [hok.1, hlen]; rfl) hok.2 hL (avail_cursor_after d.g 1) hh1
        rw [e1]
        simp only
        simp only at e2 e3 e4
        obtain ⟨d', g1, g2, g3, g4⟩ := ih f d1 (token_expand L acc (Token.literal bytes))
          (by rw [e3, htk]; rfl)
          (by rw [token_expand, List.length_append, hlen, e2])
          hb' hwf' hex (by omega) e5 e6
          (by
            have hcons : ∀ (bs : List Nat) (fs : List (Nat × Nat)),
                field_bits (bs.map (fun b => (8, b)) ++ fs) = 8 * bs.length + field_bits fs := by
              intro bs fs
              induction bs with
              | nil => simp
              | cons b bs ihb => rw [List.map_cons, List.cons_append, field_bits, ihb]; simp; omega
            rw [field_bits, hcons] at hfuel
            omega)
        exact ⟨d', g1, g2, g3, by rw [g4, e4]⟩
      | matching offset length =>
        obtain ⟨ho1, ho2, ho3, ho4⟩ := hok
        obtain ⟨hw, hw1, hw2⟩ := field_width_spec mws acc.length hmws
        rw [token_fields] at hh hfuel
        simp only [List.cons_append, List.nil_append] at hh hfuel
        obtain ⟨hr1, hh1⟩ := holds_read inb d.g 1 1 _ hh ha (by omega) (by omega)
        have hr1 : jbi_read_packed inb 1 d.g = .ok (1, cursor_after d.g 1) := hr1
        obtain ⟨hr2, hh2⟩ := holds_read inb (cursor_after d.g 1) _ offset _ hh1
          (avail_cursor_after d.g 1) hw1 hw2
        obtain ⟨hr3, hh3⟩ := holds_read inb (cursor_after (cursor_after d.g 1) (field_width mws acc.length))
          8 length _ hh2 (avail_cursor_after _ _) (by omega) (by omega)
        obtain ⟨f, rfl⟩ : ∃ f, fuel = f + 1 := ⟨fuel - 1, by rw [field_bits] at hfuel; omega⟩
        rw [token_loop, if_pos hi, token_step, hr1]
        simp only [one_ne_zero, if_false]
        rw [offset_cap_eq mws d.i hmws, show min d.i mws = min acc.length mws by rw [hlen], hw]
        simp only
        rw [hr2]
        simp only
        rw [show CHAR_BITS = 8 from rfl, hr3]
        simp only
        rw [Nat.mod_eq_of_lt ho3, Nat.mod_eq_of_lt (show length < 2 ^ 8 by omega)]
        obtain ⟨d1, e1, e2, e3, e4, e5, e6⟩ := copy_loop_spec W L offset acc ho1 ho2 hLW hb length
          { d with g := cursor_after (cursor_after (cursor_after d.g 1) (field_width mws acc.length)) 8 }
          0 (by simp [hlen]) (by simpa using htk) hL
        rw [e1]
        simp only
        simp only [Nat.zero_add] at e2 e3 e4 e5 e6
        obtain ⟨d', g1, g2, g3, g4⟩ := ih f d1 (token_expand L acc (Token.matching offset length))
          (by rw [e3, token_expand, match_bytes, hlen])
          (by rw [token_expand, List.length_append, match_bytes, List.length_map, List.length_range,
                hlen, e2])
          hb' hwf' hex (by omega)
          (by rw [e6]; exact avail_cursor_after _ _)
          (by rw [e5]; exact hh3)
          (by simp only [field_bits] at hfuel; omega)
        exact ⟨d', g1, g2, g3, by rw [g4, e4]⟩
    · have hle : acc.length ≤ (expand L (t :: ts) acc).length := hpre.length_le
      have hiL : d.i = L := by omega
      refine ⟨d, ?_, hiL, ?_, rfl⟩
      · cases fuel <;> simp [token_loop, hi]
      · have htL : d.out.take L = acc := by rw [← hiL]; exact htk
        rw [htL]
        exact hpre.eq_of_length (by omega)

/-! ## The decoder on a serialised token list -/

theorem zero_loop_ok : ∀ (k i : Nat) (out : List Nat), i + k ≤ out.length →
    zero_loop k i out = .ok (out.take i ++ List.replicate k 0 ++ out.drop (i + k)) := by
  intro k
  induction k with
  | zero => intro i out _; simp [zero_loop]
  | succ k ih =>
    intro i out h
    rw [zero_loop, if_pos (by omega), ih (i + 1) _ (by simp only [List.length_set]; omega),
      take_set_succ out i 0 (by omega), List.drop_set_of_lt 0 out (by omega)]
    congr 1
    rw [List.replicate_succ, show i + 1 + k = i + (k + 1) by omega]
    simp

theorem pow256 (W : Nat) : (256 : Nat) ^ W = 2 ^ (8 * W) := by
  rw [Nat.pow_mul]

/-- The decoder on the stream of a well-formed token list. -/
theorem round_trip_core (W : Nat) (version : Int) (L : Nat) (tokens : List Token)
    (in_length : Nat) (out : List Nat) (out_length : Nat) (g : State)
    (hL : L < 256 ^ W) (hwf : well_formed (match_window version) L tokens [])
    (hlen : (expand L tokens []).length = L) (hout : L ≤ out_length)
    (hcap : out_length ≤ out.length) :
    ∃ r, jbi_uncompress W (serialise W (match_window version) L tokens) in_length out out_length
        version g = .ok r ∧ r.ret = L ∧ r.i = L ∧ r.out.take L = expand L tokens [] ∧
      r.out.length = out.length := by
  have hinlen : (serialise W (match_window version) L tokens).length
      = W + (field_bits (fields (match_window version) L tokens []) + 7) / 8 := by
    simp [serialise, pack_fields, length_bytes_of]
  have hav : (reset_cursor in_length g).jbi_bits_avail ≤ 8 := by simp [reset_cursor, CHAR_BITS]
  have hp0 : bit_pos (reset_cursor in_length g) = 8 * 0 := by simp [reset_cursor, bit_pos, CHAR_BITS]
  have hhead := header_loop_ok W (serialise W (match_window version) L tokens) W 0 0
    (reset_cursor in_length g) hav hp0 (by omega) (by omega) (by simp)
  have hval : 0 + 256 ^ 0 * le_value
      (((serialise W (match_window version) L tokens).drop 0).take W) = L := by
    simp only [List.drop_zero, Nat.pow_zero, Nat.one_mul, Nat.zero_add, serialise]
    rw [List.take_left' (length_bytes_of L W), le_value_header L W hL]
  rw [hval] at hhead
  have hpos : bit_pos (after_bytes (reset_cursor in_length g) W) = 8 * (bytes_of L W).length := by
    rw [bit_pos_after_bytes, hp0, length_bytes_of]; omega
  have hholds : Holds (serialise W (match_window version) L tokens)
      (bit_pos (after_bytes (reset_cursor in_length g) W))
      (field_value (fields (match_window version) L tokens []))
      (field_bits (fields (match_window version) L tokens [])) := by
    rw [hpos]
    exact holds_bytes_of _ _ _ _ (by omega)
  have hzero := zero_loop_ok out_length 0 out (by omega)
  obtain ⟨d', h1, h2, h3, h4⟩ := token_loop_spec W (match_window version) L
    (serialise W (match_window version) L tokens) (match_window_le version)
    (by rw [← pow256]; exact hL) tokens
    (serialise W (match_window version) L tokens).length
    { i := 0, out := out.take 0 ++ List.replicate out_length 0 ++ out.drop (0 + out_length),
      g := after_bytes (reset_cursor in_length g) W } []
    (by simp) rfl (by simp) hwf hlen
    (by simp; omega)
    (avail_after_bytes W _ hav) hholds (by rw [hinlen]; omega)
  refine ⟨{ ret := L, i := d'.i, out := d'.out, g := d'.g }, ?_, rfl, h2, h3, ?_⟩
  · unfold jbi_uncompress
    simp only [hzero, hhead]
    rw [if_neg (by omega), h1]
  · simp only [h4]
    simp
    omega

theorem literal_tokens_spec (mws L : Nat) : ∀ (p acc : List Nat), (∀ b ∈ p, b < 256) →
    L = acc.length + p.length →
    well_formed mws L (literal_tokens p) acc ∧ expand L (literal_tokens p) acc = acc ++ p := by
  intro p
  induction p using literal_tokens.induct with
  | case1 => intro acc _ _; simp [literal_tokens, well_formed, expand]
  | case2 a =>
    intro acc hb hL
    simp only [literal_tokens, well_formed, expand, token_ok, token_expand, and_true, true_and]
    refine ⟨by simp at hL ⊢; omega, hb⟩
  | case3 a b =>
    intro acc hb hL
    simp only [literal_tokens, well_formed, expand, token_ok, token_expand, and_true, true_and]
    refine ⟨by simp at hL ⊢; omega, hb⟩
  | case4 a b c rest ih =>
    intro acc hb hL
    obtain ⟨h1, h2⟩ := ih (acc ++ [a, b, c]) (fun x hx => hb x (by simp [hx]))
      (by simp at hL ⊢; omega)
    simp only [literal_tokens, well_formed, expand, token_ok, token_expand]
    refine ⟨⟨⟨by simp at hL ⊢; omega, fun x hx => hb x (by
      simp only [List.mem_cons, List.mem_singleton, List.not_mem_nil, or_false] at hx ⊢
      tauto)⟩, h1⟩, ?_⟩
    rw [h2]; simp

theorem literal_tokens_length : ∀ (p : List Nat), (literal_tokens p).length = (p.length + 2) / 3 := by
  intro p
  induction p using literal_tokens.induct with
  | case1 => rfl
  | case2 a => simp [literal_tokens]
  | case3 a b => simp [literal_tokens]
  | case4 a b c rest ih =>
    simp only [literal_tokens, List.length_cons, ih]
    omega

theorem literal_tokens_literal : ∀ (p : List Nat), ∀ t ∈ literal_tokens p,
    ∃ bytes, t = Token.literal bytes := by
  intro p
  induction p using literal_tokens.induct with
  | case1 => intro t ht; simp [literal_tokens] at ht
  | case2 a => intro t ht; simp [literal_tokens] at ht; exact ⟨_, ht⟩
  | case3 a b => intro t ht; simp [literal_tokens] at ht; exact ⟨_, ht⟩
  | case4 a b c rest ih =>
    intro t ht
    simp only [literal_tokens, List.mem_cons] at ht
    rcases ht with ht | ht
    · exact ⟨_, ht⟩
    · exact ih t ht

/-! ## What the loops of `jbi_uncompress` keep, on any input -/

theorem step_inv_refl (L : Nat) (d : Dec) (ha : d.g.jbi_bits_avail ≤ 8) : Step_inv L d d :=
  ⟨Nat.le_refl _, fun h => h, rfl, fun _ _ => rfl, ha, Nat.le_refl _, rfl, [], by simp, by simp⟩

theorem step_inv_trans (L : Nat) (d d1 d2 : Dec) (h1 : Step_inv L d d1) (h2 : Step_inv L d1 d2) :
    Step_inv L d d2 := by
  obtain ⟨a1, a2, a3, a4, a5, a6, a7, l1, a8, a9⟩ := h1
  obtain ⟨b1, b2, b3, b4, b5, b6, b7, l2, b8, b9⟩ := h2
  refine ⟨by omega, fun h => b2 (a2 h), by rw [b3, a3], ?_, b5, by omega, by rw [b7, a7],
    l1 ++ l2, by rw [b8, a8, List.append_assoc], ?_⟩
  · intro x hx
    rw [b4 x (by omega), a4 x (by omega)]
  · intro idx val hm
    rw [List.mem_append] at hm
    rcases hm with hm | hm
    · exact a9 idx val hm
    · exact b9 idx val hm

/-- A successful read, seen from the decoder: the cursor after it. -/
theorem read_packed_frame (inb : List Nat) (n : Nat) (g g' : State) (v : Nat)
    (ha : g.jbi_bits_avail ≤ 8) (h1 : 1 ≤ n) (h2 : n ≤ 16)
    (h : jbi_read_packed inb n g = .ok (v, g')) :
    g'.jbi_bits_avail ≤ 8 ∧ bit_pos g' = bit_pos g + n ∧ bit_pos g' ≤ 8 * inb.length ∧
    g'.jbi_in_length = g.jbi_in_length ∧
    ∃ idxs : List Nat, g'.accesses = g.accesses ++ idxs.map Access.rd_in := by
  obtain ⟨hin, _, hg⟩ := read_packed_inv inb n g g' v ha h1 h2 h
  subst hg
  refine ⟨avail_cursor_after g n, bit_pos_cursor_after g n h1, ?_, rfl, _, rfl⟩
  rw [bit_pos_cursor_after g n h1]; exact hin

theorem getElem?_set_other (l : List Nat) (i x v : Nat) (h : x ≠ i) : (l.set i v)[x]? = l[x]? := by
  rw [List.getElem?_set_ne (Ne.symm h)]

theorem literal_loop_frame (inb : List Nat) (L : Nat) : ∀ (k : Nat) (d d' : Dec),
    d.g.jbi_bits_avail ≤ 8 → literal_loop inb L k d = .ok d' →
    Step_inv L d d' ∧ d'.i = d.i + min k (L - d.i) ∧
    bit_pos d'.g = bit_pos d.g + 8 * min k (L - d.i) ∧
    (0 < min k (L - d.i) → bit_pos d'.g ≤ 8 * inb.length) := by
  intro k
  induction k with
  | zero =>
    intro d d' ha h
    rw [literal_loop] at h
    injection h with h
    subst h
    exact ⟨step_inv_refl L d ha, by simp, by simp, by simp⟩
  | succ k ih =>
    intro d d' ha h
    rw [literal_loop] at h
    by_cases hi : d.i < L
    · rw [if_pos hi] at h
      cases hread : jbi_read_packed inb CHAR_BITS d.g with
      | error e => rw [hread] at h; cases h
      | ok vg =>
        obtain ⟨v, g1⟩ := vg
        rw [hread] at h
        simp only at h
        obtain ⟨r1, r2, r3, r4, idxs, r5⟩ :=
          read_packed_frame inb CHAR_BITS d.g g1 v ha (by decide) (by decide) hread
        by_cases ho : d.i < d.out.length
        · rw [if_pos ho] at h
          obtain ⟨s, e1, e2, e3⟩ := ih _ d' (by simpa using r1) h
          simp only at e1 e2 e3
          have hstep : Step_inv L d ⟨d.i + 1, d.out.set d.i (v % 256),
              ⟨g1.jbi_in_length, g1.jbi_in_index, g1.jbi_bits_avail,
                g1.accesses ++ [Access.wr_out d.i (v % 256)]⟩⟩ := by
            refine ⟨by simp, fun _ => hi, by simp, ?_, r1, ?_, r4,
              idxs.map Access.rd_in ++ [Access.wr_out d.i (v % 256)], ?_, ?_⟩
            · intro x hx
              simp only at hx
              exact getElem?_set_other d.out d.i x _ (by omega)
            · show bit_pos d.g ≤ bit_pos g1
              omega
            · simp only [r5, List.append_assoc]
            · intro idx val hm
              simp only [List.mem_append, List.mem_map, List.mem_singleton] at hm
              rcases hm with ⟨_, _, hm⟩ | hm
              · cases hm
              · injection hm with hm1 _
                omega
          have e2' : bit_pos d'.g = bit_pos g1 + 8 * min k (L - (d.i + 1)) := e2
          have r2' : bit_pos g1 = bit_pos d.g + 8 := r2
          refine ⟨step_inv_trans L _ _ _ hstep s, by rw [e1]; omega, by omega, ?_⟩
          intro _
          by_cases hk : 0 < min k (L - (d.i + 1))
          · exact e3 hk
          · omega
        · rw [if_neg ho] at h; cases h
    · rw [if_neg hi] at h
      obtain ⟨s, e1, e2, e3⟩ := ih d d' ha h
      refine ⟨s, by rw [e1]; omega, by rw [e2]; omega, fun hk => by omega⟩

theorem copy_loop_frame (W offset L : Nat) : ∀ (len : Nat) (d d' : Dec),
    d.g.jbi_bits_avail ≤ 8 → copy_loop W offset L len d = .ok d' →
    Step_inv L d d' ∧ d'.i = d.i + min len (L - d.i) ∧ bit_pos d'.g = bit_pos d.g := by
  intro len
  induction len with
  | zero =>
    intro d d' ha h
    rw [copy_loop] at h
    injection h with h
    subst h
    exact ⟨step_inv_refl L d ha, by simp, rfl⟩
  | succ len ih =>
    intro d d' ha h
    rw [copy_loop] at h
    by_cases hi : d.i < L
    · rw [if_pos hi] at h
      cases hget : d.out[usubl W d.i offset]? with
      | none => rw [hget] at h; cases h
      | some b =>
        rw [hget] at h
        simp only at h
        by_cases ho : d.i < d.out.length
        · rw [if_pos ho] at h
          obtain ⟨s, e1, e2⟩ := ih _ d' (by simpa using ha) h
          simp only at e1 e2
          have hstep : Step_inv L d ⟨d.i + 1, d.out.set d.i (b % 256),
              ⟨d.g.jbi_in_length, d.g.jbi_in_index, d.g.jbi_bits_avail, d.g.accesses ++
                [Access.rd_out (usubl W d.i offset), Access.wr_out d.i (b % 256)]⟩⟩ := by
            refine ⟨by simp, fun _ => hi, by simp, ?_, ha, Nat.le_refl _, rfl, _, rfl, ?_⟩
            · intro x hx
              simp only at hx
              exact getElem?_set_other d.out d.i x _ (by omega)
            · intro idx val hm
              simp only [List.mem_cons, List.mem_singleton, List.not_mem_nil, or_false] at hm
              rcases hm with hm | hm
              · cases hm
              · injection hm with hm1 _
                omega
          exact ⟨step_inv_trans L _ _ _ hstep s, by rw [e1]; omega, by rw [e2]; rfl⟩
        · rw [if_neg ho] at h; cases h
    · rw [if_neg hi] at h
      obtain ⟨s, e1, e2⟩ := ih d d' ha h
      exact ⟨s, by rw [e1]; omega, e2⟩

theorem step_inv_cursor (L : Nat) (d : Dec) (g' : State) (h1 : g'.jbi_bits_avail ≤ 8)
    (h2 : bit_pos d.g ≤ bit_pos g') (h3 : g'.jbi_in_length = d.g.jbi_in_length)
    (h4 : ∃ idxs : List Nat, g'.accesses = d.g.accesses ++ idxs.map Access.rd_in) :
    Step_inv L d { d with g := g' } := by
  obtain ⟨idxs, h4⟩ := h4
  refine ⟨Nat.le_refl _, fun h => h, rfl, fun _ _ => rfl, h1, h2, h3, _, h4, ?_⟩
  intro idx val hm
  simp only [List.mem_map] at hm
  obtain ⟨_, _, hm⟩ := hm
  cases hm

theorem token_step_frame (W : Nat) (inb : List Nat) (L mws : Nat) (hmws : mws ≤ 8192)
    (d d' : Dec) (ha : d.g.jbi_bits_avail ≤ 8) (hi : d.i < L)
    (h : token_step W inb L mws d = .ok d') :
    Step_inv L d d' ∧ bit_pos d.g + 9 ≤ bit_pos d'.g ∧ bit_pos d'.g ≤ 8 * inb.length := by
  rw [token_step] at h
  cases hread : jbi_read_packed inb 1 d.g with
  | error e => rw [hread] at h; cases h
  | ok vg =>
    obtain ⟨flag, g1⟩ := vg
    rw [hread] at h
    simp only at h
    obtain ⟨r1, r2, r3, r4, r5⟩ := read_packed_frame inb 1 d.g g1 flag ha (by decide) (by decide) hread
    have s1 := step_inv_cursor L d g1 r1 (by omega) r4 r5
    by_cases hf : flag = 0
    · rw [if_pos hf] at h
      obtain ⟨s, e1, e2, e3⟩ := literal_loop_frame inb L DATA_BLOB_LENGTH _ d' r1 h
      simp only at e1 e2 e3
      have hmin : 0 < min DATA_BLOB_LENGTH (L - d.i) := by unfold DATA_BLOB_LENGTH; omega
      exact ⟨step_inv_trans L _ _ _ s1 s, by omega, e3 hmin⟩
    · rw [if_neg hf] at h
      obtain ⟨hw, hw1, hw2⟩ := field_width_spec mws d.i hmws
      rw [offset_cap_eq mws d.i hmws, hw] at h
      simp only at h
      cases hread2 : jbi_read_packed inb (field_width mws d.i) g1 with
      | error e => rw [hread2] at h; cases h
      | ok vg2 =>
        obtain ⟨offset, g2⟩ := vg2
        rw [hread2] at h
        simp only at h
        obtain ⟨p1, p2, p3, p4, p5⟩ := read_packed_frame inb _ g1 g2 offset r1 hw1 hw2 hread2
        cases hread3 : jbi_read_packed inb CHAR_BITS g2 with
        | error e => rw [hread3] at h; cases h
        | ok vg3 =>
          obtain ⟨length, g3⟩ := vg3
          rw [hread3] at h
          simp only at h
          obtain ⟨q1, q2, q3, q4, q5⟩ :=
            read_packed_frame inb CHAR_BITS g2 g3 length p1 (by decide) (by decide) hread3
          have q2' : bit_pos g3 = bit_pos g2 + 8 := q2
          obtain ⟨s, _, e2⟩ := copy_loop_frame W offset L length _ d' q1 h
          simp only at e2
          have s2 : Step_inv L d { d with g := g3 } := by
            obtain ⟨i1, r5⟩ := r5
            obtain ⟨i2, p5⟩ := p5
            obtain ⟨i3, q5⟩ := q5
            exact step_inv_cursor L d g3 q1 (by omega) (by rw [q4, p4, r4])
              ⟨i1 ++ i2 ++ i3, by rw [q5, p5, r5]; simp⟩
          exact ⟨step_inv_trans L _ _ _ s2 s, by omega, by omega⟩

theorem token_loop_frame (W : Nat) (inb : List Nat) (L mws : Nat) (hmws : mws ≤ 8192) :
    ∀ (fuel : Nat) (d d' : Dec), d.g.jbi_bits_avail ≤ 8 →
    token_loop W inb L mws fuel d = .ok d' → Step_inv L d d' ∧ ¬ d'.i < L := by
  intro fuel
  induction fuel with
  | zero =>
    intro d d' ha h
    rw [token_loop] at h
    by_cases hi : d.i < L
    · rw [if_pos hi] at h; cases h
    · rw [if_neg hi] at h
      injection h with h
      subst h
      exact ⟨step_inv_refl L d ha, hi⟩
  | succ fuel ih =>
    intro d d' ha h
    rw [token_loop] at h
    by_cases hi : d.i < L
    · rw [if_pos hi] at h
      cases hstep : token_step W inb L mws d with
      | error e => rw [hstep] at h; cases h
      | ok d1 =>
        rw [hstep] at h
        simp only at h
        obtain ⟨s1, _, _⟩ := token_step_frame W inb L mws hmws d d1 ha hi hstep
        obtain ⟨s2, hex⟩ := ih d1 d' s1.2.2.2.2.1 h
        exact ⟨step_inv_trans L _ _ _ s1 s2, hex⟩
    · rw [if_neg hi] at h
      injection h with h
      subst h
      exact ⟨step_inv_refl L d ha, hi⟩

/-! ### The fuel of the loops is enough -/

theorem read_packed_fault (inb : List Nat) (n : Nat) (g : State) (e : Fault)
    (ha : g.jbi_bits_avail ≤ 8) (h1 : 1 ≤ n) (h2 : n ≤ 16)
    (h : jbi_read_packed inb n g = .error e) : e = .in_overrun := by
  by_cases hin : bit_pos g + n ≤ 8 * inb.length
  · rw [read_packed_ok inb n g ha h1 h2 hin] at h; cases h
  · rw [read_packed_overrun inb n g ha h1 h2 (by omega)] at h
    injection h with h
    exact h.symm

theorem literal_loop_fault (inb : List Nat) (L : Nat) : ∀ (k : Nat) (d : Dec) (e : Fault),
    d.g.jbi_bits_avail ≤ 8 → literal_loop inb L k d = .error e → e ≠ .no_return := by
  intro k
  induction k with
  | zero => intro d e _ h; rw [literal_loop] at h; cases h
  | succ k ih =>
    intro d e ha h
    rw [literal_loop] at h
    by_cases hi : d.i < L
    · rw [if_pos hi] at h
      cases hread : jbi_read_packed inb CHAR_BITS d.g with
      | error e' =>
        rw [hread] at h
        injection h with h
        subst h
        rw [read_packed_fault inb CHAR_BITS d.g e' ha (by decide) (by decide) hread]
        decide
      | ok vg =>
        obtain ⟨v, g1⟩ := vg
        rw [hread] at h
        simp only at h
        obtain ⟨r1, _⟩ := read_packed_frame inb CHAR_BITS d.g g1 v ha (by decide) (by decide) hread
        by_cases ho : d.i < d.out.length
        · rw [if_pos ho] at h
          exact ih _ e (by simpa using r1) h
        · rw [if_neg ho] at h
          injection h with h
          subst h
          decide
    · rw [if_neg hi] at h
      exact ih d e ha h

theorem copy_loop_fault (W offset L : Nat) : ∀ (len : Nat) (d : Dec) (e : Fault),
    copy_loop W offset L len d = .error e → e ≠ .no_return := by
  intro len
  induction len with
  | zero => intro d e h; rw [copy_loop] at h; cases h
  | succ len ih =>
    intro d e h
    rw [copy_loop] at h
    by_cases hi : d.i < L
    · rw [if_pos hi] at h
      cases hget : d.out[usubl W d.i offset]? with
      | none =>
        rw [hget] at h
        injection h with h
        subst h
        decide
      | some b =>
        rw [hget] at h
        simp only at h
        by_cases ho : d.i < d.out.length
        · rw [if_pos ho] at h
          exact ih _ e h
        · rw [if_neg ho] at h
          injection h with h
          subst h
          decide
    · rw [if_neg hi] at h
      exact ih d e h

theorem token_step_fault (W : Nat) (inb : List Nat) (L mws : Nat) (hmws : mws ≤ 8192)
    (d : Dec) (e : Fault) (ha : d.g.jbi_bits_avail ≤ 8)
    (h : token_step W inb L mws d = .error e) : e ≠ .no_return := by
  rw [token_step] at h
  cases hread : jbi_read_packed inb 1 d.g with
  | error e' =>
    rw [hread] at h
    injection h with h
    subst h
    rw [read_packed_fault inb 1 d.g e' ha (by decide) (by decide) hread]
    decide
  | ok vg =>
    obtain ⟨flag, g1⟩ := vg
    rw [hread] at h
    simp only at h
    obtain ⟨r1, _⟩ := read_packed_frame inb 1 d.g g1 flag ha (by decide) (by decide) hread
    by_cases hf : flag = 0
    · rw [if_pos hf] at h
      exact literal_loop_fault inb L _ _ e r1 h
    · rw [if_neg hf] at h
      obtain ⟨hw, hw1, hw2⟩ := field_width_spec mws d.i hmws
      rw [offset_cap_eq mws d.i hmws, hw] at h
      simp only at h
      cases hread2 : jbi_read_packed inb (field_width mws d.i) g1 with
      | error e' =>
        rw [hread2] at h
        injection h with h
        subst h
        rw [read_packed_fault inb _ g1 e' r1 hw1 hw2 hread2]
        decide
      | ok vg2 =>
        obtain ⟨offset, g2⟩ := vg2
        rw [hread2] at h
        simp only at h
        obtain ⟨p1, _⟩ := read_packed_frame inb _ g1 g2 offset r1 hw1 hw2 hread2
        cases hread3 : jbi_read_packed inb CHAR_BITS g2 with
        | error e' =>
          rw [hread3] at h
          injection h with h
          subst h
          rw [read_packed_fault inb CHAR_BITS g2 e' p1 (by decide) (by decide) hread3]
          decide
        | ok vg3 =>
          obtain ⟨length, g3⟩ := vg3
          rw [hread3] at h
          simp only at h
          exact copy_loop_fault W offset L length _ e h

theorem token_loop_fault (W : Nat) (inb : List Nat) (L mws : Nat) (hmws : mws ≤ 8192) :
    ∀ (fuel : Nat) (d : Dec) (e : Fault), d.g.jbi_bits_avail ≤ 8 →
    (d.i < L → bit_pos d.g ≤ 8 * inb.length ∧ 8 * inb.length < bit_pos d.g + 9 * fuel) →
    token_loop W inb L mws fuel d = .error e → e ≠ .no_return := by
  intro fuel
  induction fuel with
  | zero =>
    intro d e ha hf h
    rw [token_loop] at h
    by_cases hi : d.i < L
    · rw [if_pos hi] at h
      have := hf hi
      omega
    · rw [if_neg hi] at h; cases h
  | succ fuel ih =>
    intro d e ha hf h
    rw [token_loop] at h
    by_cases hi : d.i < L
    · rw [if_pos hi] at h
      cases hstep : token_step W inb L mws d with
      | error e' =>
        rw [hstep] at h
        injection h with h
        subst h
        exact token_step_fault W inb L mws hmws d e' ha hstep
      | ok d1 =>
        rw [hstep] at h
        simp only at h
        obtain ⟨s1, b1, b2⟩ := token_step_frame W inb L mws hmws d d1 ha hi hstep
        exact ih d1 e s1.2.2.2.2.1 (fun _ => by have := hf hi; omega) h
    · rw [if_neg hi] at h; cases h

theorem header_loop_frame (W : Nat) (inb : List Nat) : ∀ (k i dl : Nat) (g g' : State) (v : Nat),
    g.jbi_bits_avail ≤ 8 → header_loop W inb k i dl g = .ok (v, g') →
    g'.jbi_bits_avail ≤ 8 ∧ bit_pos g' = bit_pos g + 8 * k ∧
    (0 < k → bit_pos g' ≤ 8 * inb.length) ∧ g'.jbi_in_length = g.jbi_in_length ∧
    ∃ idxs : List Nat, g'.accesses = g.accesses ++ idxs.map Access.rd_in := by
  intro k
  induction k with
  | zero =>
    intro i dl g g' v ha h
    rw [header_loop] at h
    injection h with h
    injection h with _ hg
    subst hg
    exact ⟨ha, by simp, by simp, rfl, [], by simp⟩
  | succ k ih =>
    intro i dl g g' v ha h
    rw [header_loop] at h
    cases hread : jbi_read_packed inb CHAR_BITS g with
    | error e => rw [hread] at h; cases h
    | ok vg =>
      obtain ⟨b, g1⟩ := vg
      rw [hread] at h
      simp only at h
      obtain ⟨r1, r2, r3, r4, i1, r5⟩ :=
        read_packed_frame inb CHAR_BITS g g1 b ha (by decide) (by decide) hread
      have r2' : bit_pos g1 = bit_pos g + 8 := r2
      obtain ⟨e1, e2, e3, e4, i2, e5⟩ := ih _ _ g1 g' v r1 h
      refine ⟨e1, by omega, ?_, by rw [e4, r4], i1 ++ i2, by rw [e5, r5]; simp⟩
      intro _
      by_cases hk : 0 < k
      · exact e3 hk
      · omega

theorem header_loop_fault (W : Nat) (inb : List Nat) : ∀ (k i dl : Nat) (g : State) (e : Fault),
    g.jbi_bits_avail ≤ 8 → header_loop W inb k i dl g = .error e → e ≠ .no_return := by
  intro k
  induction k with
  | zero => intro i dl g e _ h; rw [header_loop] at h; cases h
  | succ k ih =>
    intro i dl g e ha h
    rw [header_loop] at h
    cases hread : jbi_read_packed inb CHAR_BITS g with
    | error e' =>
      rw [hread] at h
      injection h with h
      subst h
      rw [read_packed_fault inb CHAR_BITS g e' ha (by decide) (by decide) hread]
      decide
    | ok vg =>
      obtain ⟨b, g1⟩ := vg
      rw [hread] at h
      simp only at h
      obtain ⟨r1, _⟩ := read_packed_frame inb CHAR_BITS g g1 b ha (by decide) (by decide) hread
      exact ih _ _ g1 e r1 h

theorem zero_loop_cases : ∀ (k i : Nat) (out : List Nat),
    zero_loop k i out = (if i + k ≤ out.length ∨ k = 0 then
      .ok (out.take i ++ List.replicate k 0 ++ out.drop (i + k)) else .error .out_range) := by
  intro k
  induction k with
  | zero => intro i out; simp [zero_loop]
  | succ k ih =>
    intro i out
    by_cases h : i + (k + 1) ≤ out.length
    · rw [if_pos (Or.inl h)]
      exact zero_loop_ok (k + 1) i out h
    · rw [if_neg (by simp; omega), zero_loop]
      by_cases hi : i < out.length
      · rw [if_pos hi, ih (i + 1) _, if_neg]
        simp only [List.length_set]
        intro hc
        rcases hc with hc | hc
        · omega
        · omega
      · rw [if_neg hi]

/-- The fuel that `jbi_uncompress` gives its token loop is enough: a call
returns, or it accesses a buffer outside its bounds. -/
theorem jbi_uncompress_fault (W : Nat) (inb : List Nat) (in_length : Nat) (out : List Nat)
    (out_length : Nat) (version : Int) (g : State) (e : Fault)
    (h : jbi_uncompress W inb in_length out out_length version g = .error e) :
    e ≠ .no_return := by
  have hav : (reset_cursor in_length g).jbi_bits_avail ≤ 8 := by simp [reset_cursor, CHAR_BITS]
  have hp0 : bit_pos (reset_cursor in_length g) = 0 := by simp [reset_cursor, bit_pos, CHAR_BITS]
  unfold jbi_uncompress at h
  simp only at h
  rw [zero_loop_cases out_length 0 out] at h
  by_cases hz : 0 + out_length ≤ out.length ∨ out_length = 0
  · rw [if_pos hz] at h
    simp only at h
    cases hhead : header_loop W inb W 0 0 (reset_cursor in_length g) with
    | error e' =>
      rw [hhead] at h
      injection h with h
      subst h
      exact header_loop_fault W inb W 0 0 _ e' hav hhead
    | ok vg =>
      obtain ⟨L, g1⟩ := vg
      rw [hhead] at h
      simp only at h
      obtain ⟨r1, r2, r3, _, _⟩ := header_loop_frame W inb W 0 0 _ g1 L hav hhead
      by_cases hL : L > out_length
      · rw [if_pos hL] at h; cases h
      · rw [if_neg hL] at h
        cases hloop : token_loop W inb L (match_window version) inb.length
            ⟨0, out.take 0 ++ List.replicate out_length 0 ++ out.drop (0 + out_length), g1⟩ with
        | error e' =>
          rw [hloop] at h
          injection h with h
          subst h
          refine token_loop_fault W inb L (match_window version) (match_window_le version)
            inb.length _ e' r1 ?_ hloop
          intro _
          simp only
          by_cases hW : 0 < W
          · have := r3 hW
            omega
          · have hW0 : W = 0 := by omega
            subst hW0
            rw [header_loop] at hhead
            injection hhead with hhead
            injection hhead with hL0 _
            subst hL0
            simp only at *
            omega
        | ok d' => rw [hloop] at h; cases h
  · rw [if_neg hz] at h
    injection h with h
    subst h
    decide

/-! ## A call of `jbi_uncompress` that returns -/

/-- The output buffer after the zero fill. -/
theorem zero_fill_getElem (out : List Nat) (out_length k : Nat) (hk : k < out_length) :
    (out.take 0 ++ List.replicate out_length 0 ++ out.drop (0 + out_length))[k]? = some 0 := by
  simp only [List.take_zero, List.nil_append]
  rw [List.getElem?_append_left (by simpa using hk), List.getElem?_replicate]
  simp [hk]

/-- A call of `jbi_uncompress` that returns, taken apart. -/
theorem jbi_uncompress_inv (W : Nat) (inb : List Nat) (in_length : Nat) (out : List Nat)
    (out_length : Nat) (version : Int) (g : State) (r : Result)
    (h : jbi_uncompress W inb in_length out out_length version g = .ok r) :
    W ≤ inb.length ∧ out_length ≤ out.length ∧
    ∃ g1, header_loop W inb W 0 0 (reset_cursor in_length g) = .ok (declared_length W inb, g1) ∧
      g1.jbi_bits_avail ≤ 8 ∧ bit_pos g1 = 8 * W ∧
      (∃ idxs : List Nat, g1.accesses = g.accesses ++ idxs.map Access.rd_in) ∧
      ((out_length < declared_length W inb ∧
          r = ⟨0, W, out.take 0 ++ List.replicate out_length 0 ++ out.drop (0 + out_length), g1⟩) ∨
       (declared_length W inb ≤ out_length ∧
          ∃ d', token_loop W inb (declared_length W inb) (match_window version) inb.length
              ⟨0, out.take 0 ++ List.replicate out_length 0 ++ out.drop (0 + out_length), g1⟩
              = .ok d' ∧ r = ⟨declared_length W inb, d'.i, d'.out, d'.g⟩)) := by
  have hav : (reset_cursor in_length g).jbi_bits_avail ≤ 8 := by simp [reset_cursor, CHAR_BITS]
  have hp0 : bit_pos (reset_cursor in_length g) = 8 * 0 := by simp [reset_cursor, bit_pos, CHAR_BITS]
  unfold jbi_uncompress at h
  simp only at h
  rw [zero_loop_cases out_length 0 out] at h
  by_cases hz : 0 + out_length ≤ out.length ∨ out_length = 0
  · rw [if_pos hz] at h
    simp only at h
    cases hhead : header_loop W inb W 0 0 (reset_cursor in_length g) with
    | error e' => rw [hhead] at h; cases h
    | ok vg =>
      obtain ⟨L, g1⟩ := vg
      rw [hhead] at h
      simp only at h
      obtain ⟨r1, r2, r3, _, r5⟩ := header_loop_frame W inb W 0 0 _ g1 L hav hhead
      have hW : W ≤ inb.length := by
        by_cases hW0 : 0 < W
        · have := r3 hW0
          omega
        · omega
      have hval := header_loop_ok W inb W 0 0 (reset_cursor in_length g) hav hp0 (by omega)
        (by omega) (by simp)
      rw [hhead] at hval
      injection hval with hval
      injection hval with hL _
      have hL' : L = declared_length W inb := by
        rw [hL]; simp [declared_length]
      subst hL'
      refine ⟨hW, by omega, g1, rfl, r1, by omega, r5, ?_⟩
      by_cases hgt : declared_length W inb > out_length
      · rw [if_pos hgt] at h
        injection h with h
        exact Or.inl ⟨hgt, h.symm⟩
      · rw [if_neg hgt] at h
        cases hloop : token_loop W inb (declared_length W inb) (match_window version) inb.length
            ⟨0, out.take 0 ++ List.replicate out_length 0 ++ out.drop (0 + out_length), g1⟩ with
        | error e' => rw [hloop] at h; cases h
        | ok d' =>
          rw [hloop] at h
          injection h with h
          exact Or.inr ⟨by omega, d', rfl, h.symm⟩
  · rw [if_neg hz] at h; cases h

/-! ## The copy loop, on any state -/

theorem copy_loop_mono (W offset L : Nat) : ∀ (n : Nat) (t t' : Dec),
    copy_loop W offset L n t = .ok t' → t.i ≤ t'.i := by
  intro n
  induction n with
  | zero =>
    intro t t' ht
    rw [copy_loop] at ht
    injection ht with ht
    rw [ht]
  | succ n ihn =>
    intro t t' ht
    rw [copy_loop] at ht
    by_cases c1 : t.i < L
    · rw [if_pos c1] at ht
      cases c2 : t.out[usubl W t.i offset]? with
      | none => rw [c2] at ht; cases ht
      | some b2 =>
        rw [c2] at ht
        simp only at ht
        by_cases c3 : t.i < t.out.length
        · rw [if_pos c3] at ht
          have := ihn _ t' ht
          simp only at this
          omega
        · rw [if_neg c3] at ht; cases ht
    · rw [if_neg c1] at ht
      exact ihn t t' ht

/-- The copy loop changes `out` only between the position it starts from and
the position it ends at. -/
theorem copy_loop_outside (W offset L : Nat) : ∀ (len : Nat) (s s' : Dec),
    copy_loop W offset L len s = .ok s' →
    ∀ x, x < s.i ∨ s'.i ≤ x → s'.out[x]? = s.out[x]? := by
  intro len
  induction len with
  | zero =>
    intro s s' h x _
    rw [copy_loop] at h
    injection h with h
    rw [h]
  | succ len ih =>
    intro s s' h x hx
    rw [copy_loop] at h
    by_cases hlt : s.i < L
    · rw [if_pos hlt] at h
      cases hget : s.out[usubl W s.i offset]? with
      | none => rw [hget] at h; cases h
      | some b =>
        rw [hget] at h
        simp only at h
        by_cases hs : s.i < s.out.length
        · rw [if_pos hs] at h
          have hmono := copy_loop_mono W offset L len _ s' h
          simp only at hmono
          have := ih _ s' h x (by simp only; omega)
          rw [this]
          exact getElem?_set_other s.out s.i x _ (by omega)
        · rw [if_neg hs] at h; cases h
    · rw [if_neg hlt] at h
      exact ih s s' h x hx

/-- A match token, taken apart: the two fields read after the flag bit, and
the bits of input the token takes. -/
theorem token_step_match (W : Nat) (inb : List Nat) (L mws : Nat) (hmws : mws ≤ 8192)
    (d d' : Dec) (flag : Nat) (g1 : State) (ha : d.g.jbi_bits_avail ≤ 8)
    (hflag : jbi_read_packed inb 1 d.g = .ok (flag, g1)) (hf : flag ≠ 0)
    (h : token_step W inb L mws d = .ok d') :
    ∃ offset length g2 g3, jbi_read_packed inb (field_width mws d.i) g1 = .ok (offset, g2) ∧
      jbi_read_packed inb CHAR_BITS g2 = .ok (length, g3) ∧
      copy_loop W offset L length { d with g := g3 } = .ok d' ∧
      bit_pos d'.g = bit_pos d.g + 1 + field_width mws d.i + 8 := by
  rw [token_step, hflag] at h
  simp only [if_neg hf] at h
  obtain ⟨r1, r2, _⟩ := read_packed_frame inb 1 d.g g1 flag ha (by decide) (by decide) hflag
  obtain ⟨hw, hw1, hw2⟩ := field_width_spec mws d.i hmws
  rw [offset_cap_eq mws d.i hmws, hw] at h
  simp only at h
  cases hread2 : jbi_read_packed inb (field_width mws d.i) g1 with
  | error e => rw [hread2] at h; cases h
  | ok vg2 =>
    obtain ⟨offset, g2⟩ := vg2
    rw [hread2] at h
    simp only at h
    obtain ⟨p1, p2, _⟩ := read_packed_frame inb _ g1 g2 offset r1 hw1 hw2 hread2
    cases hread3 : jbi_read_packed inb CHAR_BITS g2 with
    | error e => rw [hread3] at h; cases h
    | ok vg3 =>
      obtain ⟨length, g3⟩ := vg3
      rw [hread3] at h
      simp only at h
      obtain ⟨q1, q2, _⟩ :=
        read_packed_frame inb CHAR_BITS g2 g3 length p1 (by decide) (by decide) hread3
      have q2' : bit_pos g3 = bit_pos g2 + 8 := q2
      obtain ⟨_, _, e2⟩ := copy_loop_frame W offset L length _ d' q1 h
      simp only at e2
      exact ⟨offset, length, g2, g3, rfl, hread3, h, by omega⟩

/-! ## The decoder up to the token loop -/

/-- The bytes that a read inside the buffer accesses lie between the byte the
cursor stands on and the byte of the last bit read. -/
theorem cursor_after_accesses (g : State) (n : Nat) :
    ∃ idxs : List Nat, (cursor_after g n).accesses = g.accesses ++ idxs.map Access.rd_in ∧
      ∀ x ∈ idxs, g.jbi_in_index ≤ x ∧ x ≤ (bit_pos g + n - 1) / 8 := by
  refine ⟨_, rfl, ?_⟩
  intro x hx
  rw [List.mem_range'_1] at hx
  omega

/-- The header loop reads bytes of the header only. -/
theorem after_bytes_accesses : ∀ (k i : Nat) (g : State), bit_pos g = 8 * i →
    ∃ idxs : List Nat, (after_bytes g k).accesses = g.accesses ++ idxs.map Access.rd_in ∧
      ∀ x ∈ idxs, x < i + k := by
  intro k
  induction k with
  | zero => intro i g _; exact ⟨[], by simp [after_bytes], by simp⟩
  | succ k ih =>
    intro i g hp
    obtain ⟨l1, h1, h2⟩ := cursor_after_accesses g 8
    obtain ⟨l2, h3, h4⟩ := ih (i + 1) (cursor_after g 8)
      (by rw [bit_pos_cursor_after g 8 (by omega), hp]; omega)
    refine ⟨l1 ++ l2, by rw [after_bytes, h3, h1]; simp, ?_⟩
    intro x hx
    rw [List.mem_append] at hx
    rcases hx with hx | hx
    · have := (h2 x hx).2
      rw [hp] at this
      omega
    · have := h4 x hx
      omega

/-- The value of a call of `jbi_uncompress` whose buffers are large enough
for the zero fill and the header. -/
theorem jbi_uncompress_eq (W : Nat) (inb : List Nat) (in_length : Nat) (out : List Nat)
    (out_length : Nat) (version : Int) (g : State) (hW : W ≤ inb.length)
    (hcap : out_length ≤ out.length) :
    jbi_uncompress W inb in_length out out_length version g =
      if declared_length W inb > out_length then
        .ok ⟨0, W, List.replicate out_length 0 ++ out.drop out_length,
          after_bytes (reset_cursor in_length g) W⟩
      else
        match token_loop W inb (declared_length W inb) (match_window version) inb.length
            ⟨0, List.replicate out_length 0 ++ out.drop out_length,
              after_bytes (reset_cursor in_length g) W⟩ with
        | .error e => .error e
        | .ok d => .ok ⟨declared_length W inb, d.i, d.out, d.g⟩ := by
  have hav : (reset_cursor in_length g).jbi_bits_avail ≤ 8 := by simp [reset_cursor, CHAR_BITS]
  have hp0 : bit_pos (reset_cursor in_length g) = 8 * 0 := by simp [reset_cursor, bit_pos, CHAR_BITS]
  have hhead := header_loop_ok W inb W 0 0 (reset_cursor in_length g) hav hp0 (by omega)
    (by omega) (by simp)
  have hval : 0 + 256 ^ 0 * le_value ((inb.drop 0).take W) = declared_length W inb := by
    simp [declared_length]
  rw [hval] at hhead
  have hzero := zero_loop_ok out_length 0 out (by omega)
  simp only [List.take_zero, List.nil_append, Nat.zero_add] at hzero
  unfold jbi_uncompress
  simp only [hzero, hhead]

theorem zeros_getElem (out : List Nat) (n k : Nat) (hk : k < n) :
    (List.replicate n 0 ++ out.drop n)[k]? = some 0 := by
  rw [List.getElem?_append_left (by simpa using hk), List.getElem?_replicate]
  simp [hk]

theorem bit_pos_header (in_length : Nat) (g : State) (W : Nat) :
    bit_pos (after_bytes (reset_cursor in_length g) W) = 8 * W := by
  rw [bit_pos_after_bytes]
  simp [reset_cursor, bit_pos, CHAR_BITS]

/-! ## Sequences of reads -/

/-- Two reads in a row leave the cursor where one read of both widths does. -/
theorem cursor_after_twice (g : State) (a b : Nat) (ha : 1 ≤ a) :
    (cursor_after (cursor_after g a) b).jbi_in_index = (cursor_after g (a + b)).jbi_in_index ∧
    (cursor_after (cursor_after g a) b).jbi_bits_avail = (cursor_after g (a + b)).jbi_bits_avail ∧
    (cursor_after (cursor_after g a) b).jbi_in_length = (cursor_after g (a + b)).jbi_in_length := by
  have hp := bit_pos_cursor_after g a ha
  refine ⟨?_, ?_, rfl⟩
  · show (bit_pos (cursor_after g a) + b - 1) / 8 = (bit_pos g + (a + b) - 1) / 8
    rw [hp, Nat.add_assoc]
  · show 8 * ((bit_pos (cursor_after g a) + b - 1) / 8 + 1) - (bit_pos (cursor_after g a) + b)
      = 8 * ((bit_pos g + (a + b) - 1) / 8 + 1) - (bit_pos g + (a + b))
    rw [hp, Nat.add_assoc]

theorem log2_mono {m n : Nat} (hm : m ≠ 0) (h : m ≤ n) : m.log2 ≤ n.log2 := by
  have hn : n ≠ 0 := by omega
  rw [Nat.le_log2 hn]
  exact Nat.le_trans (Nat.log2_self_le hm) h

theorem read_seq_avail (buffer : List Nat) : ∀ (ns : List Nat) (g s : State),
    (∀ n ∈ ns, 1 ≤ n ∧ n ≤ 16) → g.jbi_bits_avail ≤ 8 → read_seq buffer ns g = .ok s →
    s.jbi_bits_avail ≤ 8 ∧ (ns ≠ [] → s.jbi_bits_avail ≤ 7) ∧
    bit_pos s = bit_pos g + ns.sum := by
  intro ns
  induction ns with
  | nil =>
    intro g s _ ha h
    rw [read_seq] at h
    injection h with h
    subst h
    exact ⟨ha, fun hne => absurd rfl hne, by simp⟩
  | cons n ns ih =>
    intro g s hn ha h
    rw [read_seq] at h
    have hn1 := hn n (List.mem_cons_self _ _)
    cases hread : jbi_read_packed buffer n g with
    | error e => rw [hread] at h; cases h
    | ok vg =>
      obtain ⟨v, g1⟩ := vg
      rw [hread] at h
      simp only at h
      obtain ⟨_, _, hg⟩ := read_packed_inv buffer n g g1 v ha hn1.1 hn1.2 hread
      have hp1 : bit_pos g1 = bit_pos g + n := by rw [hg]; exact bit_pos_cursor_after g n hn1.1
      have ha1 : g1.jbi_bits_avail ≤ 7 := by
        rw [hg]
        show 8 * ((bit_pos g + n - 1) / 8 + 1) - (bit_pos g + n) ≤ 7
        omega
      obtain ⟨e1, e2, e3⟩ := ih g1 s (fun x hx => hn x (List.mem_cons_of_mem _ hx)) (by omega) h
      refine ⟨e1, fun _ => ?_, by rw [e3, hp1, List.sum_cons]; omega⟩
      by_cases hns : ns = []
      · subst hns
        rw [read_seq] at h
        injection h with h
        subst h
        exact ha1
      · exact e2 hns

/-! ## Two runs side by side -/

theorem same_cursor_log (k1 k2 : Nat) (g1 g2 : State) (l : List Access)
    (h : Same_cursor k1 k2 g1 g2) :
    Same_cursor k1 k2 ⟨g1.jbi_in_length, g1.jbi_in_index, g1.jbi_bits_avail, g1.accesses ++ l⟩
      ⟨g2.jbi_in_length, g2.jbi_in_index, g2.jbi_bits_avail, g2.accesses ++ l⟩ := by
  obtain ⟨h1, h2, h3, h4, h5⟩ := h
  refine ⟨h1, h2, by simp; omega, by simp; omega, ?_⟩
  simp only
  rw [List.drop_append_of_le_length h3, List.drop_append_of_le_length h4, h5]

theorem same_outcome_error {α : Type} (R : α → α → Prop) (e : Fault) :
    Same_outcome R (.error e) (.error e) := by
  simp [Same_outcome]

/-- The loop of `jbi_read_packed` looks at the cursor only: not at
`jbi_in_length`, not at what was logged before. -/
theorem read_packed_loop_rel (buffer : List Nat) (k1 k2 : Nat) :
    ∀ (fuel bits result shift : Nat) (g1 g2 : State), Same_cursor k1 k2 g1 g2 →
    Same_outcome (fun a b => a.1 = b.1 ∧ Same_cursor k1 k2 a.2 b.2)
      (read_packed_loop buffer fuel bits result shift g1)
      (read_packed_loop buffer fuel bits result shift g2) := by
  intro fuel
  induction fuel with
  | zero =>
    intro bits result shift g1 g2 _
    exact same_outcome_error _ _
  | succ fuel ih =>
    intro bits result shift g1 g2 h
    have hlog := same_cursor_log k1 k2 g1 g2 [Access.rd_in g1.jbi_in_index] h
    obtain ⟨h1, h2, h3, h4, h5⟩ := h
    rw [read_packed_loop, read_packed_loop]
    by_cases h0 : bits > 0
    · rw [if_pos h0, if_pos h0, ← h1, ← h2]
      cases hb : buffer[g1.jbi_in_index]? with
      | none => exact same_outcome_error _ _
      | some b =>
        simp only
        by_cases hle : bits ≤ g1.jbi_bits_avail
        · rw [if_pos hle, if_pos hle]
          apply ih
          exact ⟨rfl, rfl, hlog.2.2.1, hlog.2.2.2.1, hlog.2.2.2.2⟩
        · rw [if_neg hle, if_neg hle]
          apply ih
          exact ⟨rfl, rfl, hlog.2.2.1, hlog.2.2.2.1, hlog.2.2.2.2⟩
    · rw [if_neg h0, if_neg h0]
      exact ⟨rfl, h1, h2, h3, h4, h5⟩

theorem read_packed_rel (buffer : List Nat) (k1 k2 n : Nat) (g1 g2 : State)
    (h : Same_cursor k1 k2 g1 g2) :
    Same_outcome (fun a b => a.1 = b.1 ∧ Same_cursor k1 k2 a.2 b.2)
      (jbi_read_packed buffer n g1) (jbi_read_packed buffer n g2) :=
  read_packed_loop_rel buffer k1 k2 (n + 2) n 0 0 g1 g2 h

/-- Two related outcomes, taken apart. -/
theorem same_outcome_cases {α : Type} (R : α → α → Prop) (x y : Except Fault α)
    (h : Same_outcome R x y) :
    (∃ e, x = .error e ∧ y = .error e) ∨ (∃ a b, x = .ok a ∧ y = .ok b ∧ R a b) := by
  cases x with
  | error e =>
    cases y with
    | error f =>
      have hef : e = f := h
      subst hef
      exact Or.inl ⟨e, rfl, rfl⟩
    | ok b => exact absurd h (by simp [Same_outcome])
  | ok a =>
    cases y with
    | error f => exact absurd h (by simp [Same_outcome])
    | ok b => exact Or.inr ⟨a, b, rfl, rfl, h⟩

/-- The loop of `jbi_read_packed` passes `jbi_in_length` through: with
another value in it the loop does the same and returns the same. -/
theorem read_packed_loop_in_length (buffer : List Nat) (x : Nat) :
    ∀ (fuel bits result shift : Nat) (g : State),
    read_packed_loop buffer fuel bits result shift
        ⟨x, g.jbi_in_index, g.jbi_bits_avail, g.accesses⟩ =
      Except.map (fun p => (p.1, ⟨x, p.2.jbi_in_index, p.2.jbi_bits_avail, p.2.accesses⟩))
        (read_packed_loop buffer fuel bits result shift g) := by
  intro fuel
  induction fuel with
  | zero => intro bits result shift g; rfl
  | succ fuel ih =>
    intro bits result shift g
    rw [read_packed_loop, read_packed_loop]
    by_cases h0 : bits > 0
    · rw [if_pos h0, if_pos h0]
      simp only
      cases hb : buffer[g.jbi_in_index]? with
      | none => rfl
      | some b =>
        simp only
        by_cases hle : bits ≤ g.jbi_bits_avail
        · rw [if_pos hle, if_pos hle]
          exact ih _ _ _ ⟨g.jbi_in_length, g.jbi_in_index, usub32 g.jbi_bits_avail bits,
            g.accesses ++ [Access.rd_in g.jbi_in_index]⟩
        · rw [if_neg hle, if_neg hle]
          exact ih _ _ _ ⟨g.jbi_in_length, g.jbi_in_index + 1, CHAR_BITS,
            g.accesses ++ [Access.rd_in g.jbi_in_index]⟩
    · rw [if_neg h0, if_neg h0]
      rfl

theorem header_loop_rel (W : Nat) (inb : List Nat) (k1 k2 : Nat) :
    ∀ (k i dl : Nat) (g1 g2 : State), Same_cursor k1 k2 g1 g2 →
    Same_outcome (fun a b => a.1 = b.1 ∧ Same_cursor k1 k2 a.2 b.2)
      (header_loop W inb k i dl g1) (header_loop W inb k i dl g2) := by
  intro k
  induction k with
  | zero =>
    intro i dl g1 g2 h
    exact ⟨rfl, h⟩
  | succ k ih =>
    intro i dl g1 g2 h
    rw [header_loop, header_loop]
    rcases same_outcome_cases _ _ _ (read_packed_rel inb k1 k2 CHAR_BITS g1 g2 h) with
      ⟨e, e1, e2⟩ | ⟨a, b, e1, e2, hv, hc⟩
    · rw [e1, e2]
      exact same_outcome_error _ _
    · obtain ⟨v1, s1⟩ := a
      obtain ⟨v2, s2⟩ := b
      simp only at hv hc
      subst hv
      rw [e1, e2]
      exact ih _ _ s1 s2 hc

theorem length_iff_of_getElem? {o1 o2 : List Nat} {x : Nat} (h : o1[x]? = o2[x]?) :
    x < o1.length ↔ x < o2.length := by
  constructor
  · intro h1
    by_contra h2
    rw [List.getElem?_eq_getElem h1, List.getElem?_eq_none (by omega)] at h
    cases h
  · intro h2
    by_contra h1
    rw [List.getElem?_eq_getElem h2, List.getElem?_eq_none (by omega)] at h
    cases h

/-- A store at an index that both runs hold alike keeps the outputs alike. -/
theorem same_out_set (n lo : Nat) (o1 o2 : List Nat) (i v : Nat) (h : Same_out n lo o1 o2)
    (h1 : i < o1.length) (h2 : i < o2.length) : Same_out n lo (o1.set i v) (o2.set i v) := by
  intro x hx
  rw [List.getElem?_set, List.getElem?_set, if_pos h1, if_pos h2, h x hx]

theorem literal_loop_rel (inb : List Nat) (L n lo k1 k2 : Nat) (hLn : L ≤ n) :
    ∀ (k : Nat) (d1 d2 : Dec), Same_dec n lo k1 k2 d1 d2 →
    Same_outcome (Same_dec n lo k1 k2) (literal_loop inb L k d1) (literal_loop inb L k d2) := by
  intro k
  induction k with
  | zero => intro d1 d2 h; exact h
  | succ k ih =>
    intro d1 d2 h
    obtain ⟨hi, ho, hc⟩ := h
    rw [literal_loop, literal_loop, ← hi]
    by_cases hlt : d1.i < L
    · rw [if_pos hlt, if_pos hlt]
      rcases same_outcome_cases _ _ _ (read_packed_rel inb k1 k2 CHAR_BITS d1.g d2.g hc) with
        ⟨e, e1, e2⟩ | ⟨a, b, e1, e2, hv, hc'⟩
      · rw [e1, e2]
        exact same_outcome_error _ _
      · obtain ⟨v1, s1⟩ := a
        obtain ⟨v2, s2⟩ := b
        simp only at hv hc'
        subst hv
        rw [e1, e2]
        simp only
        have hlen := length_iff_of_getElem? (ho d1.i (Or.inl (by omega)))
        by_cases h1 : d1.i < d1.out.length
        · rw [if_pos h1, if_pos (hlen.1 h1)]
          apply ih
          exact ⟨rfl, same_out_set n lo _ _ _ _ ho h1 (hlen.1 h1),
            same_cursor_log k1 k2 s1 s2 _ hc'⟩
        · rw [if_neg h1, if_neg (fun h2 => h1 (hlen.2 h2))]
          exact same_outcome_error _ _
    · rw [if_neg hlt, if_neg hlt]
      exact ih d1 d2 ⟨hi, ho, hc⟩

/-- The index that the copy loop reads is below the position, or wraps
around to the top of the `unsigned long` range. -/
theorem usubl_cases (W i offset lo : Nat) (hi : i < 2 ^ (8 * W)) (hoff : offset < 2 ^ 16)
    (hlo : lo + 2 ^ 16 ≤ 2 ^ (8 * W)) :
    usubl W i offset ≤ i ∨ lo ≤ usubl W i offset := by
  unfold usubl
  generalize 2 ^ (8 * W) = M at hi hlo
  rw [Nat.mod_eq_of_lt hi, Nat.mod_eq_of_lt (show offset < M by omega)]
  by_cases h : offset ≤ i
  · left
    rw [show i + M - offset = (i - offset) + M by omega, Nat.add_mod_right,
      Nat.mod_eq_of_lt (by omega)]
    omega
  · right
    rw [Nat.mod_eq_of_lt (by omega)]
    omega

theorem copy_loop_rel (W offset L n lo k1 k2 : Nat) (hLn : L ≤ n) (hLM : L ≤ 2 ^ (8 * W))
    (hoff : offset < 2 ^ 16) (hlo : lo + 2 ^ 16 ≤ 2 ^ (8 * W)) :
    ∀ (len : Nat) (d1 d2 : Dec), Same_dec n lo k1 k2 d1 d2 →
    Same_outcome (Same_dec n lo k1 k2) (copy_loop W offset L len d1)
      (copy_loop W offset L len d2) := by
  intro len
  induction len with
  | zero => intro d1 d2 h; exact h
  | succ len ih =>
    intro d1 d2 h
    obtain ⟨hi, ho, hc⟩ := h
    rw [copy_loop, copy_loop, ← hi]
    by_cases hlt : d1.i < L
    · rw [if_pos hlt, if_pos hlt]
      have hsrc : d1.out[usubl W d1.i offset]? = d2.out[usubl W d1.i offset]? := by
        apply ho
        rcases usubl_cases W d1.i offset lo (by omega) hoff hlo with h1 | h1
        · left; omega
        · right; exact h1
      rw [← hsrc]
      cases hget : d1.out[usubl W d1.i offset]? with
      | none => exact same_outcome_error _ _
      | some b =>
        simp only
        have hlen := length_iff_of_getElem? (ho d1.i (Or.inl (by omega)))
        by_cases h1 : d1.i < d1.out.length
        · rw [if_pos h1, if_pos (hlen.1 h1)]
          apply ih
          exact ⟨rfl, same_out_set n lo _ _ _ _ ho h1 (hlen.1 h1),
            same_cursor_log k1 k2 d1.g d2.g _ hc⟩
        · rw [if_neg h1, if_neg (fun h2 => h1 (hlen.2 h2))]
          exact same_outcome_error _ _
    · rw [if_neg hlt, if_neg hlt]
      exact ih d1 d2 ⟨hi, ho, hc⟩

theorem token_step_rel (W : Nat) (inb : List Nat) (L mws n lo k1 k2 : Nat) (hmws : mws ≤ 8192)
    (hLn : L ≤ n) (hLM : L ≤ 2 ^ (8 * W)) (hlo : lo + 2 ^ 16 ≤ 2 ^ (8 * W))
    (d1 d2 : Dec) (h : Same_dec n lo k1 k2 d1 d2) (ha : d1.g.jbi_bits_avail ≤ 8) :
    Same_outcome (Same_dec n lo k1 k2) (token_step W inb L mws d1) (token_step W inb L mws d2) := by
  obtain ⟨hi, ho, hc⟩ := h
  rw [token_step, token_step]
  rcases same_outcome_cases _ _ _ (read_packed_rel inb k1 k2 1 d1.g d2.g hc) with
    ⟨e, e1, e2⟩ | ⟨a, b, e1, e2, hv, hc1⟩
  · rw [e1, e2]
    exact same_outcome_error _ _
  · obtain ⟨flag, s1⟩ := a
    obtain ⟨flag2, s2⟩ := b
    simp only at hv hc1
    subst hv
    rw [e1, e2]
    simp only
    obtain ⟨r1, _⟩ := read_packed_frame inb 1 d1.g s1 flag ha (by decide) (by decide) e1
    by_cases hf : flag = 0
    · rw [if_pos hf, if_pos hf]
      exact literal_loop_rel inb L n lo k1 k2 hLn _ _ _ ⟨hi, ho, hc1⟩
    · rw [if_neg hf, if_neg hf, ← hi]
      obtain ⟨hw, hw1, hw2⟩ := field_width_spec mws d1.i hmws
      rw [offset_cap_eq mws d1.i hmws, hw]
      simp only
      rcases same_outcome_cases _ _ _
          (read_packed_rel inb k1 k2 (field_width mws d1.i) s1 s2 hc1) with
        ⟨e, e3, e4⟩ | ⟨a, b, e3, e4, hv, hc2⟩
      · rw [e3, e4]
        exact same_outcome_error _ _
      · obtain ⟨offset, t1⟩ := a
        obtain ⟨offset2, t2⟩ := b
        simp only at hv hc2
        subst hv
        rw [e3, e4]
        simp only
        obtain ⟨_, hov, _⟩ := read_packed_inv inb _ s1 t1 offset r1 hw1 hw2 e3
        obtain ⟨p1, _⟩ := read_packed_frame inb _ s1 t1 offset r1 hw1 hw2 e3
        have hoff : offset < 2 ^ 16 := by
          have h1 := bits_val_lt inb (field_width mws d1.i) (bit_pos s1)
          have h2 : (2 : Nat) ^ field_width mws d1.i ≤ 2 ^ 16 :=
            Nat.pow_le_pow_right (by decide) hw2
          omega
        rcases same_outcome_cases _ _ _ (read_packed_rel inb k1 k2 CHAR_BITS t1 t2 hc2) with
          ⟨e, e5, e6⟩ | ⟨a, b, e5, e6, hv, hc3⟩
        · rw [e5, e6]
          exact same_outcome_error _ _
        · obtain ⟨length, u1⟩ := a
          obtain ⟨length2, u2⟩ := b
          simp only at hv hc3
          subst hv
          rw [e5, e6]
          simp only
          exact copy_loop_rel W offset L n lo k1 k2 hLn hLM hoff hlo length _ _ ⟨rfl, ho, hc3⟩

theorem token_loop_rel (W : Nat) (inb : List Nat) (L mws n lo k1 k2 : Nat) (hmws : mws ≤ 8192)
    (hLn : L ≤ n) (hLM : L ≤ 2 ^ (8 * W)) (hlo : lo + 2 ^ 16 ≤ 2 ^ (8 * W)) :
    ∀ (fuel : Nat) (d1 d2 : Dec), Same_dec n lo k1 k2 d1 d2 → d1.g.jbi_bits_avail ≤ 8 →
    Same_outcome (Same_dec n lo k1 k2) (token_loop W inb L mws fuel d1)
      (token_loop W inb L mws fuel d2) := by
  intro fuel
  induction fuel with
  | zero =>
    intro d1 d2 h _
    rw [token_loop, token_loop, ← h.1]
    by_cases hlt : d1.i < L
    · rw [if_pos hlt, if_pos hlt]
      exact same_outcome_error _ _
    · rw [if_neg hlt, if_neg hlt]
      exact h
  | succ fuel ih =>
    intro d1 d2 h ha
    rw [token_loop, token_loop, ← h.1]
    by_cases hlt : d1.i < L
    · rw [if_pos hlt, if_pos hlt]
      rcases same_outcome_cases _ _ _
          (token_step_rel W inb L mws n lo k1 k2 hmws hLn hLM hlo d1 d2 h ha) with
        ⟨e, e1, e2⟩ | ⟨a, b, e1, e2, hab⟩
      · rw [e1, e2]
        exact same_outcome_error _ _
      · rw [e1, e2]
        simp only
        obtain ⟨s, _, _⟩ := token_step_frame W inb L mws hmws d1 a ha hlt e1
        exact ih a b hab s.2.2.2.2.1
    · rw [if_neg hlt, if_neg hlt]
      exact h

theorem take_eq_of_same_out (n lo : Nat) (o1 o2 : List Nat) (h : Same_out n lo o1 o2) :
    o1.take n = o2.take n := by
  apply List.ext_getElem?
  intro x
  rw [List.getElem?_take, List.getElem?_take]
  by_cases hx : x < n
  · rw [if_pos hx, if_pos hx, h x (Or.inl hx)]
  · rw [if_neg hx, if_neg hx]

/-- The zero-filled outputs of two runs hold the same below `out_length`,
and nothing from `lo` on. -/
theorem same_out_zeros (n lo : Nat) (o1 o2 : List Nat) (h1 : n ≤ o1.length) (h2 : n ≤ o2.length)
    (hl1 : o1.length ≤ lo) (hl2 : o2.length ≤ lo) :
    Same_out n lo (List.replicate n 0 ++ o1.drop n) (List.replicate n 0 ++ o2.drop n) := by
  intro x hx
  rcases hx with hx | hx
  · rw [zeros_getElem o1 n x hx, zeros_getElem o2 n x hx]
  · rw [List.getElem?_eq_none (by simp; omega), List.getElem?_eq_none (by simp; omega)]

/-- Two runs of `jbi_uncompress` on the same input, from any globals and any
contents of the output arrays, end alike. -/
theorem jbi_uncompress_rel (W : Nat) (inb : List Nat) (in_length1 in_length2 : Nat)
    (out1 out2 : List Nat) (out_length : Nat) (version : Int) (g1 g2 : State)
    (h1 : out_length ≤ out1.length) (h2 : out_length ≤ out2.length)
    (hs1 : out1.length + 2 ^ 16 ≤ 2 ^ (8 * W)) (hs2 : out2.length + 2 ^ 16 ≤ 2 ^ (8 * W)) :
    Same_outcome (fun r1 r2 => r1.ret = r2.ret ∧ r1.i = r2.i ∧
        Same_dec out_length (2 ^ (8 * W) - 2 ^ 16) g1.accesses.length g2.accesses.length
          ⟨r1.i, r1.out, r1.g⟩ ⟨r2.i, r2.out, r2.g⟩)
      (jbi_uncompress W inb in_length1 out1 out_length version g1)
      (jbi_uncompress W inb in_length2 out2 out_length version g2) := by
  have hc0 : Same_cursor g1.accesses.length g2.accesses.length
      (reset_cursor in_length1 g1) (reset_cursor in_length2 g2) :=
    ⟨rfl, rfl, Nat.le_refl _, Nat.le_refl _, by simp [reset_cursor]⟩
  have hz1 := zero_loop_ok out_length 0 out1 (by omega)
  have hz2 := zero_loop_ok out_length 0 out2 (by omega)
  simp only [List.take_zero, List.nil_append, Nat.zero_add] at hz1 hz2
  have hav : (reset_cursor in_length1 g1).jbi_bits_avail ≤ 8 := by simp [reset_cursor, CHAR_BITS]
  unfold jbi_uncompress
  simp only [hz1, hz2]
  rcases same_outcome_cases _ _ _ (header_loop_rel W inb _ _ W 0 0 _ _ hc0) with
    ⟨e, e1, e2⟩ | ⟨a, b, e1, e2, hv, hc1⟩
  · rw [e1, e2]
    exact same_outcome_error _ _
  · obtain ⟨L, s1⟩ := a
    obtain ⟨L2, s2⟩ := b
    simp only at hv hc1
    subst hv
    rw [e1, e2]
    simp only
    obtain ⟨r1, _, r3, _, _⟩ := header_loop_frame W inb W 0 0 _ s1 L hav e1
    have hW : W ≤ inb.length := by
      by_cases hW0 : 0 < W
      · have := r3 hW0
        have hp : bit_pos s1 = 8 * W := by
          have := (header_loop_frame W inb W 0 0 _ s1 L hav e1).2.1
          simpa [reset_cursor, bit_pos, CHAR_BITS] using this
        omega
      · omega
    have hLval : L = declared_length W inb := by
      have hval := header_loop_ok W inb W 0 0 (reset_cursor in_length1 g1) hav
        (by simp [reset_cursor, bit_pos, CHAR_BITS]) (by omega) (by omega) (by simp)
      rw [e1] at hval
      injection hval with hval
      injection hval with hL _
      rw [hL]; simp [declared_length]
    have hLM : L < 2 ^ (8 * W) := by
      rw [hLval, ← pow256]
      have := le_value_lt (inb.take W)
      rw [List.length_take, Nat.min_eq_left hW] at this
      exact this
    have hso := same_out_zeros out_length (2 ^ (8 * W) - 2 ^ 16) out1 out2 h1 h2
      (by omega) (by omega)
    by_cases hgt : L > out_length
    · rw [if_pos hgt, if_pos hgt]
      exact ⟨rfl, rfl, rfl, hso, hc1⟩
    · rw [if_neg hgt, if_neg hgt]
      rcases same_outcome_cases _ _ _
          (token_loop_rel W inb L (match_window version) out_length (2 ^ (8 * W) - 2 ^ 16)
            g1.accesses.length g2.accesses.length (match_window_le version) (by omega)
            (by omega) (by omega) inb.length
            ⟨0, List.replicate out_length 0 ++ out1.drop out_length, s1⟩
            ⟨0, List.replicate out_length 0 ++ out2.drop out_length, s2⟩
            ⟨rfl, hso, hc1⟩ r1) with
        ⟨e, e3, e4⟩ | ⟨a, b, e3, e4, hab⟩
      · rw [e3, e4]
        exact same_outcome_error _ _
      · rw [e3, e4]
        exact ⟨rfl, hab.1, hab⟩

/-! ## How long the loop of `jbi_bits_required` runs -/

/-- The loop of `jbi_bits_required` does not end while bit 15 is still `k`
shifts away and fewer than `k + 1` tests are allowed. -/
theorem bits_required_loop_short : ∀ (fuel k n r : Nat), k ≤ 15 → n < 2 ^ (16 - k) →
    fuel ≤ k → bits_required_loop fuel n r = .error .no_return := by
  intro fuel
  induction fuel with
  | zero => intro k n r _ _ _; rfl
  | succ fuel ih =>
    intro k n r hk hn hf
    rw [bits_required_loop]
    have hb : n.testBit 15 = false := by
      apply Nat.testBit_lt_two_pow
      calc n < 2 ^ (16 - k) := hn
        _ ≤ 2 ^ 15 := Nat.pow_le_pow_right (by decide) (by omega)
    rw [if_pos ((and_bit15 n).2 hb)]
    apply ih (k - 1) _ _ (by omega) _ (by omega)
    have h2 : (2 : Nat) ^ (16 - (k - 1)) = 2 * 2 ^ (16 - k) := by
      rw [show 16 - (k - 1) = (16 - k) + 1 by omega, Nat.pow_succ, Nat.mul_comm]
    have h3 : (2 : Nat) ^ (16 - k) ≤ 2 ^ 15 := Nat.pow_le_pow_right (by decide) (by omega)
    rw [h2, u32, Nat.shiftLeft_eq, UINT_BITS]
    have : n * 2 ^ 1 % 2 ^ 32 ≤ n * 2 ^ 1 := Nat.mod_le _ _
    omega

/-- The loop of `jbi_bits_required` on `1 ≤ n ≤ 65535` ends after exactly
`15 - log2 n` iterations. -/
theorem bits_required_loop_count (n : Nat) (h1 : 1 ≤ n) (h2 : n ≤ 65535) :
    loop_ends_after n (15 - n.log2) (n.log2 + 1) ∧ n.log2 ≤ 15 := by
  have hn0 : n ≠ 0 := by omega
  have hlo : 2 ^ n.log2 ≤ n := Nat.log2_self_le hn0
  have hhi : n < 2 ^ (n.log2 + 1) := Nat.lt_log2_self
  have hl : n.log2 ≤ 15 := by
    have : n.log2 < 16 := (Nat.log2_lt hn0).2 (by omega)
    omega
  refine ⟨⟨?_, ?_⟩, hl⟩
  · have := bits_required_loop_ok (15 - n.log2) n SHORT_BITS (15 - n.log2 + 1) (by omega)
      (by rw [show 15 - (15 - n.log2) = n.log2 by omega]; exact hlo)
      (by rw [show 16 - (15 - n.log2) = n.log2 + 1 by omega]; exact hhi)
      (by omega) (by simp [SHORT_BITS]; omega) (by decide)
    rw [this, SHORT_BITS]
    congr 1
    omega
  · exact bits_required_loop_short _ (15 - n.log2) n _ (by omega)
      (by rw [show 16 - (15 - n.log2) = n.log2 + 1 by omega]; exact hhi) (Nat.le_refl _)

/-- Shifting left `k` times in 32 bits is one shift by `k` in 32 bits. -/
theorem shift_iterate : ∀ (k n : Nat), (fun m => u32 (m <<< 1))^[k] (u32 n) = u32 (n <<< k) := by
  intro k
  induction k with
  | zero => intro n; rfl
  | succ k ih =>
    intro n
    rw [Function.iterate_succ_apply, ih]
    simp only [u32, UINT_BITS, Nat.shiftLeft_eq]
    rw [Nat.mul_assoc, Nat.mod_mul_mod, Nat.pow_succ]
    congr 1
    ring

/-- A value whose low 16 bits are zero is zero after 16 shifts in 32 bits. -/
theorem shift_out (n : Nat) (h : n % 65536 = 0) : (fun m => u32 (m <<< 1))^[16] n = 0 := by
  rw [show (16 : Nat) = 15 + 1 from rfl, Function.iterate_succ_apply, shift_iterate]
  simp only [u32, UINT_BITS, Nat.shiftLeft_eq]
  omega

/-! ## The widths that the decoder asks for -/

/-- The width of the offset field is at most 14, and at most 13 when the
window is 8191 bytes. -/
theorem field_width_le (mws pos : Nat) (h : mws ≤ 8192) :
    field_width mws pos ≤ 14 ∧ (mws ≤ 8191 → field_width mws pos ≤ 13) := by
  by_cases h0 : min pos mws = 0
  · have e : field_width mws pos = 1 := by
      rw [field_width, h0]; rfl
    rw [e]; exact ⟨by decide, fun _ => by decide⟩
  · have e : field_width mws pos = (min pos mws).log2 + 1 := by
      rw [field_width, bits_required_eq _ (by omega) (by omega)]
    rw [e]
    constructor
    · have : (min pos mws).log2 < 14 := (Nat.log2_lt h0).2 (by omega)
      omega
    · intro h'
      have : (min pos mws).log2 < 13 := (Nat.log2_lt h0).2 (by omega)
      omega

/-- The body of the token loop with the width of the offset field worked out. -/
theorem token_step_eq (W : Nat) (inb : List Nat) (L mws : Nat) (hmws : mws ≤ 8192) (d : Dec) :
    token_step W inb L mws d =
      match jbi_read_packed inb 1 d.g with
      | .error e => .error e
      | .ok (flag, g) =>
        if flag = 0 then
          literal_loop inb L DATA_BLOB_LENGTH { d with g := g }
        else
          match jbi_read_packed inb (field_width mws d.i) g with
          | .error e => .error e
          | .ok (offset, g) =>
            match jbi_read_packed inb CHAR_BITS g with
            | .error e => .error e
            | .ok (length, g) => copy_loop W offset L length { d with g := g } := by
  rw [token_step, offset_cap_eq mws d.i hmws, (field_width_spec mws d.i hmws).1]

/-- The body of the token loop on a match token, given its three reads. -/
theorem token_step_reads (W : Nat) (inb : List Nat) (L mws : Nat) (hmws : mws ≤ 8192) (d : Dec)
    (flag offset len : Nat) (g1 g2 g3 : State)
    (hflag : jbi_read_packed inb 1 d.g = .ok (flag, g1)) (hf : flag ≠ 0)
    (hoff : jbi_read_packed inb (field_width mws d.i) g1 = .ok (offset, g2))
    (hlen : jbi_read_packed inb CHAR_BITS g2 = .ok (len, g3)) :
    token_step W inb L mws d = copy_loop W offset L len ⟨d.i, d.out, g3⟩ := by
  rw [token_step_eq W inb L mws hmws d, hflag]
  simp only
  rw [if_neg hf, hoff]
  simp only
  rw [hlen]

/-- The width of the offset field with the arguments capped. -/
theorem field_width_low (mws pos : Nat) (h : mws ≤ 8192) (hp : pos ≤ 8191) :
    field_width mws pos ≤ 13 := by
  have e : field_width mws pos = field_width (min pos mws) (min pos mws) := by
    rw [field_width, field_width, Nat.min_self]
  rw [e]
  exact (field_width_le (min pos mws) (min pos mws) (by omega)).2 (by omega)

/-! ## One literal token, forward -/

/-- The literal loop, forward: with the bytes inside the input and the
output large enough it returns, having stored the next bytes of the stream. -/
theorem literal_loop_bytes (inb : List Nat) (L : Nat) : ∀ (k : Nat) (d : Dec),
    d.g.jbi_bits_avail ≤ 8 → bit_pos d.g + 8 * min k (L - d.i) ≤ 8 * inb.length →
    L ≤ d.out.length →
    ∃ d', literal_loop inb L k d = .ok d' ∧ d'.i = d.i + min k (L - d.i) ∧
      bit_pos d'.g = bit_pos d.g + 8 * min k (L - d.i) ∧ d'.g.jbi_bits_avail ≤ 8 ∧
      d'.out.length = d.out.length ∧
      (∀ j, j < min k (L - d.i) → d'.out[d.i + j]? = some (bits_val inb (bit_pos d.g + 8 * j) 8)) ∧
      (∀ x, x < d.i ∨ d.i + min k (L - d.i) ≤ x → d'.out[x]? = d.out[x]?) := by
  intro k
  induction k with
  | zero =>
    intro d ha _ _
    exact ⟨d, rfl, by simp, by simp, ha, rfl, fun j hj => by simp at hj, fun _ _ => rfl⟩
  | succ k ih =>
    intro d ha hin hout
    rw [literal_loop]
    by_cases hi : d.i < L
    · rw [if_pos hi]
      have hm : min (k + 1) (L - d.i) = 1 + min k (L - (d.i + 1)) := by omega
      have hr := read_packed_ok inb CHAR_BITS d.g ha (by decide) (by decide)
        (by simp only [CHAR_BITS]; omega)
      rw [hr]
      simp only
      rw [if_pos (by omega)]
      have hv : bits_val inb (bit_pos d.g) CHAR_BITS % 256 = bits_val inb (bit_pos d.g) 8 :=
        Nat.mod_eq_of_lt (bits_val_lt inb 8 _)
      have hbp : bit_pos (cursor_after d.g CHAR_BITS) = bit_pos d.g + 8 :=
        bit_pos_cursor_after d.g CHAR_BITS (by decide)
      obtain ⟨d', e, h1, h2, h3, h4, h5, h6⟩ := ih
        ⟨d.i + 1, d.out.set d.i (bits_val inb (bit_pos d.g) CHAR_BITS % 256),
          ⟨(cursor_after d.g CHAR_BITS).jbi_in_length, (cursor_after d.g CHAR_BITS).jbi_in_index,
            (cursor_after d.g CHAR_BITS).jbi_bits_avail,
            (cursor_after d.g CHAR_BITS).accesses ++
              [Access.wr_out d.i (bits_val inb (bit_pos d.g) CHAR_BITS % 256)]⟩⟩
        (avail_cursor_after d.g CHAR_BITS)
        (by
          show bit_pos (cursor_after d.g CHAR_BITS) + _ ≤ _
          rw [hbp]; simp only; omega)
        (by simp only [List.length_set]; exact hout)
      have hbp' : bit_pos (⟨(cursor_after d.g CHAR_BITS).jbi_in_length,
          (cursor_after d.g CHAR_BITS).jbi_in_index, (cursor_after d.g CHAR_BITS).jbi_bits_avail,
          (cursor_after d.g CHAR_BITS).accesses ++
            [Access.wr_out d.i (bits_val inb (bit_pos d.g) CHAR_BITS % 256)]⟩ : State)
          = bit_pos d.g + 8 := hbp
      simp only at h1 h2 h4 h5 h6
      rw [hbp'] at h2 h5
      refine ⟨d', e, by omega, by omega, h3, ?_, ?_, ?_⟩
      · rw [h4, List.length_set]
      · intro j hj
        cases j with
        | zero =>
          rw [Nat.add_zero, h6 d.i (Or.inl (by omega)), List.getElem?_set_self (by omega), hv]
          simp
        | succ j =>
          have := h5 j (by omega)
          rw [show d.i + (j + 1) = d.i + 1 + j by omega,
            show bit_pos d.g + 8 * (j + 1) = bit_pos d.g + 8 + 8 * j by omega]
          exact this
      · intro x hx
        rw [h6 x (by omega), List.getElem?_set_ne (by omega)]
    · rw [if_neg hi]
      have hm : min (k + 1) (L - d.i) = min k (L - d.i) := by omega
      rw [hm] at hin ⊢
      exact ih d ha hin hout

/-! ## Iterations of the token loop -/

/-- Every stretch of full iterations of the token loop keeps the frame and
takes at least nine bits of input per iteration, all inside the input. -/
theorem token_iterations_frame (W : Nat) (inb : List Nat) (L mws : Nat) (hmws : mws ≤ 8192) :
    ∀ (n : Nat) (d d' : Dec), d.g.jbi_bits_avail ≤ 8 →
    token_iterations W inb L mws n d = some d' →
    Step_inv L d d' ∧ bit_pos d.g + 9 * n ≤ bit_pos d'.g ∧
    (0 < n → bit_pos d'.g ≤ 8 * inb.length) := by
  intro n
  induction n with
  | zero =>
    intro d d' ha h
    rw [token_iterations] at h
    cases h
    exact ⟨step_inv_refl L d ha, by omega, fun h => absurd h (by decide)⟩
  | succ n ih =>
    intro d d' ha h
    rw [token_iterations] at h
    by_cases hi : d.i < L
    · rw [if_pos hi] at h
      cases hs : token_step W inb L mws d with
      | error e => rw [hs] at h; cases h
      | ok d1 =>
        rw [hs] at h
        simp only at h
        obtain ⟨f1, f2, f3⟩ := token_step_frame W inb L mws hmws d d1 ha hi hs
        obtain ⟨k1, k2, k3⟩ := ih d1 d' f1.2.2.2.2.1 h
        refine ⟨step_inv_trans L d d1 d' f1 k1, by omega, fun _ => ?_⟩
        by_cases hn : 0 < n
        · exact k3 hn
        · have : n = 0 := by omega
          subst this
          rw [token_iterations] at h
          cases h
          exact f3
    · rw [if_neg hi] at h; cases h

/-- The token loop after `n` full iterations goes on from the state they reach. -/
theorem token_loop_iterations (W : Nat) (inb : List Nat) (L mws : Nat) :
    ∀ (n fuel : Nat) (d d' : Dec), token_iterations W inb L mws n d = some d' →
    token_loop W inb L mws (fuel + n) d = token_loop W inb L mws fuel d' := by
  intro n
  induction n with
  | zero =>
    intro fuel d d' h
    rw [token_iterations] at h
    cases h
    rfl
  | succ n ih =>
    intro fuel d d' h
    rw [token_iterations] at h
    by_cases hi : d.i < L
    · rw [if_pos hi] at h
      cases hs : token_step W inb L mws d with
      | error e => rw [hs] at h; cases h
      | ok d1 =>
        rw [hs] at h
        simp only at h
        rw [← Nat.add_assoc, token_loop, if_pos hi, hs]
        exact ih fuel d1 d' h
    · rw [if_neg hi] at h; cases h

/-! ## The window under the two versions -/

/-- What the header loop of `jbi_uncompress` returns is the declared length,
read from inside the input. -/
theorem header_loop_value (W : Nat) (inb : List Nat) (in_length : Nat) (g g1 : State) (L : Nat)
    (h : header_loop W inb W 0 0 (reset_cursor in_length g) = .ok (L, g1)) :
    L = declared_length W inb ∧ W ≤ inb.length ∧ g1.jbi_bits_avail ≤ 8 ∧ bit_pos g1 = 8 * W := by
  have hav : (reset_cursor in_length g).jbi_bits_avail ≤ 8 := by simp [reset_cursor, CHAR_BITS]
  have hp0 : bit_pos (reset_cursor in_length g) = 8 * 0 := by simp [reset_cursor, bit_pos, CHAR_BITS]
  obtain ⟨r1, r2, r3, _, _⟩ := header_loop_frame W inb W 0 0 _ g1 L hav h
  have hW : W ≤ inb.length := by
    by_cases hW0 : 0 < W
    · have := r3 hW0
      omega
    · omega
  have hval := header_loop_ok W inb W 0 0 (reset_cursor in_length g) hav hp0 (by omega)
    (by omega) (by simp)
  rw [h] at hval
  injection hval with hval
  injection hval with hL _
  refine ⟨?_, hW, r1, by omega⟩
  rw [hL]; simp [declared_length]

/-- Below position 8192 a token is read the same with a window of 8192 and
of 8191 bytes. -/
theorem token_step_window (W : Nat) (inb : List Nat) (L : Nat) (d : Dec) (h : d.i ≤ 8191) :
    token_step W inb L 8192 d = token_step W inb L 8191 d := by
  rw [token_step, token_step, offset_cap_eq 8192 d.i (by decide),
    offset_cap_eq 8191 d.i (by decide), Nat.min_eq_left (by omega), Nat.min_eq_left h]

/-- With at most 8192 bytes declared the token loop runs the same with a
window of 8192 and of 8191 bytes. -/
theorem token_loop_window (W : Nat) (inb : List Nat) (L : Nat) (hL : L ≤ 8192) :
    ∀ (fuel : Nat) (d : Dec),
    token_loop W inb L 8192 fuel d = token_loop W inb L 8191 fuel d := by
  intro fuel
  induction fuel with
  | zero => intro d; rfl
  | succ fuel ih =>
    intro d
    rw [token_loop, token_loop]
    by_cases hi : d.i < L
    · rw [if_pos hi, if_pos hi, token_step_window W inb L d (by omega)]
      cases token_step W inb L 8191 d with
      | error e => rfl
      | ok d1 => exact ih d1
    · rw [if_neg hi, if_neg hi]

/-- Two versions under which the token loop runs the same on the declared
length give the same call of `jbi_uncompress`. -/
theorem jbi_uncompress_window (W : Nat) (inb : List Nat) (in_length : Nat) (out : List Nat)
    (out_length : Nat) (v1 v2 : Int) (g : State)
    (h : ∀ (fuel : Nat) (d : Dec),
      token_loop W inb (declared_length W inb) (match_window v1) fuel d =
      token_loop W inb (declared_length W inb) (match_window v2) fuel d) :
    jbi_uncompress W inb in_length out out_length v1 g =
      jbi_uncompress W inb in_length out out_length v2 g := by
  unfold jbi_uncompress
  simp only
  cases zero_loop out_length 0 out with
  | error e => rfl
  | ok o =>
    simp only
    cases hh : header_loop W inb W 0 0 (reset_cursor in_length g) with
    | error e => rfl
    | ok vg =>
      obtain ⟨L, g1⟩ := vg
      simp only
      obtain ⟨hL, _⟩ := header_loop_value W inb in_length g g1 L hh
      subst hL
      rw [h]

/-! ## `jbi_in_length` is passed through -/

/-- A read passes `jbi_in_length` through. -/
theorem read_packed_in_length (buffer : List Nat) (x n : Nat) (g : State) :
    jbi_read_packed buffer n (set_in_length x g) =
      Except.map (fun p => (p.1, set_in_length x p.2)) (jbi_read_packed buffer n g) :=
  read_packed_loop_in_length buffer x (n + 2) n 0 0 g

/-- The header loop passes `jbi_in_length` through. -/
theorem header_loop_in_length (W : Nat) (inb : List Nat) (x : Nat) :
    ∀ (k i dl : Nat) (g : State),
    header_loop W inb k i dl (set_in_length x g) =
      Except.map (fun p => (p.1, set_in_length x p.2)) (header_loop W inb k i dl g) := by
  intro k
  induction k with
  | zero => intro i dl g; rfl
  | succ k ih =>
    intro i dl g
    rw [header_loop, header_loop, read_packed_in_length]
    cases jbi_read_packed inb CHAR_BITS g with
    | error e => rfl
    | ok p => exact ih _ _ p.2

/-- The literal loop passes `jbi_in_length` through. -/
theorem literal_loop_in_length (inb : List Nat) (L x : Nat) :
    ∀ (k : Nat) (d : Dec),
    literal_loop inb L k ⟨d.i, d.out, set_in_length x d.g⟩ =
      Except.map (fun r => ⟨r.i, r.out, set_in_length x r.g⟩) (literal_loop inb L k d) := by
  intro k
  induction k with
  | zero => intro d; rfl
  | succ k ih =>
    intro d
    rw [literal_loop, literal_loop]
    by_cases hi : d.i < L
    · rw [if_pos hi, if_pos hi]
      simp only
      rw [read_packed_in_length]
      cases jbi_read_packed inb CHAR_BITS d.g with
      | error e => rfl
      | ok p =>
        by_cases ho : d.i < d.out.length
        · simp only [Except.map]
          rw [if_pos ho, if_pos ho]
          exact ih ⟨d.i + 1, d.out.set d.i (p.1 % 256),
            ⟨p.2.jbi_in_length, p.2.jbi_in_index, p.2.jbi_bits_avail,
              p.2.accesses ++ [Access.wr_out d.i (p.1 % 256)]⟩⟩
        · simp only [Except.map]
          rw [if_neg ho, if_neg ho]
    · rw [if_neg hi, if_neg hi]
      exact ih d

/-- The copy loop passes `jbi_in_length` through. -/
theorem copy_loop_in_length (W offset L x : Nat) :
    ∀ (k : Nat) (d : Dec),
    copy_loop W offset L k ⟨d.i, d.out, set_in_length x d.g⟩ =
      Except.map (fun r => ⟨r.i, r.out, set_in_length x r.g⟩) (copy_loop W offset L k d) := by
  intro k
  induction k with
  | zero => intro d; rfl
  | succ k ih =>
    intro d
    rw [copy_loop, copy_loop]
    by_cases hi : d.i < L
    · rw [if_pos hi, if_pos hi]
      simp only
      cases d.out[usubl W d.i offset]? with
      | none => rfl
      | some b =>
        by_cases ho : d.i < d.out.length
        · simp only
          rw [if_pos ho, if_pos ho]
          exact ih ⟨d.i + 1, d.out.set d.i (b % 256),
            ⟨d.g.jbi_in_length, d.g.jbi_in_index, d.g.jbi_bits_avail,
              d.g.accesses ++ [Access.rd_out (usubl W d.i offset), Access.wr_out d.i (b % 256)]⟩⟩
        · simp only
          rw [if_neg ho, if_neg ho]
          rfl
    · rw [if_neg hi, if_neg hi]
      exact ih d

/-- The body of the token loop passes `jbi_in_length` through. -/
theorem token_step_in_length (W : Nat) (inb : List Nat) (L mws x : Nat) (d : Dec) :
    token_step W inb L mws ⟨d.i, d.out, set_in_length x d.g⟩ =
      Except.map (fun r => ⟨r.i, r.out, set_in_length x r.g⟩) (token_step W inb L mws d) := by
  rw [token_step, token_step]
  simp only
  rw [read_packed_in_length]
  cases jbi_read_packed inb 1 d.g with
  | error e => rfl
  | ok p =>
    simp only [Except.map]
    by_cases hf : p.1 = 0
    · rw [if_pos hf, if_pos hf]
      exact literal_loop_in_length inb L x DATA_BLOB_LENGTH ⟨d.i, d.out, p.2⟩
    · rw [if_neg hf, if_neg hf]
      cases jbi_bits_required (offset_cap mws d.i) with
      | error e => rfl
      | ok width =>
        simp only
        rw [read_packed_in_length]
        cases jbi_read_packed inb width p.2 with
        | error e => rfl
        | ok q =>
          simp only [Except.map]
          rw [read_packed_in_length]
          cases jbi_read_packed inb CHAR_BITS q.2 with
          | error e => rfl
          | ok s =>
            simp only [Except.map]
            exact copy_loop_in_length W q.1 L x s.1 ⟨d.i, d.out, s.2⟩

/-- The token loop passes `jbi_in_length` through. -/
theorem token_loop_in_length (W : Nat) (inb : List Nat) (L mws x : Nat) :
    ∀ (fuel : Nat) (d : Dec),
    token_loop W inb L mws fuel ⟨d.i, d.out, set_in_length x d.g⟩ =
      Except.map (fun r => ⟨r.i, r.out, set_in_length x r.g⟩) (token_loop W inb L mws fuel d) := by
  intro fuel
  induction fuel with
  | zero =>
    intro d
    rw [token_loop, token_loop]
    by_cases hi : d.i < L
    · rw [if_pos hi, if_pos hi]; rfl
    · rw [if_neg hi, if_neg hi]; rfl
  | succ fuel ih =>
    intro d
    rw [token_loop, token_loop]
    by_cases hi : d.i < L
    · rw [if_pos hi, if_pos hi, token_step_in_length]
      cases token_step W inb L mws d with
      | error e => rfl
      | ok d1 => exact ih d1
    · rw [if_neg hi, if_neg hi]; rfl

/-- The argument `in_length` of `jbi_uncompress` goes into `jbi_in_length`
and nowhere else. -/
theorem jbi_uncompress_in_length (W : Nat) (inb : List Nat) (x y : Nat) (out : List Nat)
    (out_length : Nat) (version : Int) (g : State) :
    jbi_uncompress W inb x out out_length version g =
      Except.map (fun r => ⟨r.ret, r.i, r.out, set_in_length x r.g⟩)
        (jbi_uncompress W inb y out out_length version g) := by
  unfold jbi_uncompress
  simp only
  cases zero_loop out_length 0 out with
  | error e => rfl
  | ok o =>
    simp only
    have e : reset_cursor x g = set_in_length x (reset_cursor y g) := rfl
    rw [e, header_loop_in_length]
    cases header_loop W inb W 0 0 (reset_cursor y g) with
    | error e => rfl
    | ok p =>
      simp only [Except.map]
      by_cases hgt : p.1 > out_length
      · rw [if_pos hgt, if_pos hgt]
      · rw [if_neg hgt, if_neg hgt]
        have := token_loop_in_length W inb p.1 (match_window version) x inb.length ⟨0, o, p.2⟩
        simp only at this
        rw [this]
        cases token_loop W inb p.1 (match_window version) inb.length ⟨0, o, p.2⟩ with
        | error e => rfl
        | ok d => rfl

/-! ## A match token with offset 0 -/

/-- Storing in a list the value that is already there leaves the list as it is. -/
theorem set_same {α : Type} (l : List α) (i : Nat) (v : α) (h : l[i]? = some v) :
    l.set i v = l := by
  apply List.ext_getElem?
  intro j
  by_cases hj : i = j
  · subst hj
    have hlt : i < l.length := by
      by_contra hc
      rw [List.getElem?_eq_none (by omega)] at h
      cases h
    rw [List.getElem?_set_self hlt, h]
  · rw [List.getElem?_set_ne hj]

/-- The copy loop with offset 0, where the output is zero from the position
on: every byte is copied onto itself, the output stays as it is, and the
position advances to the end of the copy. -/
theorem copy_loop_zero (W L : Nat) (hLW : L ≤ 2 ^ (8 * W)) : ∀ (len : Nat) (d : Dec),
    L ≤ d.out.length → (∀ k, d.i ≤ k → k < L → d.out[k]? = some 0) →
    ∃ d', copy_loop W 0 L len d = .ok d' ∧ d'.i = d.i + min len (L - d.i) ∧
      d'.out = d.out ∧ d'.g.jbi_in_index = d.g.jbi_in_index ∧
      d'.g.jbi_bits_avail = d.g.jbi_bits_avail ∧
      ∃ l, d'.g.accesses = d.g.accesses ++ l ∧
        ∀ a ∈ l, ∃ x, d.i ≤ x ∧ x < d.i + min len (L - d.i) ∧
          (a = Access.rd_out x ∨ a = Access.wr_out x 0) := by
  intro len
  induction len with
  | zero =>
    intro d _ _
    exact ⟨d, rfl, by simp, rfl, rfl, rfl, [], by simp, fun a ha => by simp at ha⟩
  | succ len ih =>
    intro d hL hz
    rw [copy_loop]
    by_cases hi : d.i < L
    · rw [if_pos hi]
      have hM : 0 < 2 ^ (8 * W) := Nat.pow_pos (by decide)
      have hu : usubl W d.i 0 = d.i := by
        rw [usubl, Nat.zero_mod, Nat.sub_zero, Nat.add_mod_right, Nat.mod_mod,
          Nat.mod_eq_of_lt (by omega)]
      rw [hu, hz d.i (Nat.le_refl _) hi]
      simp only
      rw [if_pos (by omega), set_same d.out d.i (0 % 256) (hz d.i (Nat.le_refl _) hi)]
      obtain ⟨d', e, h1, h2, h3, h4, l, h5, h6⟩ := ih
        ⟨d.i + 1, d.out, ⟨d.g.jbi_in_length, d.g.jbi_in_index, d.g.jbi_bits_avail,
          d.g.accesses ++ [Access.rd_out d.i, Access.wr_out d.i (0 % 256)]⟩⟩ hL
        (fun k hk hkL => hz k (by simp only at hk; omega) hkL)
      simp only at h1 h2 h3 h4 h5 h6
      refine ⟨d', e, by omega, h2, h3, h4,
        [Access.rd_out d.i, Access.wr_out d.i (0 % 256)] ++ l, ?_, ?_⟩
      · rw [h5, List.append_assoc]
      · intro a ha
        rw [List.mem_append] at ha
        rcases ha with ha | ha
        · refine ⟨d.i, Nat.le_refl _, by omega, ?_⟩
          simp only [List.mem_cons, List.mem_singleton, List.not_mem_nil, or_false] at ha
          rcases ha with ha | ha
          · exact Or.inl ha
          · exact Or.inr ha
        · obtain ⟨x, x1, x2, x3⟩ := h6 a ha
          exact ⟨x, by omega, by omega, x3⟩
    · rw [if_neg hi]
      obtain ⟨d', e, h1, h2, h3, h4, l, h5, h6⟩ := ih d hL hz
      refine ⟨d', e, by omega, h2, h3, h4, l, h5, ?_⟩
      intro a ha
      obtain ⟨x, x1, x2, x3⟩ := h6 a ha
      exact ⟨x, x1, by omega, x3⟩

/-- Full iterations of the token loop, one more. -/
theorem token_iterations_succ (W : Nat) (inb : List Nat) (L mws : Nat) :
    ∀ (n : Nat) (d0 d d' : Dec), token_iterations W inb L mws n d0 = some d → d.i < L →
    token_step W inb L mws d = .ok d' → token_iterations W inb L mws (n + 1) d0 = some d' := by
  intro n
  induction n with
  | zero =>
    intro d0 d d' h hi hs
    rw [token_iterations] at h
    cases h
    rw [token_iterations, if_pos hi, hs]
    rfl
  | succ n ih =>
    intro d0 d d' h hi hs
    rw [token_iterations] at h
    by_cases h0 : d0.i < L
    · rw [if_pos h0] at h
      cases hs0 : token_step W inb L mws d0 with
      | error e => rw [hs0] at h; cases h
      | ok d1 =>
        rw [hs0] at h
        simp only at h
        rw [token_iterations, if_pos h0, hs0]
        exact ih d1 d d' h hi hs
    · rw [if_neg h0] at h; cases h

/-- At every iteration of the token loop the output is still zero from the
position on, where it was so at the start. -/
theorem token_iterations_zeros (W : Nat) (inb : List Nat) (L mws : Nat) (hmws : mws ≤ 8192)
    (n N : Nat) (d d' : Dec) (ha : d.g.jbi_bits_avail ≤ 8)
    (h : token_iterations W inb L mws n d = some d')
    (hz : ∀ k, d.i ≤ k → k < N → d.out[k]? = some 0) :
    ∀ k, d'.i ≤ k → k < N → d'.out[k]? = some 0 := by
  obtain ⟨f, _, _⟩ := token_iterations_frame W inb L mws hmws n d d' ha h
  intro k hk hkN
  rw [f.2.2.2.1 k (Or.inr hk)]
  exact hz k (by have := f.1; omega) hkN

/-! ## Full iterations on a well-formed stream -/

/-- The bit fields of two token lists in a row. -/
theorem fields_append (mws L : Nat) : ∀ (ts rest : List Token) (acc : List Nat),
    fields mws L (ts ++ rest) acc = fields mws L ts acc ++ fields mws L rest (expand L ts acc) := by
  intro ts
  induction ts with
  | nil => intro rest acc; rfl
  | cons t ts ih =>
    intro rest acc
    rw [List.cons_append, fields, fields, expand, ih, List.append_assoc]

/-- The payload of two token lists in a row. -/
theorem expand_append (L : Nat) : ∀ (ts rest : List Token) (acc : List Nat),
    expand L (ts ++ rest) acc = expand L rest (expand L ts acc) := by
  intro ts
  induction ts with
  | nil => intro rest acc; rfl
  | cons t ts ih =>
    intro rest acc
    rw [List.cons_append, expand, expand, ih]

/-- Two well-formed token lists in a row are well-formed. -/
theorem well_formed_append (mws L : Nat) : ∀ (ts rest : List Token) (acc : List Nat),
    well_formed mws L ts acc → well_formed mws L rest (expand L ts acc) →
    well_formed mws L (ts ++ rest) acc := by
  intro ts
  induction ts with
  | nil => intro rest acc _ h; exact h
  | cons t ts ih =>
    intro rest acc h1 h2
    rw [List.cons_append, well_formed]
    rw [well_formed] at h1
    rw [expand] at h2
    exact ⟨h1.1, ih rest _ h1.2 h2⟩

/-- One well-formed token on a stream that spells it: the token is read in full, the payload grows by the expansion of the
token, and the stream goes on with the fields that follow. -/
theorem token_step_spec (W mws L : Nat) (inb : List Nat) (hmws : mws ≤ 8192)
    (hLW : L < 2 ^ (8 * W)) (d : Dec) (acc : List Nat) (t : Token) (fs : List (Nat × Nat))
    (htk : d.out.take d.i = acc) (hlen : acc.length = d.i) (hb : ∀ b ∈ acc, b < 256)
    (hok : token_ok mws L acc t) (hL : L ≤ d.out.length)
    (ha : d.g.jbi_bits_avail ≤ 8)
    (hh : Holds inb (bit_pos d.g) (field_value (token_fields mws acc.length t ++ fs))
      (field_bits (token_fields mws acc.length t ++ fs))) :
    ∃ d', token_step W inb L mws d = .ok d' ∧ d'.i = (token_expand L acc t).length ∧
      d'.out.take d'.i = token_expand L acc t ∧ d'.out.length = d.out.length ∧
      d'.g.jbi_bits_avail ≤ 8 ∧ Holds inb (bit_pos d'.g) (field_value fs) (field_bits fs) := by
  cases t with
  | literal bytes =>
    rw [token_fields, List.cons_append] at hh
    obtain ⟨hr, hh1⟩ := holds_read inb d.g 1 0 _ hh ha (by omega) (by omega)
    have hr : jbi_read_packed inb 1 d.g = .ok (0, cursor_after d.g 1) := hr
    rw [token_step, hr]
    simp only [if_true]
    obtain ⟨d1, e1, e2, e3, e4, e5, e6⟩ := literal_loop_spec inb L DATA_BLOB_LENGTH
      { d with g := cursor_after d.g 1 } bytes _
      (by rw [hok.1, hlen]; rfl) hok.2 hL (avail_cursor_after d.g 1) hh1
    simp only at e2 e3 e4
    refine ⟨d1, e1, ?_, ?_, e4, e5, e6⟩
    · rw [token_expand, List.length_append, hlen, e2]
    · rw [e3, htk]; rfl
  | matching offset length =>
    obtain ⟨ho1, ho2, ho3, ho4⟩ := hok
    obtain ⟨hw, hw1, hw2⟩ := field_width_spec mws acc.length hmws
    rw [token_fields] at hh
    simp only [List.cons_append, List.nil_append] at hh
    obtain ⟨hr1, hh1⟩ := holds_read inb d.g 1 1 _ hh ha (by omega) (by omega)
    have hr1 : jbi_read_packed inb 1 d.g = .ok (1, cursor_after d.g 1) := hr1
    obtain ⟨hr2, hh2⟩ := holds_read inb (cursor_after d.g 1) _ offset _ hh1
      (avail_cursor_after d.g 1) hw1 hw2
    obtain ⟨hr3, hh3⟩ := holds_read inb (cursor_after (cursor_after d.g 1) (field_width mws acc.length))
      8 length _ hh2 (avail_cursor_after _ _) (by omega) (by omega)
    rw [token_step, hr1]
    simp only [one_ne_zero, if_false]
    rw [offset_cap_eq mws d.i hmws, show min d.i mws = min acc.length mws by rw [hlen], hw]
    simp only
    rw [hr2]
    simp only
    rw [show CHAR_BITS = 8 from rfl, hr3]
    simp only
    rw [Nat.mod_eq_of_lt ho3, Nat.mod_eq_of_lt (show length < 2 ^ 8 by omega)]
    obtain ⟨d1, e1, e2, e3, e4, e5, e6⟩ := copy_loop_spec W L offset acc ho1 ho2 hLW hb length
      { d with g := cursor_after (cursor_after (cursor_after d.g 1) (field_width mws acc.length)) 8 }
      0 (by simp [hlen]) (by simpa using htk) hL
    simp only [Nat.zero_add] at e2 e3 e4 e5 e6
    refine ⟨d1, e1, ?_, ?_, e4, ?_, ?_⟩
    · rw [token_expand, List.length_append, match_bytes, List.length_map, List.length_range,
        hlen, e2]
    · rw [e3, token_expand, match_bytes, hlen]
    · rw [e6]; exact avail_cursor_after _ _
    · rw [e5]; exact hh3

/-- A well-formed token list on a stream that spells it, ending below the
declared length: the token loop makes one full iteration per token, the
payload grows to the expansion of the list, and the stream goes on with the
fields that follow. -/
theorem token_iterations_spec (W mws L : Nat) (inb : List Nat) (hmws : mws ≤ 8192)
    (hLW : L < 2 ^ (8 * W)) :
    ∀ (ts : List Token) (d : Dec) (acc : List Nat) (fs : List (Nat × Nat)),
    d.out.take d.i = acc → acc.length = d.i → (∀ b ∈ acc, b < 256) →
    well_formed mws L ts acc → (expand L ts acc).length < L → L ≤ d.out.length →
    d.g.jbi_bits_avail ≤ 8 →
    Holds inb (bit_pos d.g) (field_value (fields mws L ts acc ++ fs))
      (field_bits (fields mws L ts acc ++ fs)) →
    ∃ d', token_iterations W inb L mws ts.length d = some d' ∧
      d'.i = (expand L ts acc).length ∧ d'.out.take d'.i = expand L ts acc ∧
      d'.out.length = d.out.length ∧ d'.g.jbi_bits_avail ≤ 8 ∧
      Holds inb (bit_pos d'.g) (field_value fs) (field_bits fs) := by
  intro ts
  induction ts with
  | nil =>
    intro d acc fs htk hlen _ _ _ _ ha hh
    exact ⟨d, rfl, by rw [expand, hlen], by rw [expand]; exact htk, rfl, ha, hh⟩
  | cons t ts ih =>
    intro d acc fs htk hlen hb hwf hex hL ha hh
    have hpre := (expand_extends L (t :: ts) acc).length_le
    have hi : d.i < L := by omega
    obtain ⟨hok, hwf'⟩ := hwf
    rw [expand] at hex
    rw [fields, List.append_assoc] at hh
    obtain ⟨d1, s1, s2, s3, s4, s5, s6⟩ := token_step_spec W mws L inb hmws hLW d acc t _
      htk hlen hb hok hL ha hh
    obtain ⟨d', g1, g2, g3, g4, g5, g6⟩ := ih d1 (token_expand L acc t) fs s3 s2.symm
      (token_expand_bytes mws L acc t hb hok) hwf' hex (by omega) s5 s6
    refine ⟨d', ?_, by rw [expand]; exact g2, by rw [expand]; exact g3, by omega, g5, g6⟩
    rw [List.length_cons, token_iterations, if_pos hi, s1]
    exact g1

/-- A run of match tokens of offset 1 and length 255 after a non-empty
payload is well-formed, and each of them adds 255 bytes. -/
theorem repeat_match (mws L : Nat) (hmws : mws ≤ 8192) : ∀ (n : Nat) (acc : List Nat),
    1 ≤ acc.length → acc.length + 255 * n ≤ L →
    well_formed mws L (List.replicate n (.matching 1 255)) acc ∧
    (expand L (List.replicate n (.matching 1 255)) acc).length = acc.length + 255 * n := by
  intro n
  induction n with
  | zero => intro acc _ _; exact ⟨trivial, rfl⟩
  | succ n ih =>
    intro acc h1 h2
    have hl : (token_expand L acc (.matching 1 255)).length = acc.length + 255 := by
      rw [token_expand, List.length_append, match_bytes, List.length_map, List.length_range]
      omega
    obtain ⟨i1, i2⟩ := ih (token_expand L acc (.matching 1 255)) (by omega) (by omega)
    rw [List.replicate_succ, well_formed, expand]
    refine ⟨⟨⟨Nat.le_refl 1, h1, ?_, Nat.le_refl 255⟩, i1⟩, by omega⟩
    have hw := (field_width_spec mws acc.length hmws).2.1
    calc 1 < 2 ^ 1 := by decide
      _ ≤ 2 ^ field_width mws acc.length := Nat.pow_le_pow_right (by decide) hw

/-- The copy loop for a match token of length 1 below the declared length. -/
theorem copy_loop_one (W offset L : Nat) (d : Dec) (b : Nat) (hi : d.i < L)
    (hsrc : d.out[usubl W d.i offset]? = some b) (hdst : d.i < d.out.length) :
    copy_loop W offset L 1 d = .ok ⟨d.i + 1, d.out.set d.i (b % 256),
      ⟨d.g.jbi_in_length, d.g.jbi_in_index, d.g.jbi_bits_avail,
        d.g.accesses ++ [Access.rd_out (usubl W d.i offset), Access.wr_out d.i (b % 256)]⟩⟩ := by
  rw [copy_loop, if_pos hi, hsrc]
  simp only
  rw [if_pos hdst, copy_loop]

/-! ## The stream `far_stream` -/

/-- The head of `far_tokens` is well-formed and expands to 8418 bytes. -/
theorem far_head_spec :
    well_formed 8192 8419 far_head [] ∧ (expand 8419 far_head []).length = 8418 := by
  have h := repeat_match 8192 8419 (by decide) 33 [0x41, 0x41, 0x41] (by decide) (by decide)
  rw [far_head, well_formed, expand]
  exact ⟨⟨by decide, h.1⟩, h.2⟩

/-- The token list `far_tokens` is well-formed and expands to 8419 bytes. -/
theorem far_tokens_spec :
    well_formed 8192 8419 far_tokens [] ∧ (expand 8419 far_tokens []).length = 8419 := by
  obtain ⟨h1, h2⟩ := far_head_spec
  constructor
  · apply well_formed_append 8192 8419 far_head _ [] h1
    refine ⟨⟨by decide, by omega, ?_, by decide⟩, trivial⟩
    rw [h2]
    decide
  · rw [far_tokens, expand_append, expand, expand, token_expand, List.length_append, match_bytes,
      List.length_map, List.length_range, h2]
    omega

/-- The stream `far_stream` spells its tokens from bit 32 on, and its header
declares 8419 bytes. -/
theorem far_stream_spec :
    4 ≤ far_stream.length ∧ declared_length 4 far_stream = 8419 ∧
    Holds far_stream (8 * 4) (field_value (fields 8192 8419 far_tokens []))
      (field_bits (fields 8192 8419 far_tokens [])) := by
  have hinlen : far_stream.length = 4 + (field_bits (fields 8192 8419 far_tokens []) + 7) / 8 := by
    simp [far_stream, serialise, pack_fields, length_bytes_of]
  refine ⟨by omega, ?_, ?_⟩
  · rw [declared_length, far_stream, serialise, List.take_left' (length_bytes_of 8419 4)]
    exact le_value_header 8419 4 (by decide)
  · have := holds_bytes_of (bytes_of 8419 4) (field_value (fields 8192 8419 far_tokens []))
      ((field_bits (fields 8192 8419 far_tokens []) + 7) / 8)
      (field_bits (fields 8192 8419 far_tokens [])) (by omega)
    rw [length_bytes_of] at this
    rw [far_stream, serialise, pack_fields]
    exact this

/-- The token loop on `far_stream`: after 34 full iterations it stands at
position 8418, where the stream spells a match token of offset 8193 and
length 1. -/
theorem far_stream_reach (in_length : Nat) (g : State) :
    ∃ d, token_iterations 4 far_stream 8419 8192 34
        ⟨0, List.replicate 8419 0 ++ (List.replicate 8419 0).drop 8419,
          after_bytes (reset_cursor in_length g) 4⟩ = some d ∧
      d.i = 8418 ∧ d.out.length = 8419 ∧ d.g.jbi_bits_avail ≤ 8 ∧
      jbi_read_packed far_stream 1 d.g = .ok (1, cursor_after d.g 1) ∧
      jbi_read_packed far_stream (field_width 8192 d.i) (cursor_after d.g 1)
        = .ok (8193, cursor_after (cursor_after d.g 1) (field_width 8192 d.i)) ∧
      jbi_read_packed far_stream CHAR_BITS
          (cursor_after (cursor_after d.g 1) (field_width 8192 d.i))
        = .ok (1, cursor_after (cursor_after (cursor_after d.g 1) (field_width 8192 d.i)) 8) := by
  obtain ⟨w1, w2⟩ := far_head_spec
  obtain ⟨_, _, hh⟩ := far_stream_spec
  have hav : (reset_cursor in_length g).jbi_bits_avail ≤ 8 := by simp [reset_cursor, CHAR_BITS]
  have hf : fields 8192 8419 far_tokens [] = fields 8192 8419 far_head [] ++
      [(1, 1), (field_width 8192 8418, 8193), (8, 1)] := by
    rw [far_tokens, fields_append, fields, fields, token_fields, w2, List.append_nil]
  rw [hf] at hh
  obtain ⟨d, t1, t2, t3, t4, t5, t6⟩ := token_iterations_spec 4 8192 8419 far_stream (by decide)
    (by decide) far_head
    ⟨0, List.replicate 8419 0 ++ (List.replicate 8419 0).drop 8419,
      after_bytes (reset_cursor in_length g) 4⟩ [] _
    rfl rfl (fun b hb => absurd hb (List.not_mem_nil b)) w1 (by omega)
    (by
      show 8419 ≤ (List.replicate 8419 0 ++ (List.replicate 8419 0).drop 8419).length
      rw [List.length_append, List.length_replicate]
      omega)
    (avail_after_bytes 4 _ hav)
    (by rw [bit_pos_header]; exact hh)
  have hlen34 : far_head.length = 34 := by simp [far_head]
  rw [hlen34] at t1
  rw [w2] at t2
  have hout : d.out.length = 8419 := by
    rw [t4]
    show (List.replicate 8419 0 ++ (List.replicate 8419 0).drop 8419).length = 8419
    rw [List.length_append, List.length_drop, List.length_replicate]
  obtain ⟨hw, hw1, hw2⟩ := field_width_spec 8192 8418 (by decide)
  have hw14 : field_width 8192 8418 = 14 := by decide
  obtain ⟨hr1, hh1⟩ := holds_read far_stream d.g 1 1 _ t6 t5 (by omega) (by omega)
  have hr1 : jbi_read_packed far_stream 1 d.g = .ok (1, cursor_after d.g 1) := hr1
  obtain ⟨hr2, hh2⟩ := holds_read far_stream (cursor_after d.g 1) _ 8193 _ hh1
    (avail_cursor_after d.g 1) hw1 hw2
  have hr2 : jbi_read_packed far_stream (field_width 8192 8418) (cursor_after d.g 1)
      = .ok (8193, cursor_after (cursor_after d.g 1) (field_width 8192 8418)) := by
    rw [hr2, hw14, show 8193 % 2 ^ 14 = 8193 from by decide]
  obtain ⟨hr3, _⟩ := holds_read far_stream
    (cursor_after (cursor_after d.g 1) (field_width 8192 8418)) 8 1 _ hh2
    (avail_cursor_after _ _) (by omega) (by omega)
  have hr3 : jbi_read_packed far_stream 8
      (cursor_after (cursor_after d.g 1) (field_width 8192 8418))
      = .ok (1, cursor_after (cursor_after (cursor_after d.g 1) (field_width 8192 8418)) 8) := hr3
  refine ⟨d, t1, t2, hout, t5, hr1, ?_, ?_⟩
  · rw [t2]; exact hr2
  · rw [t2]; exact hr3

/-- The bit fields of a token list depend on the payload so far through its
length only. -/
theorem fields_eq_fields_at (mws L : Nat) : ∀ (ts : List Token) (acc : List Nat),
    fields mws L ts acc = fields_at mws L ts acc.length := by
  intro ts
  induction ts with
  | nil => intro acc; rfl
  | cons t ts ih =>
    intro acc
    rw [fields, fields_at, ih]
    congr 2
    cases t with
    | literal bytes => rw [token_expand, token_end, List.length_append]
    | matching offset length =>
      rw [token_expand, token_end, List.length_append, match_bytes, List.length_map,
        List.length_range]

set_option maxRecDepth 100000 in
/-- The 96 bytes of `far_stream`. -/
theorem far_stream_bytes : far_stream =
    [227, 32, 0, 0, 130, 130, 130, 246, 63, 192, 255, 0, 254, 7, 240, 63, 128, 255, 1, 248, 31,
     128, 255, 1, 248, 31, 128, 255, 1, 240, 63, 0, 254, 7, 192, 255, 0, 248, 31, 0, 255, 3,
     224, 127, 0, 252, 15, 128, 255, 1, 224, 127, 0, 248, 31, 0, 254, 7, 128, 255, 1, 224, 127,
     0, 248, 31, 0, 254, 7, 128, 255, 1, 224, 127, 0, 248, 31, 0, 254, 7, 128, 255, 1, 224,
     127, 0, 248, 31, 0, 254, 7, 128, 255, 1, 96, 0] := by
  rw [far_stream, serialise, pack_fields, fields_eq_fields_at]
  decide

/-! ## The claims -/

/-- C1: round trip over the wire format.  For a well-formed token list whose
expansion is a payload of `L ≤ out_length` bytes, `jbi_uncompress` on the
serialised stream (the `W`-byte little-endian header `L`, then the tokens
packed LSB first) returns `L` and leaves the payload in `out[0..L)`. -/
theorem round_trip (W : Nat) (version : Int) (L : Nat) (tokens : List Token)
    (in_length : Nat) (out : List Nat) (out_length : Nat) (g : State)
    (hL : L < 256 ^ W) (hwf : well_formed (match_window version) L tokens [])
    (hlen : (expand L tokens []).length = L) (hout : L ≤ out_length)
    (hcap : out_length ≤ out.length) :
    ∃ r, jbi_uncompress W (serialise W (match_window version) L tokens) in_length out out_length
        version g = .ok r ∧ r.ret = L ∧ r.out.take L = expand L tokens [] := by
  obtain ⟨r, h1, h2, _, h4, _⟩ :=
    round_trip_core W version L tokens in_length out out_length g hL hwf hlen hout hcap
  exact ⟨r, h1, h2, h4⟩

theorem round_trip_witness :
    12 < 256 ^ 4 ∧
    well_formed (match_window 0) 12
      [.literal [0x41, 0x42, 0x43], .matching 2 5, .matching 7 200] [] ∧
    (expand 12 [.literal [0x41, 0x42, 0x43], .matching 2 5, .matching 7 200] []).length = 12 ∧
    12 ≤ 13 ∧ 13 ≤ (List.replicate 14 7).length ∧
    expand 12 [.literal [0x41, 0x42, 0x43], .matching 2 5, .matching 7 200] []
      = [0x41, 0x42, 0x43, 0x42, 0x43, 0x42, 0x43, 0x42, 0x42, 0x43, 0x42, 0x43] ∧
    ∃ r, jbi_uncompress 4 (serialise 4 (match_window 0) 12
          [.literal [0x41, 0x42, 0x43], .matching 2 5, .matching 7 200])
        0 (List.replicate 14 7) 13 0 ⟨0, 0, 0, []⟩ = .ok r ∧ r.ret = 12 ∧
      r.out.take 12 = expand 12 [.literal [0x41, 0x42, 0x43], .matching 2 5, .matching 7 200] [] :=
  ⟨by decide, by decide, by decide, by decide, by decide, by decide,
    round_trip 4 0 12 [.literal [0x41, 0x42, 0x43], .matching 2 5, .matching 7 200]
      0 (List.replicate 14 7) 13 ⟨0, 0, 0, []⟩
      (by decide) (by decide) (by decide) (by decide) (by decide)⟩

/-- C2: literal-only streams decode to their payload.  For a byte sequence
`p` of length `L ≤ out_length`, the stream made of the header `L` and
`⌈L / 3⌉` literal tokens makes `jbi_uncompress` return `L` with
`out[0..L) = p`. -/
theorem literal_only (W : Nat) (version : Int) (p : List Nat) (in_length : Nat)
    (out : List Nat) (out_length : Nat) (g : State)
    (hbytes : ∀ b ∈ p, b < 256) (hL : p.length < 256 ^ W) (hout : p.length ≤ out_length)
    (hcap : out_length ≤ out.length) :
    (literal_tokens p).length = (p.length + 2) / 3 ∧
    (∀ t ∈ literal_tokens p, ∃ bytes, t = Token.literal bytes) ∧
    ∃ r, jbi_uncompress W (serialise W (match_window version) p.length (literal_tokens p))
        in_length out out_length version g = .ok r ∧ r.ret = p.length ∧
      r.out.take p.length = p := by
  obtain ⟨hwf, hex⟩ := literal_tokens_spec (match_window version) p.length p [] hbytes (by simp)
  rw [List.nil_append] at hex
  obtain ⟨r, h1, h2, _, h4, _⟩ := round_trip_core W version p.length (literal_tokens p)
    in_length out out_length g hL hwf (by rw [hex]) hout hcap
  exact ⟨literal_tokens_length p, literal_tokens_literal p, r, h1, h2, by rw [h4, hex]⟩

theorem literal_only_witness :
    (∀ b ∈ [0x41, 0x42, 0x43, 0x44, 0x45], b < 256) ∧
    [0x41, 0x42, 0x43, 0x44, 0x45].length < 256 ^ 8 ∧
    [0x41, 0x42, 0x43, 0x44, 0x45].length ≤ 5 ∧ 5 ≤ [9, 9, 9, 9, 9].length ∧
    literal_tokens [0x41, 0x42, 0x43, 0x44, 0x45]
      = [.literal [0x41, 0x42, 0x43], .literal [0x44, 0x45]] ∧
    serialise 8 (match_window 0) 5 (literal_tokens [0x41, 0x42, 0x43, 0x44, 0x45])
      = [5, 0, 0, 0, 0, 0, 0, 0, 130, 132, 134, 16, 21, 1] ∧
    ∃ r, jbi_uncompress 8
        (serialise 8 (match_window 0) [0x41, 0x42, 0x43, 0x44, 0x45].length
          (literal_tokens [0x41, 0x42, 0x43, 0x44, 0x45]))
        14 [9, 9, 9, 9, 9] 5 0 ⟨0, 0, 0, []⟩ = .ok r ∧
      r.ret = [0x41, 0x42, 0x43, 0x44, 0x45].length ∧
      r.out.take [0x41, 0x42, 0x43, 0x44, 0x45].length = [0x41, 0x42, 0x43, 0x44, 0x45] :=
  ⟨by decide, by decide, by decide, by decide, by decide, by decide,
    (literal_only 8 0 [0x41, 0x42, 0x43, 0x44, 0x45] 14 [9, 9, 9, 9, 9] 5 ⟨0, 0, 0, []⟩
      (by decide) (by decide) (by decide) (by decide)).2.2⟩

/-- C3: match copy with overlap.  When the token loop is at position `pos`
and reads a match token `(offset, length)` with `1 ≤ offset ≤ pos`, it
appends `m = min length (L - pos)` bytes, the `k`-th one being the byte that
stood at index `pos - offset + k mod offset`, leaves the rest of `out` as it
was and advances the position by `m`. -/
theorem match_copy (W : Nat) (inb : List Nat) (L : Nat) (version : Int) (d : Dec)
    (g1 g2 g3 : State) (flag width offset length : Nat)
    (hbytes : ∀ b ∈ d.out, b < 256) (hi : d.i < L) (hL : L ≤ d.out.length)
    (hLW : L < 2 ^ (8 * W))
    (hflag : jbi_read_packed inb 1 d.g = .ok (flag, g1)) (hf : flag ≠ 0)
    (hw : jbi_bits_required (offset_cap (match_window version) d.i) = .ok width)
    (hoff : jbi_read_packed inb width g1 = .ok (offset, g2))
    (hlen : jbi_read_packed inb CHAR_BITS g2 = .ok (length, g3))
    (ho1 : 1 ≤ offset) (ho2 : offset ≤ d.i) :
    ∃ d', token_step W inb L (match_window version) d = .ok d' ∧
      d'.i = d.i + min length (L - d.i) ∧
      (∀ k, k < min length (L - d.i) → d'.out[d.i + k]? = d.out[d.i - offset + k % offset]?) ∧
      (∀ x, x < d.i → d'.out[x]? = d.out[x]?) ∧
      (∀ x, d.i + min length (L - d.i) ≤ x → d'.out[x]? = d.out[x]?) ∧
      d'.out.length = d.out.length := by
  have hacc : (d.out.take d.i).length = d.i := by
    rw [List.length_take]; omega
  obtain ⟨d', e1, e2, e3, e4, _, _⟩ := copy_loop_spec W L offset (d.out.take d.i) ho1
    (by omega) hLW (fun b hb => hbytes b (List.mem_of_mem_take hb)) length { d with g := g3 } 0
    (by simp only [hacc]; omega) (by simp) hL
  simp only [Nat.zero_add, hacc] at e2 e3 e4
  have hstep : token_step W inb L (match_window version) d = .ok d' := by
    rw [token_step, hflag]
    simp only [if_neg hf, hw, hoff, hlen]
    exact e1
  have hout := copy_loop_outside W offset L length { d with g := g3 } d' e1
  simp only at hout
  refine ⟨d', hstep, e2, ?_, fun x hx => hout x (Or.inl hx),
    fun x hx => hout x (Or.inr (by omega)), e4⟩
  intro k hk
  have hidx : d.i - offset + k % offset < d.i := by
    have := Nat.mod_lt k (show 0 < offset by omega)
    omega
  have h1 : d'.out[d.i + k]? = (d'.out.take d'.i)[d.i + k]? := by
    rw [List.getElem?_take_of_lt (by omega)]
  rw [h1, e3, List.getElem?_append_right (by omega), hacc, show d.i + k - d.i = k by omega,
    List.getElem?_map, List.getElem?_range hk]
  simp only [Option.map_some']
  rw [List.getD_eq_getElem?_getD, List.getElem?_take_of_lt hidx,
    List.getElem?_eq_getElem (by omega)]
  rfl

theorem match_copy_witness :
    (∀ b ∈ [0x41, 0x42, 0x43, 0, 0, 0, 0, 0], b < 256) ∧
    token_step 4 [35, 0] 7 (match_window 0) ⟨3, [0x41, 0x42, 0x43, 0, 0, 0, 0, 0], ⟨0, 0, 8, []⟩⟩
      = .ok ⟨7, [0x41, 0x42, 0x43, 0x43, 0x43, 0x43, 0x43, 0],
          ⟨0, 1, 5, [.rd_in 0, .rd_in 0, .rd_in 0, .rd_in 1, .rd_out 2, .wr_out 3 0x43,
            .rd_out 3, .wr_out 4 0x43, .rd_out 4, .wr_out 5 0x43, .rd_out 5, .wr_out 6 0x43]⟩⟩ ∧
    ∃ d', token_step 4 [35, 0] 7 (match_window 0)
        ⟨3, [0x41, 0x42, 0x43, 0, 0, 0, 0, 0], ⟨0, 0, 8, []⟩⟩ = .ok d' ∧
      d'.i = 3 + min 4 (7 - 3) ∧
      (∀ k, k < min 4 (7 - 3) →
        d'.out[3 + k]? = [0x41, 0x42, 0x43, 0, 0, 0, 0, 0][3 - 1 + k % 1]?) ∧
      (∀ x, x < 3 → d'.out[x]? = [0x41, 0x42, 0x43, 0, 0, 0, 0, 0][x]?) ∧
      (∀ x, 3 + min 4 (7 - 3) ≤ x → d'.out[x]? = [0x41, 0x42, 0x43, 0, 0, 0, 0, 0][x]?) ∧
      d'.out.length = [0x41, 0x42, 0x43, 0, 0, 0, 0, 0].length :=
  ⟨by decide, by decide,
    match_copy 4 [35, 0] 7 0 ⟨3, [0x41, 0x42, 0x43, 0, 0, 0, 0, 0], ⟨0, 0, 8, []⟩⟩
      ⟨0, 0, 7, [.rd_in 0]⟩ ⟨0, 0, 5, [.rd_in 0, .rd_in 0]⟩
      ⟨0, 1, 5, [.rd_in 0, .rd_in 0, .rd_in 0, .rd_in 1]⟩ 1 2 1 4
      (by decide) (by decide) (by decide) (by decide) (by decide) (by decide) (by decide)
      (by decide) (by decide) (by decide) (by decide)⟩

/-- C4: value of a bit-cursor read.  From a cursor with `jbi_bits_avail ≤ 8`
at the absolute bit position `p`, a read of `1 ≤ n ≤ 16` bits that stays
inside the buffer returns the sum over `k < n` of `bit (p + k) * 2 ^ k`, the
next `n` bits of the stream, LSB first within a byte and little-endian across
bytes. -/
theorem read_packed_value (buffer : List Nat) (g : State) (n : Nat)
    (ha : g.jbi_bits_avail ≤ 8) (h1 : 1 ≤ n) (h2 : n ≤ 16)
    (hin : bit_pos g + n ≤ 8 * buffer.length) :
    ∃ g', jbi_read_packed buffer n g =
      .ok (∑ k in Finset.range n, stream_bit buffer (bit_pos g + k) * 2 ^ k, g') := by
  refine ⟨cursor_after g n, ?_⟩
  rw [read_packed_ok buffer n g ha h1 h2 hin, bits_val_eq_sum]

theorem read_packed_value_witness :
    (⟨0, 0, 1, []⟩ : State).jbi_bits_avail ≤ 8 ∧ 1 ≤ 16 ∧ 16 ≤ 16 ∧
    bit_pos ⟨0, 0, 1, []⟩ + 16 ≤ 8 * [0x80, 0x34, 0xF2].length ∧
    ∃ g', jbi_read_packed [0x80, 0x34, 0xF2] 16 ⟨0, 0, 1, []⟩ =
      .ok (∑ k in Finset.range 16, stream_bit [0x80, 0x34, 0xF2] (bit_pos ⟨0, 0, 1, []⟩ + k) * 2 ^ k, g') :=
  ⟨by decide, by decide, by decide, by decide,
    read_packed_value [0x80, 0x34, 0xF2] ⟨0, 0, 1, []⟩ 16 (by decide) (by decide) (by decide) (by decide)⟩

/-- C5: a bit-cursor read advances by exactly `n` bits.  From a cursor with
`jbi_bits_avail ≤ 8`, a read of `1 ≤ n ≤ 16` bits that stays inside the
buffer moves the absolute bit position `8 * jbi_in_index + (8 -
jbi_bits_avail)` forward by exactly `n`, keeps `jbi_bits_avail ≤ 8`, and
accesses the buffer by reads only. -/
theorem read_packed_advance (buffer : List Nat) (g : State) (n : Nat)
    (ha : g.jbi_bits_avail ≤ 8) (h1 : 1 ≤ n) (h2 : n ≤ 16)
    (hin : bit_pos g + n ≤ 8 * buffer.length) :
    ∃ v g', jbi_read_packed buffer n g = .ok (v, g') ∧ bit_pos g' = bit_pos g + n ∧
      g'.jbi_bits_avail ≤ 8 ∧
      ∃ idxs : List Nat, g'.accesses = g.accesses ++ idxs.map Access.rd_in := by
  refine ⟨_, _, read_packed_ok buffer n g ha h1 h2 hin, bit_pos_cursor_after g n h1,
    avail_cursor_after g n, _, rfl⟩

theorem read_packed_advance_witness :
    (⟨0, 1, 0, []⟩ : State).jbi_bits_avail ≤ 8 ∧ 1 ≤ 8 ∧ 8 ≤ 16 ∧
    bit_pos ⟨0, 1, 0, []⟩ + 8 ≤ 8 * [0x12, 0x34, 0x56].length ∧
    ∃ v g', jbi_read_packed [0x12, 0x34, 0x56] 8 ⟨0, 1, 0, []⟩ = .ok (v, g') ∧
      bit_pos g' = bit_pos ⟨0, 1, 0, []⟩ + 8 ∧ g'.jbi_bits_avail ≤ 8 ∧
      ∃ idxs : List Nat, g'.accesses = (⟨0, 1, 0, []⟩ : State).accesses ++ idxs.map Access.rd_in :=
  ⟨by decide, by decide, by decide, by decide,
    read_packed_advance [0x12, 0x34, 0x56] ⟨0, 1, 0, []⟩ 8 (by decide) (by decide) (by decide)
      (by decide)⟩

/-- C6: `jbi_bits_required 0 = 1`, and for `1 ≤ n ≤ 65535` the result is
`16 - leadingZeroBits16 n`, the only `b` in `[1, 16]` with
`2 ^ (b - 1) ≤ n < 2 ^ b`; the values at 1, 255, 256 and 65535 are 1, 8, 9
and 16. -/
theorem bits_required_spec (n : Nat) (h1 : 1 ≤ n) (h2 : n ≤ 65535) :
    jbi_bits_required 0 = .ok 1 ∧
    (∃ b, jbi_bits_required n = .ok b ∧ b = 16 - leadingZeroBits16 n ∧ 1 ≤ b ∧ b ≤ 16 ∧
      2 ^ (b - 1) ≤ n ∧ n < 2 ^ b ∧
      ∀ c, 1 ≤ c → c ≤ 16 → 2 ^ (c - 1) ≤ n → n < 2 ^ c → c = b) ∧
    jbi_bits_required 1 = .ok 1 ∧ jbi_bits_required 255 = .ok 8 ∧
    jbi_bits_required 256 = .ok 9 ∧ jbi_bits_required 65535 = .ok 16 := by
  refine ⟨by decide, ?_, by decide, by decide, by decide, by decide⟩
  have hn0 : n ≠ 0 := by omega
  have hlo : 2 ^ n.log2 ≤ n := Nat.log2_self_le hn0
  have hhi : n < 2 ^ (n.log2 + 1) := Nat.lt_log2_self
  have hj : n.log2 < 16 := (Nat.log2_lt hn0).2 (by omega)
  refine ⟨n.log2 + 1, bits_required_eq n h1 h2, ?_, by omega, by omega, by simpa using hlo, hhi, ?_⟩
  · unfold leadingZeroBits16
    rw [lz_from_eq 16 n n.log2 hlo hhi hj]
    omega
  · intro c hc1 hc2 hc3 hc4
    have a1 : n.log2 < c := (Nat.log2_lt hn0).2 hc4
    have a2 : ¬ (n.log2 < c - 1) := by
      rw [Nat.log2_lt hn0]; omega
    omega

theorem bits_required_spec_witness : 1 ≤ 256 ∧ 256 ≤ 65535 ∧
    (∃ b, jbi_bits_required 256 = .ok b ∧ b = 16 - leadingZeroBits16 256 ∧
      2 ^ (b - 1) ≤ 256 ∧ 256 < 2 ^ b) :=
  ⟨by decide, by decide,
    let ⟨b, hb, hz, _, _, hl, hu, _⟩ := (bits_required_spec 256 (by decide) (by decide)).2.1
    ⟨b, hb, hz, hl, hu⟩⟩

/-- C7: offset field width and its plateau.  The window is 8192 for version
0 and 8191 for a version above 0; the width that `jbi_uncompress` computes
for the offset field at position `pos` is
`jbi_bits_required (min pos window)`, and a match token takes one flag bit,
that many offset bits and eight length bits; so for version 0 the width is
`jbi_bits_required pos` up to 8192 and 14 above, and for a version above 0
it is 13 from 4096 on. -/
theorem offset_width (version : Int) (pos : Nat) :
    match_window version = (if version > 0 then 8191 else 8192) ∧
    jbi_bits_required (offset_cap (match_window version) pos)
      = jbi_bits_required (min pos (match_window version)) ∧
    (∀ (W : Nat) (inb : List Nat) (L : Nat) (d d' : Dec) (flag : Nat) (g1 : State),
      d.i = pos → d.g.jbi_bits_avail ≤ 8 → jbi_read_packed inb 1 d.g = .ok (flag, g1) →
      flag ≠ 0 → token_step W inb L (match_window version) d = .ok d' →
      ∃ w, jbi_bits_required (min pos (match_window version)) = .ok w ∧
        bit_pos d'.g = bit_pos d.g + 1 + w + 8) ∧
    (version = 0 → pos ≤ 8192 →
      jbi_bits_required (offset_cap (match_window version) pos) = jbi_bits_required pos) ∧
    (version = 0 → 8192 < pos →
      jbi_bits_required (offset_cap (match_window version) pos) = .ok 14) ∧
    (version > 0 → 4096 ≤ pos →
      jbi_bits_required (offset_cap (match_window version) pos) = .ok 13) := by
  have hcap := offset_cap_eq (match_window version) pos (match_window_le version)
  refine ⟨match_window_eq version, by rw [hcap], ?_, ?_, ?_, ?_⟩
  · intro W inb L d d' flag g1 hpos ha hflag hf h
    obtain ⟨_, _, _, _, _, _, _, hb⟩ := token_step_match W inb L (match_window version)
      (match_window_le version) d d' flag g1 ha hflag hf h
    rw [hpos] at hb
    exact ⟨_, (field_width_spec (match_window version) pos (match_window_le version)).1, hb⟩
  · intro hv hp
    rw [hcap, match_window_eq, hv]
    simp only [gt_iff_lt, lt_self_iff_false, if_false]
    rw [Nat.min_eq_left hp]
  · intro hv hp
    rw [hcap, match_window_eq, hv]
    simp only [gt_iff_lt, lt_self_iff_false, if_false]
    rw [Nat.min_eq_right (by omega)]
    decide
  · intro hv hp
    rw [hcap, match_window_eq, if_pos hv]
    have h1 : 2 ^ 12 ≤ min pos 8191 := by omega
    have h2 : min pos 8191 < 2 ^ (12 + 1) := by omega
    rw [bits_required_eq _ (by omega) (by omega), log2_eq_of_bounds h1 h2]

theorem offset_width_witness :
    jbi_bits_required (offset_cap (match_window 0) 100) = jbi_bits_required 100 ∧
    jbi_bits_required (offset_cap (match_window 0) 9000) = .ok 14 ∧
    jbi_bits_required (offset_cap (match_window 2) 5000) = .ok 13 ∧
    ∃ w, jbi_bits_required (min 3 (match_window 0)) = .ok w ∧
      bit_pos (ok_step (token_step 4 [35, 0] 7 (match_window 0)
        ⟨3, [0x41, 0x42, 0x43, 0, 0, 0, 0, 0], ⟨0, 0, 8, []⟩⟩)).g
        = bit_pos (⟨0, 0, 8, []⟩ : State) + 1 + w + 8 :=
  ⟨(offset_width 0 100).2.2.2.1 rfl (by decide), (offset_width 0 9000).2.2.2.2.1 rfl (by decide),
    (offset_width 2 5000).2.2.2.2.2 (by decide) (by decide),
    (offset_width 0 3).2.2.1 4 [35, 0] 7 ⟨3, [0x41, 0x42, 0x43, 0, 0, 0, 0, 0], ⟨0, 0, 8, []⟩⟩
      _ 1 ⟨0, 0, 7, [.rd_in 0]⟩ rfl (by decide) (by decide) (by decide) (by decide)⟩

/-- C8: header parse.  On an input of at least `W` bytes the header loop of
`jbi_uncompress`, run from the reset cursor, computes the little-endian value
of the first `W` bytes, the sum over `i < W` of `in[i] * 256 ^ i`; after it
the cursor has consumed exactly `8 * W` bits, and the next bit read, the
first flag bit, is bit 0 of `in[W]`. -/
theorem header_parse (W : Nat) (inb : List Nat) (in_length : Nat) (g : State)
    (hW : W ≤ inb.length) :
    ∃ g', header_loop W inb W 0 0 (reset_cursor in_length g) =
        .ok (∑ i in Finset.range W, (inb.getD i 0 % 256) * 256 ^ i, g') ∧
      bit_pos g' = 8 * W ∧
      (W < inb.length → ∃ g2, jbi_read_packed inb 1 g' = .ok (inb.getD W 0 % 2, g2)) := by
  have hf : (reset_cursor in_length g).jbi_bits_avail ≤ 8 := by simp [reset_cursor, CHAR_BITS]
  have hp : bit_pos (reset_cursor in_length g) = 8 * 0 := by simp [reset_cursor, bit_pos, CHAR_BITS]
  refine ⟨after_bytes (reset_cursor in_length g) W, ?_, ?_, ?_⟩
  · rw [header_loop_ok W inb W 0 0 _ hf hp (by omega) (by omega) (by simp)]
    congr 2
    simp only [List.drop_zero, Nat.pow_zero, Nat.one_mul, Nat.zero_add]
    rw [le_value_eq_sum, List.length_take, Nat.min_eq_left hW]
    apply Finset.sum_congr rfl
    intro k hk
    rw [Finset.mem_range] at hk
    rw [List.getD_eq_getElem?_getD, List.getD_eq_getElem?_getD, List.getElem?_take_of_lt hk]
  · rw [bit_pos_after_bytes, hp]; omega
  · intro hlt
    have hq : bit_pos (after_bytes (reset_cursor in_length g) W) = 8 * W := by
      rw [bit_pos_after_bytes, hp]; omega
    refine ⟨cursor_after (after_bytes (reset_cursor in_length g) W) 1, ?_⟩
    rw [read_packed_ok inb 1 _ (avail_after_bytes W _ hf) (by omega) (by omega) (by omega), hq]
    congr 2
    have := bits_val_in_byte inb W 1 0 (by omega)
    simpa using this

theorem header_parse_witness :
    4 ≤ [0x34, 0x12, 0, 0, 0xFF].length ∧
    ∃ g', header_loop 4 [0x34, 0x12, 0, 0, 0xFF] 4 0 0 (reset_cursor 5 ⟨0, 3, 2, []⟩) =
        .ok (∑ i in Finset.range 4, ([0x34, 0x12, 0, 0, 0xFF].getD i 0 % 256) * 256 ^ i, g') ∧
      bit_pos g' = 8 * 4 ∧
      (4 < [0x34, 0x12, 0, 0, 0xFF].length →
        ∃ g2, jbi_read_packed [0x34, 0x12, 0, 0, 0xFF] 1 g'
          = .ok ([0x34, 0x12, 0, 0, 0xFF].getD 4 0 % 2, g2)) :=
  ⟨by decide, header_parse 4 [0x34, 0x12, 0, 0, 0xFF] 5 ⟨0, 3, 2, []⟩ (by decide)⟩

/-- C9: recovered length on success.  When the declared length `L` fits the
output and the call returns, the output position at loop exit is `L` and
`jbi_uncompress` returns `L`. -/
theorem recovered_length (W : Nat) (inb : List Nat) (in_length : Nat) (out : List Nat)
    (out_length : Nat) (version : Int) (g : State) (r : Result)
    (hL : declared_length W inb ≤ out_length)
    (h : jbi_uncompress W inb in_length out out_length version g = .ok r) :
    r.i = declared_length W inb ∧ r.ret = declared_length W inb := by
  obtain ⟨_, _, g1, _, hav, _, _, hcase⟩ :=
    jbi_uncompress_inv W inb in_length out out_length version g r h
  rcases hcase with ⟨hgt, _⟩ | ⟨_, d', hloop, hr⟩
  · omega
  · obtain ⟨s, hex⟩ := token_loop_frame W inb _ _ (match_window_le version) _ _ d' hav hloop
    have hle := s.2.1 (Nat.zero_le _)
    subst hr
    exact ⟨by simp only; omega, rfl⟩

theorem recovered_length_witness :
    declared_length 4 [7, 0, 0, 0, 130, 132, 134, 70, 25] ≤ 8 ∧
    jbi_uncompress 4 [7, 0, 0, 0, 130, 132, 134, 70, 25] 9 (List.replicate 9 9) 8 0 ⟨0, 0, 8, []⟩
      = .ok (ok_or (jbi_uncompress 4 [7, 0, 0, 0, 130, 132, 134, 70, 25] 9 (List.replicate 9 9) 8 0
          ⟨0, 0, 8, []⟩)) ∧
    declared_length 4 [7, 0, 0, 0, 130, 132, 134, 70, 25] = 7 ∧
    (ok_or (jbi_uncompress 4 [7, 0, 0, 0, 130, 132, 134, 70, 25] 9 (List.replicate 9 9) 8 0
        ⟨0, 0, 8, []⟩)).i = declared_length 4 [7, 0, 0, 0, 130, 132, 134, 70, 25] ∧
    (ok_or (jbi_uncompress 4 [7, 0, 0, 0, 130, 132, 134, 70, 25] 9 (List.replicate 9 9) 8 0
        ⟨0, 0, 8, []⟩)).ret = declared_length 4 [7, 0, 0, 0, 130, 132, 134, 70, 25] :=
  ⟨by decide, by decide, by decide,
    recovered_length 4 [7, 0, 0, 0, 130, 132, 134, 70, 25] 9 (List.replicate 9 9) 8 0 ⟨0, 0, 8, []⟩
      _ (by decide) (by decide)⟩

/-- C10: zero tail.  After `jbi_uncompress` returns `r`, every byte of `out`
from index `r` up to `out_length` is zero, and every store of a decoded byte
was at an index below the declared length `L ≤ out_length`. -/
theorem zero_tail (W : Nat) (inb : List Nat) (in_length : Nat) (out : List Nat)
    (out_length : Nat) (version : Int) (g : State) (r : Result)
    (h : jbi_uncompress W inb in_length out out_length version g = .ok r) :
    (∀ k, r.ret ≤ k → k < out_length → r.out[k]? = some 0) ∧
    ∃ l, r.g.accesses = g.accesses ++ l ∧
      ∀ idx val, Access.wr_out idx val ∈ l →
        idx < declared_length W inb ∧ declared_length W inb ≤ out_length := by
  obtain ⟨_, _, g1, _, hav, _, ⟨idxs, hacc⟩, hcase⟩ :=
    jbi_uncompress_inv W inb in_length out out_length version g r h
  rcases hcase with ⟨hgt, hr⟩ | ⟨hle, d', hloop, hr⟩
  · subst hr
    refine ⟨fun k _ hk => zero_fill_getElem out out_length k hk, _, hacc, ?_⟩
    intro idx val hm
    simp only [List.mem_map] at hm
    obtain ⟨_, _, hm⟩ := hm
    cases hm
  · obtain ⟨s, hex⟩ := token_loop_frame W inb _ _ (match_window_le version) _ _ d' hav hloop
    obtain ⟨_, s2, _, s4, _, _, _, l, s8, s9⟩ := s
    have hiL := s2 (Nat.zero_le _)
    subst hr
    refine ⟨?_, idxs.map Access.rd_in ++ l, ?_, ?_⟩
    · intro k hk1 hk2
      simp only at hk1 ⊢
      rw [s4 k (Or.inr (by omega))]
      exact zero_fill_getElem out out_length k hk2
    · simp only at s8 ⊢
      rw [s8, hacc, List.append_assoc]
    · intro idx val hm
      rw [List.mem_append] at hm
      rcases hm with hm | hm
      · simp only [List.mem_map] at hm
        obtain ⟨_, _, hm⟩ := hm
        cases hm
      · exact ⟨s9 idx val hm, hle⟩

theorem zero_tail_witness :
    jbi_uncompress 4 [3, 0, 0, 0, 130, 132, 134, 0] 8 [9, 9, 9, 9, 9, 9] 5 0 ⟨0, 0, 8, []⟩
      = .ok (ok_or (jbi_uncompress 4 [3, 0, 0, 0, 130, 132, 134, 0] 8 [9, 9, 9, 9, 9, 9] 5 0
          ⟨0, 0, 8, []⟩)) ∧
    (ok_or (jbi_uncompress 4 [3, 0, 0, 0, 130, 132, 134, 0] 8 [9, 9, 9, 9, 9, 9] 5 0
        ⟨0, 0, 8, []⟩)).out = [0x41, 0x42, 0x43, 0, 0, 9] ∧
    ∀ k, (ok_or (jbi_uncompress 4 [3, 0, 0, 0, 130, 132, 134, 0] 8 [9, 9, 9, 9, 9, 9] 5 0
        ⟨0, 0, 8, []⟩)).ret ≤ k → k < 5 →
      (ok_or (jbi_uncompress 4 [3, 0, 0, 0, 130, 132, 134, 0] 8 [9, 9, 9, 9, 9, 9] 5 0
        ⟨0, 0, 8, []⟩)).out[k]? = some 0 :=
  ⟨by decide, by decide,
    (zero_tail 4 [3, 0, 0, 0, 130, 132, 134, 0] 8 [9, 9, 9, 9, 9, 9] 5 0 ⟨0, 0, 8, []⟩
      _ (by decide)).1⟩

/-- C11: oversized declared length fails softly.  When the header declares
`L > out_length`, `jbi_uncompress` returns 0, the cursor has consumed exactly
the `8 * W` header bits, the only bytes of the input it has read are header
bytes, it has accessed `out` for the zero fill only, and `out[0..out_length)`
is all zero. -/
theorem oversized_length (W : Nat) (inb : List Nat) (in_length : Nat) (out : List Nat)
    (out_length : Nat) (version : Int) (g : State) (hW : W ≤ inb.length)
    (hcap : out_length ≤ out.length) (hL : out_length < declared_length W inb) :
    ∃ r, jbi_uncompress W inb in_length out out_length version g = .ok r ∧ r.ret = 0 ∧
      bit_pos r.g = 8 * W ∧
      (∃ idxs : List Nat, r.g.accesses = g.accesses ++ idxs.map Access.rd_in ∧
        ∀ x ∈ idxs, x < W) ∧
      ∀ k, k < out_length → r.out[k]? = some 0 := by
  refine ⟨_, by rw [jbi_uncompress_eq W inb in_length out out_length version g hW hcap,
    if_pos hL], rfl, bit_pos_header in_length g W, ?_, fun k hk => zeros_getElem out out_length k hk⟩
  obtain ⟨idxs, h1, h2⟩ := after_bytes_accesses W 0 (reset_cursor in_length g)
    (by simp [reset_cursor, bit_pos, CHAR_BITS])
  exact ⟨idxs, h1, fun x hx => by have := h2 x hx; omega⟩

theorem oversized_length_witness :
    4 ≤ [5, 0, 0, 0, 0xFF, 0xFF].length ∧ 4 ≤ [9, 9, 9, 9, 9].length ∧
    4 < declared_length 4 [5, 0, 0, 0, 0xFF, 0xFF] ∧
    ∃ r, jbi_uncompress 4 [5, 0, 0, 0, 0xFF, 0xFF] 6 [9, 9, 9, 9, 9] 4 0 ⟨7, 3, 2, []⟩ = .ok r ∧
      r.ret = 0 ∧ bit_pos r.g = 8 * 4 ∧
      (∃ idxs : List Nat, r.g.accesses = (⟨7, 3, 2, []⟩ : State).accesses ++ idxs.map Access.rd_in ∧
        ∀ x ∈ idxs, x < 4) ∧
      ∀ k, k < 4 → r.out[k]? = some 0 :=
  ⟨by decide, by decide, by decide,
    oversized_length 4 [5, 0, 0, 0, 0xFF, 0xFF] 6 [9, 9, 9, 9, 9] 4 0 ⟨7, 3, 2, []⟩
      (by decide) (by decide) (by decide)⟩

/-- C12: empty payload.  When the header declares `L = 0`, `jbi_uncompress`
returns 0 without reading a token: the cursor has consumed exactly the
`8 * W` header bits, the only bytes of the input it has read are header
bytes (no flag bit is read), and `out[0..out_length)` is all zero. -/
theorem empty_payload (W : Nat) (inb : List Nat) (in_length : Nat) (out : List Nat)
    (out_length : Nat) (version : Int) (g : State) (hW : W ≤ inb.length)
    (hcap : out_length ≤ out.length) (hL : declared_length W inb = 0) :
    ∃ r, jbi_uncompress W inb in_length out out_length version g = .ok r ∧ r.ret = 0 ∧
      r.i = 0 ∧ bit_pos r.g = 8 * W ∧
      (∃ idxs : List Nat, r.g.accesses = g.accesses ++ idxs.map Access.rd_in ∧
        ∀ x ∈ idxs, x < W) ∧
      ∀ k, k < out_length → r.out[k]? = some 0 := by
  have hrun : jbi_uncompress W inb in_length out out_length version g =
      .ok ⟨0, 0, List.replicate out_length 0 ++ out.drop out_length,
        after_bytes (reset_cursor in_length g) W⟩ := by
    rw [jbi_uncompress_eq W inb in_length out out_length version g hW hcap, hL,
      if_neg (by omega)]
    cases inb.length <;> simp [token_loop]
  refine ⟨_, hrun, rfl, rfl, bit_pos_header in_length g W, ?_,
    fun k hk => zeros_getElem out out_length k hk⟩
  obtain ⟨idxs, h1, h2⟩ := after_bytes_accesses W 0 (reset_cursor in_length g)
    (by simp [reset_cursor, bit_pos, CHAR_BITS])
  exact ⟨idxs, h1, fun x hx => by have := h2 x hx; omega⟩

theorem empty_payload_witness :
    4 ≤ [0, 0, 0, 0, 0xFF, 0xFF].length ∧ 3 ≤ [9, 9, 9, 9, 9].length ∧
    declared_length 4 [0, 0, 0, 0, 0xFF, 0xFF] = 0 ∧
    ∃ r, jbi_uncompress 4 [0, 0, 0, 0, 0xFF, 0xFF] 6 [9, 9, 9, 9, 9] 3 1 ⟨7, 3, 2, []⟩ = .ok r ∧
      r.ret = 0 ∧ r.i = 0 ∧ bit_pos r.g = 8 * 4 ∧
      (∃ idxs : List Nat, r.g.accesses = (⟨7, 3, 2, []⟩ : State).accesses ++ idxs.map Access.rd_in ∧
        ∀ x ∈ idxs, x < 4) ∧
      ∀ k, k < 3 → r.out[k]? = some 0 :=
  ⟨by decide, by decide, by decide,
    empty_payload 4 [0, 0, 0, 0, 0xFF, 0xFF] 6 [9, 9, 9, 9, 9] 3 1 ⟨7, 3, 2, []⟩
      (by decide) (by decide) (by decide)⟩

/-- C13, what the code does: no back-reference is checked.  On the stream
`[1,0,0,0, 7,0]` (declared length 1, then a match token with offset 1 and
length 1 at position 0) the copy reads `out[0 - 1]`, outside `out`, and no
error value is returned; on `[1,0,0,0, 5,0]` (the same token with offset 0)
the call returns 1 and has read `out[0]` at position 0, an index outside
`[0, pos)`. -/
theorem back_reference_unchecked :
    jbi_uncompress 4 [1, 0, 0, 0, 7, 0] 6 [9] 1 0 ⟨0, 0, 8, []⟩ = .error .out_range ∧
    usubl 4 0 1 = 4294967295 ∧
    jbi_uncompress 4 [1, 0, 0, 0, 5, 0] 6 [9] 1 0 ⟨0, 0, 8, []⟩
      = .ok ⟨1, 1, [0], ⟨6, 5, 6, [.rd_in 0, .rd_in 0, .rd_in 1, .rd_in 1, .rd_in 2, .rd_in 2,
          .rd_in 3, .rd_in 3, .rd_in 4, .rd_in 4, .rd_in 4, .rd_in 5, .rd_out 0, .wr_out 0 0]⟩⟩ := by
  decide

/-- C14: splitting a read does not change what is read.  From a cursor with
`jbi_bits_avail ≤ 8`, for `a, b ≥ 1` with `a + b ≤ 16` and a read that stays
inside the buffer, one read of `a + b` bits returns `v` and reaches the state
`s`, a read of `a` bits followed by a read of `b` bits returns `v1` then `v2`
and reaches `s'`, with `v = v1 + v2 * 2 ^ a` and the same `jbi_in_index` and
`jbi_bits_avail` in `s` and `s'`. -/
theorem read_split (buffer : List Nat) (g : State) (a b : Nat)
    (hav : g.jbi_bits_avail ≤ 8) (ha : 1 ≤ a) (hb : 1 ≤ b) (hab : a + b ≤ 16)
    (hin : bit_pos g + (a + b) ≤ 8 * buffer.length) :
    ∃ v s v1 s1 v2 s', jbi_read_packed buffer (a + b) g = .ok (v, s) ∧
      jbi_read_packed buffer a g = .ok (v1, s1) ∧ jbi_read_packed buffer b s1 = .ok (v2, s') ∧
      v = v1 + v2 * 2 ^ a ∧ s'.jbi_in_index = s.jbi_in_index ∧
      s'.jbi_bits_avail = s.jbi_bits_avail := by
  have h1 := read_packed_ok buffer (a + b) g hav (by omega) hab hin
  have h2 := read_packed_ok buffer a g hav ha (by omega) (by omega)
  have h3 := read_packed_ok buffer b (cursor_after g a) (avail_cursor_after g a) hb (by omega)
    (by rw [bit_pos_cursor_after g a ha]; omega)
  obtain ⟨c1, c2, _⟩ := cursor_after_twice g a b ha
  refine ⟨_, _, _, _, _, _, h1, h2, h3, ?_, c1, c2⟩
  rw [bits_val_add, bit_pos_cursor_after g a ha, Nat.mul_comm]

theorem read_split_witness :
    (⟨0, 0, 3, []⟩ : State).jbi_bits_avail ≤ 8 ∧ 1 ≤ 8 ∧ 8 + 8 ≤ 16 ∧
    bit_pos ⟨0, 0, 3, []⟩ + (8 + 8) ≤ 8 * [0xA5, 0x3C, 0x96].length ∧
    ∃ v s v1 s1 v2 s', jbi_read_packed [0xA5, 0x3C, 0x96] (8 + 8) ⟨0, 0, 3, []⟩ = .ok (v, s) ∧
      jbi_read_packed [0xA5, 0x3C, 0x96] 8 ⟨0, 0, 3, []⟩ = .ok (v1, s1) ∧
      jbi_read_packed [0xA5, 0x3C, 0x96] 8 s1 = .ok (v2, s') ∧
      v = v1 + v2 * 2 ^ 8 ∧ s'.jbi_in_index = s.jbi_in_index ∧
      s'.jbi_bits_avail = s.jbi_bits_avail :=
  ⟨by decide, by decide, by decide, by decide,
    read_split [0xA5, 0x3C, 0x96] ⟨0, 0, 3, []⟩ 8 8 (by decide) (by decide) (by decide)
      (by decide) (by decide)⟩

/-- C15: `jbi_bits_required` is monotonic non-decreasing on the 16-bit range:
for `m ≤ n ≤ 65535` both calls return, and the result for `m` is at most the
result for `n`. -/
theorem bits_required_mono (m n : Nat) (hmn : m ≤ n) (hn : n ≤ 65535) :
    ∃ a b, jbi_bits_required m = .ok a ∧ jbi_bits_required n = .ok b ∧ a ≤ b := by
  by_cases hn0 : n = 0
  · have hm0 : m = 0 := by omega
    subst hn0; subst hm0
    exact ⟨1, 1, rfl, rfl, Nat.le_refl _⟩
  · by_cases hm0 : m = 0
    · subst hm0
      exact ⟨1, _, rfl, bits_required_eq n (by omega) hn, by omega⟩
    · exact ⟨_, _, bits_required_eq m (by omega) (by omega), bits_required_eq n (by omega) hn,
        by have := log2_mono hm0 hmn; omega⟩

theorem bits_required_mono_witness :
    255 ≤ 256 ∧ 256 ≤ 65535 ∧
    ∃ a b, jbi_bits_required 255 = .ok a ∧ jbi_bits_required 256 = .ok b ∧ a ≤ b :=
  ⟨by decide, by decide, bits_required_mono 255 256 (by decide) (by decide)⟩

/-- C16, what the code does: with `out_length` too small for the declared
length the call returns 0, not the all-ones value.  On the header
`[5,0,0,0]` with `out_length = 4` the declared length is 5 and
`jbi_uncompress` returns 0. -/
theorem too_small_returns_zero :
    declared_length 4 [5, 0, 0, 0] = 5 ∧
    jbi_uncompress 4 [5, 0, 0, 0] 4 [9, 9, 9, 9] 4 0 ⟨0, 0, 8, []⟩
      = .ok ⟨0, 4, [0, 0, 0, 0], ⟨4, 3, 0, [.rd_in 0, .rd_in 0, .rd_in 1, .rd_in 1, .rd_in 2,
          .rd_in 2, .rd_in 3]⟩⟩ ∧
    (0 : Nat) ≠ 2 ^ (8 * 4) - 1 := by
  decide

/-- C17: the bit cursor never produces the -1 overrun sentinel.  From a
cursor with `jbi_bits_avail ≤ 8`, any value that a read of `1 ≤ n ≤ 16` bits
returns is below `2 ^ n`, so at most 65535 and never `0xFFFFFFFF`; and the
call does not look at `jbi_in_length`: with any other value in it the call
does the same, returns the same value or reads outside the buffer alike, and
passes that value through. -/
theorem no_sentinel (buffer : List Nat) (g : State) (n : Nat) (v : Nat) (g' : State)
    (ha : g.jbi_bits_avail ≤ 8) (h1 : 1 ≤ n) (h2 : n ≤ 16)
    (h : jbi_read_packed buffer n g = .ok (v, g')) :
    v < 2 ^ n ∧ v ≤ 65535 ∧ v ≠ 0xFFFFFFFF ∧
    (∀ x, jbi_read_packed buffer n ⟨x, g.jbi_in_index, g.jbi_bits_avail, g.accesses⟩
      = .ok (v, ⟨x, g'.jbi_in_index, g'.jbi_bits_avail, g'.accesses⟩)) ∧
    (∀ (m x : Nat) (s : State),
      jbi_read_packed buffer m ⟨x, s.jbi_in_index, s.jbi_bits_avail, s.accesses⟩ =
        Except.map (fun p => (p.1, ⟨x, p.2.jbi_in_index, p.2.jbi_bits_avail, p.2.accesses⟩))
          (jbi_read_packed buffer m s)) := by
  obtain ⟨_, hv, _⟩ := read_packed_inv buffer n g g' v ha h1 h2 h
  have hlt : v < 2 ^ n := by rw [hv]; exact bits_val_lt buffer n _
  have hpow : (2 : Nat) ^ n ≤ 2 ^ 16 := Nat.pow_le_pow_right (by decide) h2
  have hgen : ∀ (m x : Nat) (s : State),
      jbi_read_packed buffer m ⟨x, s.jbi_in_index, s.jbi_bits_avail, s.accesses⟩ =
        Except.map (fun p => (p.1, ⟨x, p.2.jbi_in_index, p.2.jbi_bits_avail, p.2.accesses⟩))
          (jbi_read_packed buffer m s) :=
    fun m x s => read_packed_loop_in_length buffer x (m + 2) m 0 0 s
  refine ⟨hlt, by omega, by omega, ?_, hgen⟩
  intro x
  rw [hgen n x g, h]
  rfl

theorem no_sentinel_witness :
    (⟨3, 0, 8, []⟩ : State).jbi_bits_avail ≤ 8 ∧ 1 ≤ 16 ∧ 16 ≤ 16 ∧
    jbi_read_packed [0xFF, 0xFF, 0xFF] 16 ⟨3, 0, 8, []⟩
      = .ok (65535, ⟨3, 1, 0, [.rd_in 0, .rd_in 1]⟩) ∧
    (65535 : Nat) < 2 ^ 16 ∧ (65535 : Nat) ≠ 0xFFFFFFFF ∧
    jbi_read_packed [0xFF, 0xFF, 0xFF] 16 ⟨0, 0, 8, []⟩
      = .ok (65535, ⟨0, 1, 0, [.rd_in 0, .rd_in 1]⟩) :=
  ⟨by decide, by decide, by decide, by decide,
    (no_sentinel [0xFF, 0xFF, 0xFF] ⟨3, 0, 8, []⟩ 16 65535 ⟨3, 1, 0, [.rd_in 0, .rd_in 1]⟩
      (by decide) (by decide) (by decide) (by decide)).1,
    (no_sentinel [0xFF, 0xFF, 0xFF] ⟨3, 0, 8, []⟩ 16 65535 ⟨3, 1, 0, [.rd_in 0, .rd_in 1]⟩
      (by decide) (by decide) (by decide) (by decide)).2.2.1,
    (no_sentinel [0xFF, 0xFF, 0xFF] ⟨3, 0, 8, []⟩ 16 65535 ⟨3, 1, 0, [.rd_in 0, .rd_in 1]⟩
      (by decide) (by decide) (by decide) (by decide)).2.2.2.1 0⟩

/-- C18: each decode call starts from a fresh cursor and a zeroed output.
The call sets the cursor to `(jbi_in_index, jbi_bits_avail) = (0, 8)` and
zeroes `out[0..out_length)` before it reads the header; so two runs on the
same input bytes, `out_length` and version, from any values of the globals
and any contents of the output arrays, end alike: both return, with the same
returned length and the same `out[0..out_length)`, or both stop at the same
access outside a buffer.  The output arrays hold at least `out_length` bytes
and fewer than `2 ^ (8 * W) - 2 ^ 16` bytes. -/
theorem fresh_start (W : Nat) (inb : List Nat) (in_length1 in_length2 : Nat)
    (out1 out2 : List Nat) (out_length : Nat) (version : Int) (g1 g2 : State)
    (h1 : out_length ≤ out1.length) (h2 : out_length ≤ out2.length)
    (hs1 : out1.length + 2 ^ 16 ≤ 2 ^ (8 * W)) (hs2 : out2.length + 2 ^ 16 ≤ 2 ^ (8 * W)) :
    (reset_cursor in_length1 g1).jbi_in_index = 0 ∧
    (reset_cursor in_length1 g1).jbi_bits_avail = 8 ∧
    zero_loop out_length 0 out1 = .ok (List.replicate out_length 0 ++ out1.drop out_length) ∧
    Same_outcome (fun r1 r2 => r1.ret = r2.ret ∧ r1.out.take out_length = r2.out.take out_length)
      (jbi_uncompress W inb in_length1 out1 out_length version g1)
      (jbi_uncompress W inb in_length2 out2 out_length version g2) := by
  have hz := zero_loop_ok out_length 0 out1 (by omega)
  simp only [List.take_zero, List.nil_append, Nat.zero_add] at hz
  refine ⟨rfl, rfl, hz, ?_⟩
  rcases same_outcome_cases _ _ _ (jbi_uncompress_rel W inb in_length1 in_length2 out1 out2
      out_length version g1 g2 h1 h2 hs1 hs2) with ⟨e, e1, e2⟩ | ⟨a, b, e1, e2, hr, _, _, ho, _⟩
  · rw [e1, e2]
    exact same_outcome_error _ _
  · rw [e1, e2]
    exact ⟨hr, take_eq_of_same_out _ _ _ _ ho⟩

theorem fresh_start_witness :
    8 ≤ [9, 9, 9, 9, 9, 9, 9, 9, 9].length ∧ 8 ≤ [1, 2, 3, 4, 5, 6, 7, 8].length ∧
    [9, 9, 9, 9, 9, 9, 9, 9, 9].length + 2 ^ 16 ≤ 2 ^ (8 * 4) ∧
    [1, 2, 3, 4, 5, 6, 7, 8].length + 2 ^ 16 ≤ 2 ^ (8 * 4) ∧
    (ok_or (jbi_uncompress 4 [7, 0, 0, 0, 130, 132, 134, 70, 25] 9 [9, 9, 9, 9, 9, 9, 9, 9, 9]
      8 0 ⟨0, 0, 8, []⟩)).out = [0x41, 0x42, 0x43, 0x43, 0x43, 0x43, 0x43, 0, 9] ∧
    (ok_or (jbi_uncompress 4 [7, 0, 0, 0, 130, 132, 134, 70, 25] 9 [1, 2, 3, 4, 5, 6, 7, 8]
      8 0 ⟨5, 77, 3, [.rd_out 1]⟩)).out = [0x41, 0x42, 0x43, 0x43, 0x43, 0x43, 0x43, 0] ∧
    Same_outcome (fun r1 r2 => r1.ret = r2.ret ∧ r1.out.take 8 = r2.out.take 8)
      (jbi_uncompress 4 [7, 0, 0, 0, 130, 132, 134, 70, 25] 9 [9, 9, 9, 9, 9, 9, 9, 9, 9]
        8 0 ⟨0, 0, 8, []⟩)
      (jbi_uncompress 4 [7, 0, 0, 0, 130, 132, 134, 70, 25] 9 [1, 2, 3, 4, 5, 6, 7, 8]
        8 0 ⟨5, 77, 3, [.rd_out 1]⟩) :=
  ⟨by decide, by decide, by decide, by decide, by decide, by decide,
    (fresh_start 4 [7, 0, 0, 0, 130, 132, 134, 70, 25] 9 9 [9, 9, 9, 9, 9, 9, 9, 9, 9]
      [1, 2, 3, 4, 5, 6, 7, 8] 8 0 ⟨0, 0, 8, []⟩ ⟨5, 77, 3, [.rd_out 1]⟩
      (by decide) (by decide) (by decide) (by decide)).2.2.2⟩

/-- C19: header parse is independent of the body.  For two input buffers of
at least `W` bytes that agree on their first `W` bytes, the header loop of
`jbi_uncompress` computes the same declared length. -/
theorem header_independent (W : Nat) (inb1 inb2 : List Nat) (in_length : Nat) (g : State)
    (h1 : W ≤ inb1.length) (h2 : W ≤ inb2.length) (h : inb1.take W = inb2.take W) :
    ∃ L g1 g2, header_loop W inb1 W 0 0 (reset_cursor in_length g) = .ok (L, g1) ∧
      header_loop W inb2 W 0 0 (reset_cursor in_length g) = .ok (L, g2) ∧
      L = declared_length W inb1 ∧ L = declared_length W inb2 := by
  have hav : (reset_cursor in_length g).jbi_bits_avail ≤ 8 := by simp [reset_cursor, CHAR_BITS]
  have hp0 : bit_pos (reset_cursor in_length g) = 8 * 0 := by simp [reset_cursor, bit_pos, CHAR_BITS]
  have e1 := header_loop_ok W inb1 W 0 0 (reset_cursor in_length g) hav hp0 (by omega)
    (by omega) (by simp)
  have e2 := header_loop_ok W inb2 W 0 0 (reset_cursor in_length g) hav hp0 (by omega)
    (by omega) (by simp)
  simp only [List.drop_zero, Nat.pow_zero, Nat.one_mul, Nat.zero_add] at e1 e2
  rw [← h] at e2
  exact ⟨_, _, _, e1, e2, rfl, by rw [declared_length, ← h]⟩

theorem header_independent_witness :
    4 ≤ [0x34, 0x12, 0, 0, 0xFF].length ∧ 4 ≤ [0x34, 0x12, 0, 0, 7, 8, 9].length ∧
    [0x34, 0x12, 0, 0, 0xFF].take 4 = [0x34, 0x12, 0, 0, 7, 8, 9].take 4 ∧
    ∃ L g1 g2, header_loop 4 [0x34, 0x12, 0, 0, 0xFF] 4 0 0 (reset_cursor 5 ⟨0, 3, 2, []⟩)
        = .ok (L, g1) ∧
      header_loop 4 [0x34, 0x12, 0, 0, 7, 8, 9] 4 0 0 (reset_cursor 5 ⟨0, 3, 2, []⟩)
        = .ok (L, g2) ∧
      L = declared_length 4 [0x34, 0x12, 0, 0, 0xFF] ∧
      L = declared_length 4 [0x34, 0x12, 0, 0, 7, 8, 9] :=
  ⟨by decide, by decide, by decide,
    header_independent 4 [0x34, 0x12, 0, 0, 0xFF] [0x34, 0x12, 0, 0, 7, 8, 9] 5 ⟨0, 3, 2, []⟩
      (by decide) (by decide) (by decide)⟩

/-- C20, as amended: from the initial cursor `(0, 8)`, after every sequence
of reads with widths in 1..16 that stay inside the buffer `jbi_bits_avail`
lies in `[0, 8]`, and in `[0, 7]` after at least one read. -/
theorem cursor_invariant (buffer : List Nat) (ns : List Nat) (in_length : Nat)
    (log : List Access) (s : State) (hn : ∀ n ∈ ns, 1 ≤ n ∧ n ≤ 16)
    (h : read_seq buffer ns ⟨in_length, 0, 8, log⟩ = .ok s) :
    s.jbi_bits_avail ≤ 8 ∧ (ns ≠ [] → s.jbi_bits_avail ≤ 7) := by
  obtain ⟨h1, h2, _⟩ := read_seq_avail buffer ns ⟨in_length, 0, 8, log⟩ s hn (by simp) h
  exact ⟨h1, h2⟩

theorem cursor_invariant_witness :
    (∀ n ∈ [1, 7, 16], 1 ≤ n ∧ n ≤ 16) ∧
    read_seq [0x41, 0x42, 0x43, 0x44] [1, 7, 16] ⟨4, 0, 8, []⟩
      = .ok ⟨4, 2, 0, [.rd_in 0, .rd_in 0, .rd_in 0, .rd_in 1, .rd_in 2]⟩ ∧
    (⟨4, 2, 0, [.rd_in 0, .rd_in 0, .rd_in 0, .rd_in 1, .rd_in 2]⟩ : State).jbi_bits_avail ≤ 8 :=
  ⟨by decide, by decide,
    (cursor_invariant [0x41, 0x42, 0x43, 0x44] [1, 7, 16] 4 [] _ (by decide) (by decide)).1⟩

/-- C20, the claim as stated fails: one read of eight bits from the initial
cursor `(0, 8)` ends on a byte boundary and leaves `jbi_bits_avail = 0`,
outside `[1, 8]`. -/
theorem cursor_invariant_counterexample :
    ∃ s, read_seq [0x41] [8] ⟨1, 0, 8, []⟩ = .ok s ∧
      ¬ (1 ≤ s.jbi_bits_avail ∧ s.jbi_bits_avail ≤ 8) :=
  ⟨⟨1, 0, 0, [.rd_in 0]⟩, by decide, by decide⟩

/-- C21: literal token size.  When the token loop is at a position below
`L`, the flag bit read is 0, and the bytes of the token lie inside the input,
the token is read in full: with `k = min 3 (L - pos)`, which is at least 1,
the position advances by `k`, the `k` bytes that follow the flag bit in the
stream are stored at `out[pos], ..., out[pos + k - 1]`, the rest of the
output is left alone, and the bit position advances by exactly `1 + 8 * k`:
no padding follows a short last token. -/
theorem literal_token_size (W : Nat) (inb : List Nat) (L mws : Nat) (d : Dec) (g1 : State)
    (ha : d.g.jbi_bits_avail ≤ 8) (hi : d.i < L) (hout : L ≤ d.out.length)
    (hflag : jbi_read_packed inb 1 d.g = .ok (0, g1))
    (hin : bit_pos d.g + 1 + 8 * min 3 (L - d.i) ≤ 8 * inb.length) :
    ∃ d', token_step W inb L mws d = .ok d' ∧ 1 ≤ min 3 (L - d.i) ∧
      d'.i = d.i + min 3 (L - d.i) ∧
      bit_pos d'.g = bit_pos d.g + 1 + 8 * min 3 (L - d.i) ∧
      (∀ j, j < min 3 (L - d.i) →
        d'.out[d.i + j]? = some (bits_val inb (bit_pos d.g + 1 + 8 * j) 8)) ∧
      (∀ x, x < d.i ∨ d.i + min 3 (L - d.i) ≤ x → d'.out[x]? = d.out[x]?) ∧
      d'.out.length = d.out.length := by
  obtain ⟨f1, f2, _, _, _⟩ := read_packed_frame inb 1 d.g g1 0 ha (by decide) (by decide) hflag
  obtain ⟨d', e, h1, h2, h3, h4, h5, h6⟩ := literal_loop_bytes inb L DATA_BLOB_LENGTH
    ⟨d.i, d.out, g1⟩ f1 (by show bit_pos g1 + 8 * min 3 (L - d.i) ≤ _; omega) hout
  have h2' : bit_pos d'.g = bit_pos g1 + 8 * min 3 (L - d.i) := h2
  refine ⟨d', ?_, by omega, h1, by omega, ?_, h6, h4⟩
  · rw [token_step, hflag]
    simp only [if_true]
    exact e
  · intro j hj
    have := h5 j hj
    simp only at this
    rw [this, f2]

theorem literal_token_size_witness :
    (⟨0, [0, 0, 0, 0], ⟨6, 4, 8, []⟩⟩ : Dec).g.jbi_bits_avail ≤ 8 ∧
    (⟨0, [0, 0, 0, 0], ⟨6, 4, 8, []⟩⟩ : Dec).i < 2 ∧
    jbi_read_packed [2, 0, 0, 0, 0x82, 0x84, 0] 1 ⟨6, 4, 8, []⟩ = .ok (0, ⟨6, 4, 7, [.rd_in 4]⟩) ∧
    ∃ d', token_step 4 [2, 0, 0, 0, 0x82, 0x84, 0] 2 8192 ⟨0, [0, 0, 0, 0], ⟨6, 4, 8, []⟩⟩
        = .ok d' ∧ 1 ≤ min 3 (2 - 0) ∧ d'.i = 0 + min 3 (2 - 0) ∧
      bit_pos d'.g = bit_pos ⟨6, 4, 8, []⟩ + 1 + 8 * min 3 (2 - 0) ∧
      (∀ j, j < min 3 (2 - 0) → d'.out[0 + j]? =
        some (bits_val [2, 0, 0, 0, 0x82, 0x84, 0] (bit_pos ⟨6, 4, 8, []⟩ + 1 + 8 * j) 8)) ∧
      (∀ x, x < 0 ∨ 0 + min 3 (2 - 0) ≤ x → d'.out[x]? = [0, 0, 0, 0][x]?) ∧
      d'.out.length = [0, 0, 0, 0].length :=
  ⟨by decide, by decide, by decide,
    literal_token_size 4 [2, 0, 0, 0, 0x82, 0x84, 0] 2 8192 ⟨0, [0, 0, 0, 0], ⟨6, 4, 8, []⟩⟩
      ⟨6, 4, 7, [.rd_in 4]⟩ (by decide) (by decide) (by decide) (by decide) (by decide)⟩

/-- C22: decoding is bounded by the stream length.  From a state of the
token loop with `jbi_bits_avail ≤ 8`: an iteration that ends takes at least
9 bits of input and does not move the position back; a literal token takes
exactly `1 + 8 * min 3 (L - pos)` bits; a match token takes exactly
`1 + width + 8` bits, at least 10, whatever its length; a match token of
length 0 leaves the position and the output as they are; and when `n` full
iterations run from a cursor at or after bit `8 * W`, they take at least
`9 * n` bits inside the input, so `n ≤ 8 * (len - W) / 9`. -/
theorem decode_bounded (W : Nat) (inb : List Nat) (L mws : Nat) (hmws : mws ≤ 8192) (d : Dec)
    (ha : d.g.jbi_bits_avail ≤ 8) :
    (∀ d', d.i < L → token_step W inb L mws d = .ok d' →
      bit_pos d.g + 9 ≤ bit_pos d'.g ∧ d.i ≤ d'.i) ∧
    (∀ d' g1, d.i < L → jbi_read_packed inb 1 d.g = .ok (0, g1) →
      token_step W inb L mws d = .ok d' →
      bit_pos d'.g = bit_pos d.g + 1 + 8 * min 3 (L - d.i) ∧ 1 ≤ min 3 (L - d.i)) ∧
    (∀ d' flag g1, jbi_read_packed inb 1 d.g = .ok (flag, g1) → flag ≠ 0 →
      token_step W inb L mws d = .ok d' →
      bit_pos d'.g = bit_pos d.g + 1 + field_width mws d.i + 8 ∧
      bit_pos d.g + 10 ≤ bit_pos d'.g) ∧
    (∀ flag g1 offset g2 g3, jbi_read_packed inb 1 d.g = .ok (flag, g1) → flag ≠ 0 →
      jbi_read_packed inb (field_width mws d.i) g1 = .ok (offset, g2) →
      jbi_read_packed inb CHAR_BITS g2 = .ok (0, g3) →
      token_step W inb L mws d = .ok ⟨d.i, d.out, g3⟩) ∧
    (∀ n d', token_iterations W inb L mws n d = some d' →
      d.i ≤ d'.i ∧ bit_pos d.g + 9 * n ≤ bit_pos d'.g ∧
      (0 < n → bit_pos d'.g ≤ 8 * inb.length) ∧
      (8 * W ≤ bit_pos d.g → n ≤ 8 * (inb.length - W) / 9)) := by
  refine ⟨?_, ?_, ?_, ?_, ?_⟩
  · intro d' hi h
    obtain ⟨f1, f2, _⟩ := token_step_frame W inb L mws hmws d d' ha hi h
    exact ⟨f2, f1.1⟩
  · intro d' g1 hi hflag h
    rw [token_step, hflag] at h
    simp only [if_true] at h
    obtain ⟨f1, f2, _⟩ := read_packed_frame inb 1 d.g g1 0 ha (by decide) (by decide) hflag
    obtain ⟨_, _, k3, _⟩ := literal_loop_frame inb L DATA_BLOB_LENGTH ⟨d.i, d.out, g1⟩ d' f1 h
    have k3' : bit_pos d'.g = bit_pos g1 + 8 * min 3 (L - d.i) := k3
    constructor <;> omega
  · intro d' flag g1 hflag hf h
    obtain ⟨_, _, _, _, _, _, _, hb⟩ := token_step_match W inb L mws hmws d d' flag g1 ha hflag hf h
    have := (field_width_spec mws d.i hmws).2.1
    exact ⟨hb, by omega⟩
  · intro flag g1 offset g2 g3 hflag hf hoff hlen
    rw [token_step_eq W inb L mws hmws d, hflag]
    simp only
    rw [if_neg hf, hoff]
    simp only
    rw [hlen]
    rfl
  · intro n d' h
    obtain ⟨f1, f2, f3⟩ := token_iterations_frame W inb L mws hmws n d d' ha h
    refine ⟨f1.1, f2, f3, fun hW => ?_⟩
    by_cases hn : 0 < n
    · have := f3 hn
      rw [Nat.le_div_iff_mul_le (by decide)]
      omega
    · have : n = 0 := by omega
      rw [this]
      exact Nat.zero_le _

theorem decode_bounded_witness :
    (8192 : Nat) ≤ 8192 ∧ (⟨0, [0, 0, 0, 0], ⟨6, 4, 8, []⟩⟩ : Dec).g.jbi_bits_avail ≤ 8 ∧
    token_iterations 4 [2, 0, 0, 0, 0x82, 0x84, 0] 2 8192 1 ⟨0, [0, 0, 0, 0], ⟨6, 4, 8, []⟩⟩
      = some ⟨2, [0x41, 0x42, 0, 0], ⟨6, 6, 7, [.rd_in 4, .rd_in 4, .rd_in 5, .wr_out 0 0x41,
          .rd_in 5, .rd_in 6, .wr_out 1 0x42]⟩⟩ ∧
    (0 ≤ 2 ∧ bit_pos ⟨6, 4, 8, []⟩ + 9 * 1 ≤ bit_pos ⟨6, 6, 7, [.rd_in 4, .rd_in 4, .rd_in 5,
          .wr_out 0 0x41, .rd_in 5, .rd_in 6, .wr_out 1 0x42]⟩ ∧
      (0 < 1 → bit_pos ⟨6, 6, 7, [.rd_in 4, .rd_in 4, .rd_in 5, .wr_out 0 0x41, .rd_in 5,
          .rd_in 6, .wr_out 1 0x42]⟩ ≤ 8 * [2, 0, 0, 0, 0x82, 0x84, 0].length) ∧
      (8 * 4 ≤ bit_pos ⟨6, 4, 8, []⟩ → 1 ≤ 8 * ([2, 0, 0, 0, 0x82, 0x84, 0].length - 4) / 9)) :=
  ⟨by decide, by decide, by decide,
    (decode_bounded 4 [2, 0, 0, 0, 0x82, 0x84, 0] 2 8192 (by decide)
      ⟨0, [0, 0, 0, 0], ⟨6, 4, 8, []⟩⟩ (by decide)).2.2.2.2 1
      ⟨2, [0x41, 0x42, 0, 0], ⟨6, 6, 7, [.rd_in 4, .rd_in 4, .rd_in 5, .wr_out 0 0x41,
          .rd_in 5, .rd_in 6, .wr_out 1 0x42]⟩⟩ (by decide)⟩

/-- C23: the declared input length is never consulted.  For every input
buffer, output buffer, `out_length`, version and globals, two calls of
`jbi_uncompress` that differ only in the argument `in_length` end alike:
both fault the same way, or both return, with the same returned length, the
same final position, the same output, the same cursor and the same log of
accesses, so the same sequence of buffer reads; they differ only in
`jbi_in_length`, where each call leaves its own `in_length`. -/
theorem in_length_unused (W : Nat) (inb : List Nat) (in_length1 in_length2 : Nat)
    (out : List Nat) (out_length : Nat) (version : Int) (g : State) :
    jbi_uncompress W inb in_length1 out out_length version g =
      Except.map (fun r => ⟨r.ret, r.i, r.out, set_in_length in_length1 r.g⟩)
        (jbi_uncompress W inb in_length2 out out_length version g) ∧
    Same_outcome (fun r1 r2 => r1.ret = r2.ret ∧ r1.i = r2.i ∧ r1.out = r2.out ∧
        r1.g.jbi_in_index = r2.g.jbi_in_index ∧ r1.g.jbi_bits_avail = r2.g.jbi_bits_avail ∧
        r1.g.accesses = r2.g.accesses ∧
        r1.g.jbi_in_length = in_length1 ∧ r2.g.jbi_in_length = in_length2)
      (jbi_uncompress W inb in_length1 out out_length version g)
      (jbi_uncompress W inb in_length2 out out_length version g) := by
  have h1 := jbi_uncompress_in_length W inb in_length1 in_length2 out out_length version g
  have h2 := jbi_uncompress_in_length W inb in_length2 in_length2 out out_length version g
  refine ⟨h1, ?_⟩
  rw [h1]
  cases hr : jbi_uncompress W inb in_length2 out out_length version g with
  | error e => exact same_outcome_error _ e
  | ok r2 =>
    rw [hr] at h2
    have h3 : r2 = ⟨r2.ret, r2.i, r2.out, set_in_length in_length2 r2.g⟩ := by
      injection h2
    have h4 : r2.g.jbi_in_length = in_length2 := by
      have := congrArg (fun r : Result => r.g.jbi_in_length) h3
      exact this
    exact ⟨rfl, rfl, rfl, rfl, rfl, rfl, rfl, h4⟩

/-- C24, as amended: match sources are bounded by the width of the offset
field, not by the window.  When a token read in full is a match token, the
offset read for it is below `2 ^ width`, where `width` is the width of the
offset field at the position: so it is at most 8191, the window size, for a
version above 0 and at any position below 8192, and at most 16383 for
version 0, where the window size is 8192. -/
theorem match_offset_bound (W : Nat) (inb : List Nat) (L : Nat) (version : Int) (d d' : Dec)
    (flag : Nat) (g1 : State) (ha : d.g.jbi_bits_avail ≤ 8)
    (hflag : jbi_read_packed inb 1 d.g = .ok (flag, g1)) (hf : flag ≠ 0)
    (h : token_step W inb L (match_window version) d = .ok d') :
    ∃ offset length g2 g3,
      jbi_read_packed inb (field_width (match_window version) d.i) g1 = .ok (offset, g2) ∧
      jbi_read_packed inb CHAR_BITS g2 = .ok (length, g3) ∧
      copy_loop W offset L length { d with g := g3 } = .ok d' ∧
      offset < 2 ^ field_width (match_window version) d.i ∧
      offset ≤ 16383 ∧
      (version > 0 → offset ≤ 8191 ∧ offset ≤ match_window version) ∧
      (d.i < 8192 → offset ≤ 8191) := by
  have hmws := match_window_le version
  obtain ⟨offset, length, g2, g3, r1, r2, r3, _⟩ :=
    token_step_match W inb L (match_window version) hmws d d' flag g1 ha hflag hf h
  obtain ⟨f1, _⟩ := read_packed_frame inb 1 d.g g1 flag ha (by decide) (by decide) hflag
  obtain ⟨_, hw1, hw16⟩ := field_width_spec (match_window version) d.i hmws
  obtain ⟨_, hv, _⟩ := read_packed_inv inb _ g1 g2 offset f1 hw1 hw16 r1
  have hlt : offset < 2 ^ field_width (match_window version) d.i := by
    rw [hv]; exact bits_val_lt inb _ _
  obtain ⟨h14, h13⟩ := field_width_le (match_window version) d.i hmws
  have p14 : (2 : Nat) ^ field_width (match_window version) d.i ≤ 2 ^ 14 :=
    Nat.pow_le_pow_right (by decide) h14
  refine ⟨offset, length, g2, g3, r1, r2, r3, hlt, by omega, ?_, ?_⟩
  · intro hv0
    have hm : match_window version = 8191 := by rw [match_window_eq, if_pos hv0]
    have p13 : (2 : Nat) ^ field_width (match_window version) d.i ≤ 2 ^ 13 :=
      Nat.pow_le_pow_right (by decide) (h13 (by omega))
    constructor <;> omega
  · intro hd
    have p13 : (2 : Nat) ^ field_width (match_window version) d.i ≤ 2 ^ 13 :=
      Nat.pow_le_pow_right (by decide) (field_width_low _ _ hmws (by omega))
    omega

theorem match_offset_bound_witness :
    ∃ offset length g2 g3,
      jbi_read_packed [3, 0, 0, 0, 0x09, 0xA4, 0] (field_width (match_window 0) 0)
        ⟨7, 4, 7, [.rd_in 4]⟩ = .ok (offset, g2) ∧
      jbi_read_packed [3, 0, 0, 0, 0x09, 0xA4, 0] CHAR_BITS g2 = .ok (length, g3) ∧
      copy_loop 4 offset 3 length ⟨0, [0, 0, 0, 9], g3⟩ =
        .ok (ok_step (token_step 4 [3, 0, 0, 0, 0x09, 0xA4, 0] 3 (match_window 0)
          ⟨0, [0, 0, 0, 9], ⟨7, 4, 8, []⟩⟩)) ∧
      offset < 2 ^ field_width (match_window 0) 0 ∧ offset ≤ 16383 ∧
      ((0 : Int) > 0 → offset ≤ 8191 ∧ offset ≤ match_window 0) ∧
      (0 < 8192 → offset ≤ 8191) :=
  match_offset_bound 4 [3, 0, 0, 0, 0x09, 0xA4, 0] 3 0 ⟨0, [0, 0, 0, 9], ⟨7, 4, 8, []⟩⟩
    (ok_step (token_step 4 [3, 0, 0, 0, 0x09, 0xA4, 0] 3 (match_window 0)
      ⟨0, [0, 0, 0, 9], ⟨7, 4, 8, []⟩⟩))
    1 ⟨7, 4, 7, [.rd_in 4]⟩ (by decide) (by decide) (by decide) (by decide)

/-- C24, the claim as stated fails for version 0 at the stream `far_stream`,
96 bytes that declare a payload of 8419 bytes.  The call of `jbi_uncompress` returns 8419; its
token loop, after 34 full iterations, stands at position 8418 and reads there
a match token whose offset is 8193, above the window size 8192 of version 0;
and the last two accesses of the call are the read of `out[225]` and the
write of `out[8418]`, a copy from 8193 positions behind. -/
theorem match_offset_counterexample :
    far_stream =
    [227, 32, 0, 0, 130, 130, 130, 246, 63, 192, 255, 0, 254, 7, 240, 63, 128, 255, 1, 248, 31,
     128, 255, 1, 248, 31, 128, 255, 1, 240, 63, 0, 254, 7, 192, 255, 0, 248, 31, 0, 255, 3,
     224, 127, 0, 252, 15, 128, 255, 1, 224, 127, 0, 248, 31, 0, 254, 7, 128, 255, 1, 224, 127,
     0, 248, 31, 0, 254, 7, 128, 255, 1, 224, 127, 0, 248, 31, 0, 254, 7, 128, 255, 1, 224,
     127, 0, 248, 31, 0, 254, 7, 128, 255, 1, 96, 0] ∧
    ∃ (d : Dec) (g1 g2 : State) (r : Result),
      token_iterations 4 far_stream (declared_length 4 far_stream) (match_window 0) 34
        ⟨0, List.replicate 8419 0 ++ (List.replicate 8419 0).drop 8419,
          after_bytes (reset_cursor far_stream.length ⟨0, 0, 0, []⟩) 4⟩ = some d ∧
      d.i = 8418 ∧ d.i < declared_length 4 far_stream ∧
      jbi_read_packed far_stream 1 d.g = .ok (1, g1) ∧
      jbi_read_packed far_stream (field_width (match_window 0) d.i) g1 = .ok (8193, g2) ∧
      ¬ 8193 ≤ match_window 0 ∧
      jbi_uncompress 4 far_stream far_stream.length (List.replicate 8419 0) 8419 0
        ⟨0, 0, 0, []⟩ = .ok r ∧
      r.ret = 8419 ∧
      ∃ l b, r.g.accesses = l ++ [Access.rd_out 225, Access.wr_out 8418 b] := by
  refine ⟨far_stream_bytes, ?_⟩
  obtain ⟨hW, hdl, _⟩ := far_stream_spec
  have hm : match_window 0 = 8192 := by decide
  obtain ⟨d, t1, t2, hout, t5, hr1, hr2, hr3⟩ := far_stream_reach far_stream.length ⟨0, 0, 0, []⟩
  obtain ⟨b, hb⟩ : ∃ b, d.out[225]? = some b :=
    ⟨d.out.get ⟨225, by omega⟩, List.getElem?_eq_getElem (by omega)⟩
  have hu : usubl 4 d.i 8193 = 225 := by
    rw [t2]
    exact usubl_of_le 4 (by decide) (by decide)
  have hstep : token_step 4 far_stream 8419 8192 d = .ok ⟨d.i + 1, d.out.set d.i (b % 256),
      ⟨d.g.jbi_in_length,
        (cursor_after (cursor_after (cursor_after d.g 1) (field_width 8192 d.i)) 8).jbi_in_index,
        (cursor_after (cursor_after (cursor_after d.g 1) (field_width 8192 d.i)) 8).jbi_bits_avail,
        (cursor_after (cursor_after (cursor_after d.g 1) (field_width 8192 d.i)) 8).accesses ++
          [Access.rd_out 225, Access.wr_out d.i (b % 256)]⟩⟩ := by
    rw [token_step_reads 4 far_stream 8419 8192 (by decide) d 1 8193 1 _ _ _ hr1 (by decide)
      hr2 hr3, copy_loop_one 4 8193 8419 _ b (by show d.i < 8419; omega)
      (by show d.out[usubl 4 d.i 8193]? = some b; rw [hu]; exact hb)
      (by show d.i < d.out.length; omega)]
    show Except.ok (⟨d.i + 1, d.out.set d.i (b % 256), ⟨_, _, _,
        _ ++ [Access.rd_out (usubl 4 d.i 8193), Access.wr_out d.i (b % 256)]⟩⟩ : Dec) = _
    rw [hu]
    rfl
  obtain ⟨_, fb, fc⟩ := token_iterations_frame 4 far_stream 8419 8192 (by decide) 34
    ⟨0, List.replicate 8419 0 ++ (List.replicate 8419 0).drop 8419,
      after_bytes (reset_cursor far_stream.length ⟨0, 0, 0, []⟩) 4⟩ d
    (avail_after_bytes 4 (reset_cursor far_stream.length ⟨0, 0, 0, []⟩)
      (by show CHAR_BITS ≤ 8; decide)) t1
  have fc := fc (by decide)
  rw [show bit_pos (⟨0, List.replicate 8419 0 ++ (List.replicate 8419 0).drop 8419,
      after_bytes (reset_cursor far_stream.length ⟨0, 0, 0, []⟩) 4⟩ : Dec).g = 8 * 4
      from bit_pos_header _ _ _] at fb
  have hend : ∀ (k : Nat) (e : Dec), e.i = 8419 → token_loop 4 far_stream 8419 8192 k e = .ok e := by
    intro k e he
    cases k <;> rw [token_loop, if_neg (by omega)]
  have hloop : ∀ k, 35 ≤ k → token_loop 4 far_stream 8419 8192 k
      ⟨0, List.replicate 8419 0 ++ (List.replicate 8419 0).drop 8419,
        after_bytes (reset_cursor far_stream.length ⟨0, 0, 0, []⟩) 4⟩ =
      .ok ⟨d.i + 1, d.out.set d.i (b % 256),
        ⟨d.g.jbi_in_length,
          (cursor_after (cursor_after (cursor_after d.g 1) (field_width 8192 d.i)) 8).jbi_in_index,
          (cursor_after (cursor_after (cursor_after d.g 1) (field_width 8192 d.i)) 8).jbi_bits_avail,
          (cursor_after (cursor_after (cursor_after d.g 1) (field_width 8192 d.i)) 8).accesses ++
            [Access.rd_out 225, Access.wr_out d.i (b % 256)]⟩⟩ := by
    intro k hk
    obtain ⟨f, rfl⟩ : ∃ f, k = f + 1 + 34 := ⟨k - 35, by omega⟩
    rw [token_loop_iterations 4 far_stream 8419 8192 34 (f + 1) _ d t1, token_loop,
      if_pos (by omega), hstep]
    exact hend f _ (by show d.i + 1 = 8419; omega)
  have hres : jbi_uncompress 4 far_stream far_stream.length (List.replicate 8419 0) 8419 0
      ⟨0, 0, 0, []⟩ = .ok ⟨8419, d.i + 1, d.out.set d.i (b % 256),
        ⟨d.g.jbi_in_length,
          (cursor_after (cursor_after (cursor_after d.g 1) (field_width 8192 d.i)) 8).jbi_in_index,
          (cursor_after (cursor_after (cursor_after d.g 1) (field_width 8192 d.i)) 8).jbi_bits_avail,
          (cursor_after (cursor_after (cursor_after d.g 1) (field_width 8192 d.i)) 8).accesses ++
            [Access.rd_out 225, Access.wr_out d.i (b % 256)]⟩⟩ := by
    rw [jbi_uncompress_eq 4 far_stream _ _ 8419 0 _ hW (by rw [List.length_replicate]), hdl,
      if_neg (by omega), hm, hloop far_stream.length (by omega)]
  refine ⟨d, _, _, _, by rw [hdl, hm]; exact t1, t2, by omega, hr1,
    by rw [hm]; exact hr2, by rw [hm]; decide, hres, rfl,
    (cursor_after (cursor_after (cursor_after d.g 1) (field_width 8192 d.i)) 8).accesses,
    b % 256, ?_⟩
  show _ ++ [Access.rd_out 225, Access.wr_out d.i (b % 256)] = _
  rw [t2]

/-- C25: canonical cursor state.  From a cursor with `jbi_bits_avail ≤ 8` a
read of `1 ≤ n ≤ 16` bits that stays inside the buffer returns and leaves
`jbi_bits_avail ≤ 8`; with `q` the bit position where it ends, it leaves
exactly `jbi_in_index = (q - 1) / 8` and
`jbi_bits_avail = 8 * (jbi_in_index + 1) - q`, which is at most 7; and when
`q` is a multiple of 8 it leaves `jbi_bits_avail = 0` with `jbi_in_index`
still on the byte that ends at `q`. -/
theorem cursor_canonical (buffer : List Nat) (n : Nat) (g : State) (ha : g.jbi_bits_avail ≤ 8)
    (h1 : 1 ≤ n) (h2 : n ≤ 16) (hin : bit_pos g + n ≤ 8 * buffer.length) :
    ∃ v g', jbi_read_packed buffer n g = .ok (v, g') ∧ g'.jbi_bits_avail ≤ 8 ∧
      bit_pos g' = bit_pos g + n ∧
      g'.jbi_in_index = (bit_pos g + n - 1) / 8 ∧
      g'.jbi_bits_avail = 8 * (g'.jbi_in_index + 1) - (bit_pos g + n) ∧
      g'.jbi_bits_avail ≤ 7 ∧
      ((bit_pos g + n) % 8 = 0 →
        g'.jbi_bits_avail = 0 ∧ 8 * (g'.jbi_in_index + 1) = bit_pos g + n) := by
  refine ⟨_, _, read_packed_ok buffer n g ha h1 h2 hin, avail_cursor_after g n,
    bit_pos_cursor_after g n h1, rfl, rfl, ?_, ?_⟩
  · show 8 * ((bit_pos g + n - 1) / 8 + 1) - (bit_pos g + n) ≤ 7
    omega
  · intro h
    show 8 * ((bit_pos g + n - 1) / 8 + 1) - (bit_pos g + n) = 0 ∧
      8 * ((bit_pos g + n - 1) / 8 + 1) = bit_pos g + n
    omega

theorem cursor_canonical_witness :
    (⟨4, 0, 8, []⟩ : State).jbi_bits_avail ≤ 8 ∧ 1 ≤ 16 ∧ 16 ≤ 16 ∧
    bit_pos ⟨4, 0, 8, []⟩ + 16 ≤ 8 * [0x41, 0x42, 0x43, 0x44].length ∧
    ∃ v g', jbi_read_packed [0x41, 0x42, 0x43, 0x44] 16 ⟨4, 0, 8, []⟩ = .ok (v, g') ∧
      g'.jbi_bits_avail ≤ 8 ∧ bit_pos g' = bit_pos ⟨4, 0, 8, []⟩ + 16 ∧
      g'.jbi_in_index = (bit_pos ⟨4, 0, 8, []⟩ + 16 - 1) / 8 ∧
      g'.jbi_bits_avail = 8 * (g'.jbi_in_index + 1) - (bit_pos ⟨4, 0, 8, []⟩ + 16) ∧
      g'.jbi_bits_avail ≤ 7 ∧
      ((bit_pos ⟨4, 0, 8, []⟩ + 16) % 8 = 0 →
        g'.jbi_bits_avail = 0 ∧ 8 * (g'.jbi_in_index + 1) = bit_pos ⟨4, 0, 8, []⟩ + 16) :=
  ⟨by decide, by decide, by decide, by decide,
    cursor_canonical [0x41, 0x42, 0x43, 0x44] 16 ⟨4, 0, 8, []⟩ (by decide) (by decide)
      (by decide) (by decide)⟩

/-- C26: exact bounds condition of a read.  From a cursor with
`jbi_bits_avail ≤ 8` at bit position `p`, a read of `1 ≤ n ≤ 16` bits with
`p + n ≤ 8 * len` returns, and the buffer indices it accesses are
`jbi_in_index, ..., (p + n - 1) / 8`, each of them once per loop round, all
below `len`, the last one among them; with `p + n > 8 * len` the read leaves
the buffer.  So the read stays in bounds if and only if `p + n ≤ 8 * len`. -/
theorem read_bounds (buffer : List Nat) (n : Nat) (g : State) (ha : g.jbi_bits_avail ≤ 8)
    (h1 : 1 ≤ n) (h2 : n ≤ 16) :
    (bit_pos g + n ≤ 8 * buffer.length →
      ∃ (v : Nat) (g1 : State) (idxs : List Nat), jbi_read_packed buffer n g = .ok (v, g1) ∧
        g1.accesses = g.accesses ++ idxs.map Access.rd_in ∧
        (∀ x ∈ idxs, g.jbi_in_index ≤ x ∧ x ≤ (bit_pos g + n - 1) / 8 ∧ x < buffer.length) ∧
        (bit_pos g + n - 1) / 8 ∈ idxs) ∧
    (8 * buffer.length < bit_pos g + n → jbi_read_packed buffer n g = .error .in_overrun) ∧
    ((∃ r, jbi_read_packed buffer n g = .ok r) ↔ bit_pos g + n ≤ 8 * buffer.length) := by
  have hp : 8 * g.jbi_in_index ≤ bit_pos g := by rw [bit_pos]; omega
  refine ⟨fun hin => ?_, fun hout => read_packed_overrun buffer n g ha h1 h2 hout, ?_⟩
  · refine ⟨_, _, List.range' g.jbi_in_index ((bit_pos g + n - 1) / 8 + 1 - g.jbi_in_index),
      read_packed_ok buffer n g ha h1 h2 hin, rfl, ?_, ?_⟩
    · intro x hx
      rw [List.mem_range'_1] at hx
      omega
    · rw [List.mem_range'_1]
      omega
  · constructor
    · rintro ⟨⟨v, g'⟩, hr⟩
      exact (read_packed_inv buffer n g g' v ha h1 h2 hr).1
    · intro hin
      exact ⟨_, read_packed_ok buffer n g ha h1 h2 hin⟩

theorem read_bounds_witness :
    (⟨2, 0, 3, []⟩ : State).jbi_bits_avail ≤ 8 ∧ 1 ≤ 11 ∧ 11 ≤ 16 ∧
    bit_pos ⟨2, 0, 3, []⟩ + 11 ≤ 8 * [0xA5, 0x3C].length ∧
    ∃ (v : Nat) (g1 : State) (idxs : List Nat), jbi_read_packed [0xA5, 0x3C] 11 ⟨2, 0, 3, []⟩ = .ok (v, g1) ∧
      g1.accesses = (⟨2, 0, 3, []⟩ : State).accesses ++ idxs.map Access.rd_in ∧
      (∀ x ∈ idxs, (⟨2, 0, 3, []⟩ : State).jbi_in_index ≤ x ∧
        x ≤ (bit_pos ⟨2, 0, 3, []⟩ + 11 - 1) / 8 ∧ x < [0xA5, 0x3C].length) ∧
      (bit_pos ⟨2, 0, 3, []⟩ + 11 - 1) / 8 ∈ idxs :=
  ⟨by decide, by decide, by decide, by decide,
    (read_bounds [0xA5, 0x3C] 11 ⟨2, 0, 3, []⟩ (by decide) (by decide) (by decide)).1
      (by decide)⟩

/-- C27: every read request of the decoder respects the cursor
precondition.  At every position `pos` and for every version, the argument
that `jbi_uncompress` passes to `jbi_bits_required` is
`min pos matchWindowSize`, at most 8192 and unchanged by the cast to
`short`; the width returned lies in 1..14, in 1..13 for a version above 0;
and the reads of a token ask for 1 bit, for `CHAR_BITS = 8` bits or for
that width, all in 1..16. -/
theorem read_widths (version : Int) (pos : Nat) :
    offset_cap (match_window version) pos = min pos (match_window version) ∧
    min pos (match_window version) ≤ 8192 ∧
    to_short (min pos (match_window version)) = ((min pos (match_window version) : Nat) : Int) ∧
    CHAR_BITS = 8 ∧
    ∃ w, jbi_bits_required (offset_cap (match_window version) pos) = .ok w ∧
      w = field_width (match_window version) pos ∧
      1 ≤ w ∧ w ≤ (if version > 0 then 13 else 14) ∧ w ≤ 16 ∧
      ∀ (W : Nat) (inb : List Nat) (L : Nat) (out : List Nat) (g : State),
        token_step W inb L (match_window version) ⟨pos, out, g⟩ =
          match jbi_read_packed inb 1 g with
          | .error e => .error e
          | .ok (flag, g) =>
            if flag = 0 then
              literal_loop inb L DATA_BLOB_LENGTH ⟨pos, out, g⟩
            else
              match jbi_read_packed inb w g with
              | .error e => .error e
              | .ok (offset, g) =>
                match jbi_read_packed inb CHAR_BITS g with
                | .error e => .error e
                | .ok (length, g) => copy_loop W offset L length ⟨pos, out, g⟩ := by
  have hm := match_window_le version
  have hcap := offset_cap_eq (match_window version) pos hm
  obtain ⟨hw, hw1, hw16⟩ := field_width_spec (match_window version) pos hm
  obtain ⟨h14, h13⟩ := field_width_le (match_window version) pos hm
  refine ⟨hcap, by omega, ?_, rfl, field_width (match_window version) pos, ?_, rfl, hw1, ?_, hw16,
    ?_⟩
  · rw [to_short]
    have : min pos (match_window version) % 2 ^ 16 = min pos (match_window version) :=
      Nat.mod_eq_of_lt (by omega)
    rw [this, if_pos (by omega)]
  · rw [hcap]; exact hw
  · by_cases hv : version > 0
    · rw [if_pos hv]
      apply h13
      rw [match_window_eq, if_pos hv]
    · rw [if_neg hv]; exact h14
  · intro W inb L out g
    exact token_step_eq W inb L (match_window version) hm ⟨pos, out, g⟩

/-- C28: a match token with offset 0 is accepted and emits zeros.  Take a
call of `jbi_uncompress` whose zero fill stays inside the output buffer and
whose declared length `L` is at most `out_length`, and a state `d` that its
token loop reaches after any number of full iterations, at a position below
`L`.  Then `out[k] = 0` for every `k` from the position up to `out_length`;
and when the token read there is a match token with offset 0 and length
`len`, the token is read in full: with `m = min len (L - pos)` the position
advances by `m`, the output is left as it is, so `out[pos], ...,
out[pos + m - 1]` are 0, every access to the output reads or writes 0 at an
index in `pos .. pos + m - 1` inside the buffer, and the loop goes on from
the state reached.  At position 0 the offset field is 1 bit wide. -/
theorem offset_zero (W : Nat) (inb : List Nat) (in_length : Nat) (out : List Nat)
    (out_length : Nat) (version : Int) (g : State) (n : Nat) (d : Dec) (flag len : Nat)
    (g1 g2 g3 : State) (hcap : out_length ≤ out.length)
    (hfit : declared_length W inb ≤ out_length)
    (hreach : token_iterations W inb (declared_length W inb) (match_window version) n
      ⟨0, List.replicate out_length 0 ++ out.drop out_length,
        after_bytes (reset_cursor in_length g) W⟩ = some d)
    (hi : d.i < declared_length W inb)
    (hflag : jbi_read_packed inb 1 d.g = .ok (flag, g1)) (hf : flag ≠ 0)
    (hoff : jbi_read_packed inb (field_width (match_window version) d.i) g1 = .ok (0, g2))
    (hlen : jbi_read_packed inb CHAR_BITS g2 = .ok (len, g3)) :
    (∀ k, d.i ≤ k → k < out_length → d.out[k]? = some 0) ∧
    field_width (match_window version) 0 = 1 ∧
    ∃ d', token_step W inb (declared_length W inb) (match_window version) d = .ok d' ∧
      d'.i = d.i + min len (declared_length W inb - d.i) ∧ d'.out = d.out ∧
      (∀ k, d.i ≤ k → k < d.i + min len (declared_length W inb - d.i) → d'.out[k]? = some 0) ∧
      d'.g.jbi_in_index = g3.jbi_in_index ∧ d'.g.jbi_bits_avail = g3.jbi_bits_avail ∧
      (∃ l, d'.g.accesses = g3.accesses ++ l ∧
        ∀ a ∈ l, ∃ x, d.i ≤ x ∧ x < d.i + min len (declared_length W inb - d.i) ∧
          x < out.length ∧ (a = Access.rd_out x ∨ a = Access.wr_out x 0)) ∧
      token_iterations W inb (declared_length W inb) (match_window version) (n + 1)
        ⟨0, List.replicate out_length 0 ++ out.drop out_length,
          after_bytes (reset_cursor in_length g) W⟩ = some d' ∧
      ∀ fuel, token_loop W inb (declared_length W inb) (match_window version) (fuel + (n + 1))
          ⟨0, List.replicate out_length 0 ++ out.drop out_length,
            after_bytes (reset_cursor in_length g) W⟩ =
        token_loop W inb (declared_length W inb) (match_window version) fuel d' := by
  have hmws := match_window_le version
  have hav : (reset_cursor in_length g).jbi_bits_avail ≤ 8 := by simp [reset_cursor, CHAR_BITS]
  have ha0 := avail_after_bytes W (reset_cursor in_length g) hav
  obtain ⟨f, _, _⟩ := token_iterations_frame W inb (declared_length W inb) (match_window version)
    hmws n ⟨0, List.replicate out_length 0 ++ out.drop out_length,
      after_bytes (reset_cursor in_length g) W⟩ d ha0 hreach
  have hz := token_iterations_zeros W inb (declared_length W inb) (match_window version) hmws n
    out_length ⟨0, List.replicate out_length 0 ++ out.drop out_length,
      after_bytes (reset_cursor in_length g) W⟩ d ha0 hreach
    (fun k _ hk => zeros_getElem out out_length k hk)
  have hlen0 : d.out.length = out.length := by
    rw [f.2.2.1]
    simp only [List.length_append, List.length_replicate, List.length_drop]
    omega
  have hLW : declared_length W inb ≤ 2 ^ (8 * W) := by
    have h1 := le_value_lt (inb.take W)
    have h2 : (256 : Nat) ^ (inb.take W).length ≤ 256 ^ W :=
      Nat.pow_le_pow_right (by decide) (by rw [List.length_take]; omega)
    have h3 := pow256 W
    rw [declared_length]
    omega
  obtain ⟨d', e, h1, h2, h3, h4, l, h5, h6⟩ := copy_loop_zero W (declared_length W inb) hLW len
    ⟨d.i, d.out, g3⟩ (by show _ ≤ d.out.length; omega)
    (fun k hk hkL => hz k hk (by omega))
  simp only at h1 h2 h3 h4 h5 h6
  have hstep : token_step W inb (declared_length W inb) (match_window version) d = .ok d' := by
    rw [token_step_eq W inb _ _ hmws d, hflag]
    simp only
    rw [if_neg hf, hoff]
    simp only
    rw [hlen]
    exact e
  refine ⟨hz, ?_, d', hstep, h1, h2, ?_, h3, h4, ⟨l, h5, ?_⟩, ?_, ?_⟩
  · simp [field_width, jbi_bits_required]
  · intro k hk1 hk2
    rw [h2]
    exact hz k hk1 (by omega)
  · intro a ha
    obtain ⟨x, x1, x2, x3⟩ := h6 a ha
    exact ⟨x, x1, x2, by omega, x3⟩
  · exact token_iterations_succ W inb _ _ n _ d d' hreach hi hstep
  · intro fuel
    exact token_loop_iterations W inb _ _ (n + 1) fuel _ d'
      (token_iterations_succ W inb _ _ n _ d d' hreach hi hstep)

theorem offset_zero_witness :
    ∃ d', token_step 4 [3, 0, 0, 0, 0x09, 0xA4, 0]
        (declared_length 4 [3, 0, 0, 0, 0x09, 0xA4, 0]) (match_window 0)
        ⟨2, [0, 0, 0, 9], ⟨7, 5, 6, [.rd_in 0, .rd_in 0, .rd_in 1, .rd_in 1, .rd_in 2, .rd_in 2, .rd_in 3, .rd_in 3, .rd_in 4,
        .rd_in 4, .rd_in 4, .rd_in 5, .rd_out 0, .wr_out 0 0, .rd_out 1, .wr_out 1 0]⟩⟩ = .ok d' ∧
      d'.i = 2 + min 5 (declared_length 4 [3, 0, 0, 0, 0x09, 0xA4, 0] - 2) ∧
      d'.out = [0, 0, 0, 9] :=
  match offset_zero 4 [3, 0, 0, 0, 0x09, 0xA4, 0] 7 [9, 9, 9, 9] 3 0 ⟨0, 0, 0, []⟩ 1
      ⟨2, [0, 0, 0, 9], ⟨7, 5, 6, [.rd_in 0, .rd_in 0, .rd_in 1, .rd_in 1, .rd_in 2, .rd_in 2, .rd_in 3, .rd_in 3, .rd_in 4,
        .rd_in 4, .rd_in 4, .rd_in 5, .rd_out 0, .wr_out 0 0, .rd_out 1, .wr_out 1 0]⟩⟩ 1 5
      ⟨7, 5, 5, [.rd_in 0, .rd_in 0, .rd_in 1, .rd_in 1, .rd_in 2, .rd_in 2, .rd_in 3, .rd_in 3, .rd_in 4,
        .rd_in 4, .rd_in 4, .rd_in 5, .rd_out 0, .wr_out 0 0, .rd_out 1, .wr_out 1 0, .rd_in 5]⟩
      ⟨7, 5, 3, [.rd_in 0, .rd_in 0, .rd_in 1, .rd_in 1, .rd_in 2, .rd_in 2, .rd_in 3, .rd_in 3, .rd_in 4,
        .rd_in 4, .rd_in 4, .rd_in 5, .rd_out 0, .wr_out 0 0, .rd_out 1, .wr_out 1 0, .rd_in 5, .rd_in 5]⟩
      ⟨7, 6, 3, [.rd_in 0, .rd_in 0, .rd_in 1, .rd_in 1, .rd_in 2, .rd_in 2, .rd_in 3, .rd_in 3, .rd_in 4,
        .rd_in 4, .rd_in 4, .rd_in 5, .rd_out 0, .wr_out 0 0, .rd_out 1, .wr_out 1 0, .rd_in 5, .rd_in 5, .rd_in 5, .rd_in 6]⟩
      (by decide) (by decide) (by decide) (by decide) (by decide) (by decide) (by decide)
      (by decide) with
  | ⟨_, _, d', h1, h2, h3, _⟩ => ⟨d', h1, h2, h3⟩

/-- C29: the format version matters only beyond 8192 bytes.  When the
declared length is at most 8192, every two versions give the same call of
`jbi_uncompress`: the same returned length, output and globals, or the same
fault; and for any declared length two versions that agree on the test
`version > 0` give the same call, so a version below 0 decodes as version
0. -/
theorem version_window (W : Nat) (inb : List Nat) (in_length : Nat) (out : List Nat)
    (out_length : Nat) (v1 v2 : Int) (g : State) :
    (declared_length W inb ≤ 8192 →
      jbi_uncompress W inb in_length out out_length v1 g =
        jbi_uncompress W inb in_length out out_length v2 g) ∧
    ((v1 > 0 ↔ v2 > 0) →
      jbi_uncompress W inb in_length out out_length v1 g =
        jbi_uncompress W inb in_length out out_length v2 g) ∧
    (v1 ≤ 0 →
      jbi_uncompress W inb in_length out out_length v1 g =
        jbi_uncompress W inb in_length out out_length 0 g) := by
  have key : ∀ a b : Int, (a > 0 ↔ b > 0) → match_window a = match_window b := by
    intro a b h
    rw [match_window, match_window]
    by_cases hv : a > 0
    · rw [if_pos hv, if_pos (h.1 hv)]
    · rw [if_neg hv, if_neg (fun h2 => hv (h.2 h2))]
  refine ⟨fun hL => ?_, fun h => ?_, fun h => ?_⟩
  · apply jbi_uncompress_window
    intro fuel d
    rw [match_window_eq, match_window_eq]
    by_cases h1 : v1 > 0 <;> by_cases h2 : v2 > 0
    · rw [if_pos h1, if_pos h2]
    · rw [if_pos h1, if_neg h2]
      exact (token_loop_window W inb _ hL fuel d).symm
    · rw [if_neg h1, if_pos h2]
      exact token_loop_window W inb _ hL fuel d
    · rw [if_neg h1, if_neg h2]
  · apply jbi_uncompress_window
    intro fuel d
    rw [key v1 v2 h]
  · apply jbi_uncompress_window
    intro fuel d
    rw [key v1 0 ⟨fun h1 => absurd h1 (by omega), fun h0 => absurd h0 (by decide)⟩]

theorem version_window_witness :
    (declared_length 4 [2, 0, 0, 0, 0x82, 0x84, 0] ≤ 8192 ∧
      jbi_uncompress 4 [2, 0, 0, 0, 0x82, 0x84, 0] 7 [9, 9, 9, 9] 4 0 ⟨0, 0, 0, []⟩ =
        jbi_uncompress 4 [2, 0, 0, 0, 0x82, 0x84, 0] 7 [9, 9, 9, 9] 4 2 ⟨0, 0, 0, []⟩) ∧
    (((-3 : Int) > 0 ↔ (0 : Int) > 0) ∧
      jbi_uncompress 4 [2, 0, 0, 0, 0x82, 0x84, 0] 7 [9, 9, 9, 9] 4 (-3) ⟨0, 0, 0, []⟩ =
        jbi_uncompress 4 [2, 0, 0, 0, 0x82, 0x84, 0] 7 [9, 9, 9, 9] 4 0 ⟨0, 0, 0, []⟩) ∧
    ((-3 : Int) ≤ 0 ∧
      jbi_uncompress 4 [2, 0, 0, 0, 0x82, 0x84, 0] 7 [9, 9, 9, 9] 4 (-3) ⟨0, 0, 0, []⟩ =
        jbi_uncompress 4 [2, 0, 0, 0, 0x82, 0x84, 0] 7 [9, 9, 9, 9] 4 0 ⟨0, 0, 0, []⟩) :=
  ⟨⟨by decide, (version_window 4 [2, 0, 0, 0, 0x82, 0x84, 0] 7 [9, 9, 9, 9] 4 0 2
      ⟨0, 0, 0, []⟩).1 (by decide)⟩,
    ⟨by decide, (version_window 4 [2, 0, 0, 0, 0x82, 0x84, 0] 7 [9, 9, 9, 9] 4 (-3) 0
      ⟨0, 0, 0, []⟩).2.1 (by decide)⟩,
    ⟨by decide, (version_window 4 [2, 0, 0, 0, 0x82, 0x84, 0] 7 [9, 9, 9, 9] 4 (-3) 0
      ⟨0, 0, 0, []⟩).2.2 (by decide)⟩⟩

/-- C30, as amended: `jbi_bits_required` over the whole range of a 32-bit
`unsigned int`.  For `1 ≤ n ≤ 65535` the loop ends after exactly
`16 - jbi_bits_required n` iterations, at most 15; for `n = 0` the function
returns 1 without entering the loop; for `n ≥ 65536` with a nonzero low half
it returns what it returns for `n mod 65536`; and for `n ≠ 0` with
`n mod 65536 = 0` the value is zero after 16 shifts and the loop does not
end, whatever the number of tests allowed, so the function does not return. -/
theorem bits_required_range (n : Nat) :
    (1 ≤ n → n ≤ 65535 → ∃ r, jbi_bits_required n = .ok r ∧ 1 ≤ r ∧ r ≤ 16 ∧
      loop_ends_after n (16 - r) r ∧ 16 - r ≤ 15) ∧
    jbi_bits_required 0 = .ok 1 ∧
    (65536 ≤ n → n % 65536 ≠ 0 → jbi_bits_required n = jbi_bits_required (n % 65536) ∧
      ∃ r, jbi_bits_required n = .ok r) ∧
    (n ≠ 0 → n % 65536 = 0 → (fun m => u32 (m <<< 1))^[16] n = 0 ∧
      (∀ fuel r, bits_required_loop fuel n r = .error .no_return) ∧
      jbi_bits_required n = .error .no_return) := by
  refine ⟨?_, rfl, ?_, ?_⟩
  · intro h1 h2
    obtain ⟨hc, hl⟩ := bits_required_loop_count n h1 h2
    refine ⟨n.log2 + 1, bits_required_eq n h1 h2, by omega, by omega, ?_, by omega⟩
    rw [show 16 - (n.log2 + 1) = 15 - n.log2 by omega]
    exact hc
  · intro h1 h2
    have hn : n ≠ 0 := by omega
    have e : jbi_bits_required n = jbi_bits_required (n % 65536) := by
      rw [jbi_bits_required, jbi_bits_required, if_neg hn, if_neg h2]
      exact bits_required_loop_low _ _ _ _ (by omega)
    refine ⟨e, (n % 65536).log2 + 1, ?_⟩
    rw [e]
    exact bits_required_eq _ (by omega) (by omega)
  · intro h1 h2
    refine ⟨shift_out n h2, fun fuel r => bits_required_loop_diverges fuel n r h2, ?_⟩
    rw [jbi_bits_required, if_neg h1]
    exact bits_required_loop_diverges _ _ _ h2

theorem bits_required_range_witness :
    (∃ r, jbi_bits_required 5 = .ok r ∧ 1 ≤ r ∧ r ≤ 16 ∧ loop_ends_after 5 (16 - r) r ∧
      16 - r ≤ 15) ∧
    (jbi_bits_required 65541 = jbi_bits_required (65541 % 65536) ∧
      ∃ r, jbi_bits_required 65541 = .ok r) ∧
    ((fun m => u32 (m <<< 1))^[16] 65536 = 0 ∧
      (∀ fuel r, bits_required_loop fuel 65536 r = .error .no_return) ∧
      jbi_bits_required 65536 = .error .no_return) :=
  ⟨(bits_required_range 5).1 (by decide) (by decide),
    (bits_required_range 65541).2.2.1 (by decide) (by decide),
    (bits_required_range 65536).2.2.2 (by decide) (by decide)⟩

/-- C30, the claim as stated fails at `n = 0`, which is at most 65535:
`jbi_bits_required 0` is 1, and the loop does not end after `16 - 1`
iterations: the function returns without entering it, and entered with 0
the loop would not end at all. -/
theorem bits_required_range_counterexample :
    (0 : Nat) ≤ 65535 ∧ jbi_bits_required 0 = .ok 1 ∧ ¬ loop_ends_after 0 (16 - 1) 1 ∧
    bits_required_loop UINT_BITS 0 SHORT_BITS = .error .no_return := by
  decide

end JBI
